import Mathlib

/-!
Verification of the graph store, merge engine and query engine of
simple-graph-builder (src/graph/cache.ts, src/graph/merge.ts,
src/graph/tools.ts, src/graph/hashes.ts, src/types.ts).

The TypeScript code keeps node objects in several `Map`s that all alias the
same mutable objects.  We embed this with an explicit reference heap:
`Nat` references play the role of JS object identity, the `heap` field maps
a reference to the current field values of the object, and every index
stores references.  Edges are never field-mutated after creation, so they
are embedded by value.  JS `Map`s are insertion-ordered association lists;
JS arrays are lists, `push` appends, `indexOf`/`splice` erases the first
occurrence.  Timestamps (`Date.now()`) are explicit `Nat` parameters.
Scores in the fuzzy search are embedded as rationals.
-/

set_option maxHeartbeats 1000000

/-- JS `Map.get`: value of the entry with the given key (keys are unique). -/
def alGet [BEq κ] (m : List (κ × α)) (k : κ) : Option α :=
  match m with
  | [] => none
  | p :: t => if p.1 == k then some p.2 else alGet t k

/-- JS `Map.set`: replace the value in place if the key is present (keeping
the entry's position), else append a new entry. -/
def alSet [BEq κ] (m : List (κ × α)) (k : κ) (v : α) : List (κ × α) :=
  match m with
  | [] => [(k, v)]
  | p :: t => if p.1 == k then (k, v) :: t else p :: alSet t k v

/-- JS `Map.delete`: remove the entry with the given key. -/
def alDel [BEq κ] (m : List (κ × α)) (k : κ) : List (κ × α) :=
  match m with
  | [] => []
  | p :: t => if p.1 == k then alDel t k else p :: alDel t k

/-- The array stored in a bucket map under a key (`map.get(k)`, `[]` if absent). -/
def bGet [BEq κ] (m : List (κ × List α)) (k : κ) : List α :=
  (alGet m k).getD []

/-- The `if (!m.has(k)) m.set(k, []); m.get(k).push(x)` idiom on bucket maps. -/
def bPush [BEq κ] (m : List (κ × List α)) (k : κ) (x : α) : List (κ × List α) :=
  alSet m k (bGet m k ++ [x])

/-- The `const a = m.get(k); if (a) { const i = a.indexOf(x); if (i >= 0) a.splice(i, 1) }`
idiom on bucket maps: erase the first occurrence of `x` from the bucket of `k`. -/
def bErase [BEq κ] [BEq α] (m : List (κ × List α)) (k : κ) (x : α) : List (κ × List α) :=
  match alGet m k with
  | none => m
  | some arr => alSet m k (arr.erase x)

/-- The five relationship kinds of the v2 ontology schema (src/types.ts). -/
inductive RelationshipType where
  | HAS_PART | LEADS_TO | ACTED_ON | CITES | RELATED_TO
deriving DecidableEq, Repr

/-- String form of a relationship type, as interpolated into edge ids. -/
def RelationshipType.str : RelationshipType → String
  | .HAS_PART => "HAS_PART"
  | .LEADS_TO => "LEADS_TO"
  | .ACTED_ON => "ACTED_ON"
  | .CITES => "CITES"
  | .RELATED_TO => "RELATED_TO"

/-- A v2 ontology node (src/types.ts `OntologyNode`).  `properties` is the
JS object, an insertion-ordered association list that always carries a
`"name"` key; property values are opaque to the core and embedded as strings. -/
structure OntologyNode where
  id : String
  label : String
  properties : List (String × String)
  sourceNotes : List String
  createdAt : Nat
  updatedAt : Nat
deriving DecidableEq, Repr

/-- `node.properties.name` (the TS type makes the key mandatory). -/
def propName (ps : List (String × String)) : String :=
  (ps.lookup "name").getD ""

/-- A v2 ontology edge (src/types.ts `OntologyEdge`); `properties` always
carries a `"detail"` key. -/
structure OntologyEdge where
  id : String
  source : String
  target : String
  type : RelationshipType
  properties : List (String × String)
  sourceNote : Option String
  createdAt : Nat
deriving DecidableEq, Repr

/-- `edge.properties.detail`. -/
def propDetail (ps : List (String × String)) : String :=
  (ps.lookup "detail").getD ""

/-- JS `String.prototype.toLowerCase`, character by character (kernel-reducible,
unlike core `String.toLower`). -/
def lowerStr (s : String) : String :=
  ⟨s.data.map Char.toLower⟩

/-- JS `String.prototype.trim`: drop leading and trailing whitespace. -/
def trimStr (s : String) : String :=
  ⟨((s.data.dropWhile Char.isWhitespace).reverse.dropWhile Char.isWhitespace).reverse⟩

/-- The state of the v2 `GraphCache` (src/graph/cache.ts): the canonical
`nodes`/`edges` collections and every derived index.  `heap`/`nextRef`
model JS object identity for the mutable node objects; every node index
stores references. -/
structure GraphCache where
  heap : List (Nat × OntologyNode) := []
  nextRef : Nat := 0
  nodes : List Nat := []
  edges : List OntologyEdge := []
  version : Nat := 2
  dirty : Bool := false
  nodeById : List (String × Nat) := []
  nodesByLabel : List (String × List Nat) := []
  nodesBySourceNote : List (String × List Nat) := []
  nodeByName : List (String × Nat) := []
  edgeById : List (String × OntologyEdge) := []
  edgesBySource : List (String × List OntologyEdge) := []
  edgesByTarget : List (String × List OntologyEdge) := []
  edgesBySourceNote : List (String × List OntologyEdge) := []
deriving DecidableEq, Repr

/-- A fresh, empty cache. -/
def emptyCache : GraphCache := {}

/-- Dereference a node object. -/
def heapGet (c : GraphCache) (r : Nat) : Option OntologyNode :=
  alGet c.heap r

/-- Overwrite the fields of the node object behind `r` (JS field mutation /
`Object.assign`). -/
def heapSet (c : GraphCache) (r : Nat) (v : OntologyNode) : GraphCache :=
  { c with heap := alSet c.heap r v }

/-- Mutate the node object behind `r` in place. -/
def heapModify (c : GraphCache) (r : Nat) (f : OntologyNode → OntologyNode) : GraphCache :=
  match heapGet c r with
  | none => c
  | some v => heapSet c r (f v)

/-- `markDirty` without the (out-of-scope) debounce timer: set the dirty flag. -/
def GraphCache.markDirty (c : GraphCache) : GraphCache :=
  { c with dirty := true }

/-- `indexNode`: add the node object behind `r` to all indexes, using its
current field values. -/
def GraphCache.indexNode (c : GraphCache) (r : Nat) : GraphCache :=
  match heapGet c r with
  | none => c
  | some v =>
    { c with
      nodeById := alSet c.nodeById v.id r
      nodesByLabel := bPush c.nodesByLabel v.label r
      nodesBySourceNote := v.sourceNotes.foldl (fun m p => bPush m p r) c.nodesBySourceNote
      nodeByName := alSet c.nodeByName (lowerStr (propName v.properties)) r }

/-- `unindexNode`: remove the node object behind `r` from all indexes, keyed
by its current field values. -/
def GraphCache.unindexNode (c : GraphCache) (r : Nat) : GraphCache :=
  match heapGet c r with
  | none => c
  | some v =>
    { c with
      nodeById := alDel c.nodeById v.id
      nodeByName := alDel c.nodeByName (lowerStr (propName v.properties))
      nodesByLabel := bErase c.nodesByLabel v.label r
      nodesBySourceNote := v.sourceNotes.foldl (fun m p => bErase m p r) c.nodesBySourceNote }

/-- `indexEdge`. -/
def GraphCache.indexEdge (c : GraphCache) (e : OntologyEdge) : GraphCache :=
  { c with
    edgeById := alSet c.edgeById e.id e
    edgesBySource := bPush c.edgesBySource e.source e
    edgesByTarget := bPush c.edgesByTarget e.target e
    edgesBySourceNote :=
      match e.sourceNote with
      | some p => bPush c.edgesBySourceNote p e
      | none => c.edgesBySourceNote }

/-- `unindexEdge`. -/
def GraphCache.unindexEdge (c : GraphCache) (e : OntologyEdge) : GraphCache :=
  { c with
    edgeById := alDel c.edgeById e.id
    edgesBySource := bErase c.edgesBySource e.source e
    edgesByTarget := bErase c.edgesByTarget e.target e
    edgesBySourceNote :=
      match e.sourceNote with
      | some p => bErase c.edgesBySourceNote p e
      | none => c.edgesBySourceNote }

/-- The shared tail of `addNode`: push an already-allocated node object onto
`this.nodes`, index it and mark dirty. -/
def GraphCache.addNodeRef (c : GraphCache) (r : Nat) : GraphCache :=
  (GraphCache.indexNode { c with nodes := c.nodes ++ [r] } r).markDirty

/-- `addNode(node)`: if a node object with this id is registered, unindex it
and splice it out of `this.nodes` first; then register the freshly passed
object (a new reference) and index it. -/
def GraphCache.addNode (c : GraphCache) (v : OntologyNode) : GraphCache :=
  let c1 :=
    match alGet c.nodeById v.id with
    | some r0 =>
      let cU := GraphCache.unindexNode c r0
      { cU with nodes := cU.nodes.erase r0 }
    | none => c
  let r := c1.nextRef
  let c2 := { c1 with heap := alSet c1.heap r v, nextRef := r + 1 }
  GraphCache.addNodeRef c2 r

/-- `updateNode(node)`: the callers always pass a node object already owned
by the cache, so the argument is a reference.  If its id is unknown, fall
back to the `addNode` tail on the same object; otherwise unindex the
registered object, `Object.assign` the passed fields onto it and re-index. -/
def GraphCache.updateNode (c : GraphCache) (r : Nat) : GraphCache :=
  match heapGet c r with
  | none => c
  | some v =>
    match alGet c.nodeById v.id with
    | none => GraphCache.addNodeRef c r
    | some r0 =>
      let c1 := GraphCache.unindexNode c r0
      let c2 := heapSet c1 r0 v
      (GraphCache.indexNode c2 r0).markDirty

/-- `removeEdge(id)`. -/
def GraphCache.removeEdge (c : GraphCache) (id : String) : GraphCache × Bool :=
  match alGet c.edgeById id with
  | none => (c, false)
  | some e =>
    let c1 := { c with edges := c.edges.erase e }
    ((GraphCache.unindexEdge c1 e).markDirty, true)

/-- `removeEdgesByNode(nodeId)`: collect the ids of all incident edges, then
remove them one by one. -/
def GraphCache.removeEdgesByNode (c : GraphCache) (nodeId : String) : GraphCache :=
  ((c.edges.filter (fun e => e.source == nodeId || e.target == nodeId)).map (·.id)).foldl
    (fun acc id => (GraphCache.removeEdge acc id).1) c

/-- `removeNode(id)`: splice out of `this.nodes`, unindex (by the object's
current field values), cascade-remove incident edges. -/
def GraphCache.removeNode (c : GraphCache) (id : String) : GraphCache × Bool :=
  match alGet c.nodeById id with
  | none => (c, false)
  | some r =>
    let c1 := { c with nodes := c.nodes.erase r }
    let c2 := GraphCache.unindexNode c1 r
    let c3 := GraphCache.removeEdgesByNode c2 id
    (c3.markDirty, true)

/-- `addEdge(edge)`: silently ignored when the id already exists. -/
def GraphCache.addEdge (c : GraphCache) (e : OntologyEdge) : GraphCache :=
  if (alGet c.edgeById e.id).isSome then c
  else (GraphCache.indexEdge { c with edges := c.edges ++ [e] } e).markDirty

/-- `clear()`: empty both collections, rebuild (now empty) indexes, mark dirty. -/
def GraphCache.clear (c : GraphCache) : GraphCache :=
  GraphCache.markDirty
    { c with
      nodes := [], edges := [],
      nodeById := [], nodesByLabel := [], nodesBySourceNote := [], nodeByName := [],
      edgeById := [], edgesBySource := [], edgesByTarget := [], edgesBySourceNote := [] }

/-- `getNodeById` as used with mutation in the merge engine: the reference. -/
def GraphCache.getNodeByIdRef (c : GraphCache) (id : String) : Option Nat :=
  alGet c.nodeById id

/-- `getNodeById`, dereferenced (read-only callers). -/
def GraphCache.getNodeById (c : GraphCache) (id : String) : Option OntologyNode :=
  (alGet c.nodeById id).bind (heapGet c)

/-- `getNodeByName` (case-insensitive) as a reference, for the merge engine. -/
def GraphCache.getNodeByNameRef (c : GraphCache) (name : String) : Option Nat :=
  alGet c.nodeByName (lowerStr name)

/-- `getNodeByName`, dereferenced (read-only callers). -/
def GraphCache.getNodeByName (c : GraphCache) (name : String) : Option OntologyNode :=
  (alGet c.nodeByName (lowerStr name)).bind (heapGet c)

/-- `getAllNodes()` (dereferenced shallow copy of `this.nodes`). -/
def GraphCache.getAllNodes (c : GraphCache) : List OntologyNode :=
  c.nodes.filterMap (heapGet c)

/-- `getAllEdges()`. -/
def GraphCache.getAllEdges (c : GraphCache) : List OntologyEdge :=
  c.edges

/-- `getNodesBySourceNote(notePath)`, dereferenced. -/
def GraphCache.getNodesBySourceNote (c : GraphCache) (p : String) : List OntologyNode :=
  (bGet c.nodesBySourceNote p).filterMap (heapGet c)

/-- `getEdgeById(id)`. -/
def GraphCache.getEdgeById (c : GraphCache) (id : String) : Option OntologyEdge :=
  alGet c.edgeById id

/-- `getConnectedEdges(nodeId)`: outgoing bucket then incoming bucket. -/
def GraphCache.getConnectedEdges (c : GraphCache) (nodeId : String) : List OntologyEdge :=
  bGet c.edgesBySource nodeId ++ bGet c.edgesByTarget nodeId

/-- `generateNodeId(label, name)` (src/graph/merge.ts). -/
def generateNodeId (label name : String) : String :=
  lowerStr label ++ ":" ++ trimStr (lowerStr name)

/-- `generateEdgeId(source, target, type)` (src/graph/merge.ts). -/
def generateEdgeId (source target : String) (ty : RelationshipType) : String :=
  source ++ "->" ++ target ++ ":" ++ ty.str

/-- `normalizeName(name)`: trim whitespace. -/
def normalizeName (name : String) : String :=
  trimStr name

/-- A raw node of an extraction batch (src/types.ts `RawExtractionNode`);
`properties` always carries a `"name"` key. -/
structure RawExtractionNode where
  id : String
  label : String
  properties : List (String × String)
deriving DecidableEq, Repr

/-- A raw relationship of an extraction batch; `properties` always carries a
`"detail"` key. -/
structure RawExtractionRelationship where
  source : String
  target : String
  type : RelationshipType
  properties : List (String × String)
deriving DecidableEq, Repr

/-- One extraction batch. -/
structure OntologyExtractionResult where
  nodes : List RawExtractionNode
  relationships : List RawExtractionRelationship
deriving DecidableEq, Repr

/-- The property-merge loop of `mergeExtractionIntoCache`: copy every raw
property whose key is not `"name"` and not already present. -/
def mergeProps (existing rawProps : List (String × String)) : List (String × String) :=
  rawProps.foldl
    (fun ps kv =>
      if kv.1 == "name" then ps
      else if (ps.lookup kv.1).isSome then ps
      else ps ++ [kv])
    existing

/-- The properties object of a freshly created node:
`{ name: normalizedName, ...entries minus name }`. -/
def newNodeProps (normalizedName : String) (rawProps : List (String × String)) :
    List (String × String) :=
  ("name", normalizedName) :: rawProps.filter (fun kv => kv.1 != "name")

/-- The properties object of a freshly created edge:
`{ detail: raw.detail, ...entries minus detail }`. -/
def newEdgeProps (rawProps : List (String × String)) : List (String × String) :=
  ("detail", propDetail rawProps) :: rawProps.filter (fun kv => kv.1 != "detail")

/-- One iteration of the node loop of `mergeExtractionIntoCache`.  The state
is (cache, idMap, nodesAdded).  A reference registered in an index always
has a heap entry, so the `getD` fallback when dereferencing
`existingByName.id` is never taken. -/
def processRawNode (notePath : String) (now : Nat)
    (st : GraphCache × List (String × String) × Nat) (rawNode : RawExtractionNode) :
    GraphCache × List (String × String) × Nat :=
  let (c, idMap, nodesAdded) := st
  let normalizedName := normalizeName (propName rawNode.properties)
  let existingByName := c.getNodeByNameRef normalizedName
  let nodeId :=
    match existingByName with
    | some r => ((heapGet c r).map (·.id)).getD (generateNodeId rawNode.label normalizedName)
    | none => generateNodeId rawNode.label normalizedName
  let idMap1 := alSet idMap rawNode.id nodeId
  let existing := existingByName <|> c.getNodeByIdRef nodeId
  match existing with
  | some r =>
    let c1 := heapModify c r (fun n =>
      let n1 :=
        if n.sourceNotes.contains notePath then n
        else { n with sourceNotes := n.sourceNotes ++ [notePath] }
      let n2 := { n1 with updatedAt := now }
      { n2 with properties := mergeProps n2.properties rawNode.properties })
    (c1.updateNode r, idMap1, nodesAdded)
  | none =>
    let newNode : OntologyNode :=
      { id := nodeId, label := rawNode.label,
        properties := newNodeProps normalizedName rawNode.properties,
        sourceNotes := [notePath], createdAt := now, updatedAt := now }
    (c.addNode newNode, idMap1, nodesAdded + 1)

/-- One iteration of the relationship loop of `mergeExtractionIntoCache`.
Unmapped or missing endpoints make the relationship a logged no-op. -/
def processRawRel (notePath : String) (now : Nat) (idMap : List (String × String))
    (st : GraphCache × Nat) (rawRel : RawExtractionRelationship) : GraphCache × Nat :=
  let (c, relationshipsAdded) := st
  match alGet idMap rawRel.source, alGet idMap rawRel.target with
  | some sourceId, some targetId =>
    if (c.getNodeByIdRef sourceId).isNone || (c.getNodeByIdRef targetId).isNone then st
    else
      let edgeId := generateEdgeId sourceId targetId rawRel.type
      if (alGet c.edgeById edgeId).isNone then
        let newEdge : OntologyEdge :=
          { id := edgeId, source := sourceId, target := targetId, type := rawRel.type,
            properties := newEdgeProps rawRel.properties,
            sourceNote := some notePath, createdAt := now }
        (c.addEdge newEdge, relationshipsAdded + 1)
      else st
  | _, _ => st

/-- The result record of a merge, together with the per-call temporary-id
mapping built by the node loop (internal in the source, exposed for
specification). -/
structure MergeResult where
  cache : GraphCache
  idMap : List (String × String)
  nodesAdded : Nat
  relationshipsAdded : Nat
deriving DecidableEq, Repr

/-- `mergeExtractionIntoCache(cache, notePath, extraction)` with
`Date.now()` passed explicitly. -/
def mergeExtractionIntoCache (c : GraphCache) (notePath : String)
    (extraction : OntologyExtractionResult) (now : Nat) : MergeResult :=
  let st := extraction.nodes.foldl (processRawNode notePath now) (c, [], 0)
  let (c1, idMap, nodesAdded) := st
  let st2 := extraction.relationships.foldl (processRawRel notePath now idMap) (c1, 0)
  ⟨st2.1, idMap, nodesAdded, st2.2⟩

/-- One iteration of the node loop of `removeNoteFromCache`: re-assign the
node object's `sourceNotes` to the filtered list (mutating the object all
indexes alias), then remove the node if orphaned, else write it back. -/
def removeNoteNodeStep (notePath : String) (st : GraphCache × Nat) (nodeId : String) :
    GraphCache × Nat :=
  let (c, nodesRemoved) := st
  match c.getNodeByIdRef nodeId with
  | none => st
  | some r =>
    match heapGet c r with
    | none => st
    | some v =>
      let newNotes := v.sourceNotes.filter (fun p => p != notePath)
      let c1 := heapSet c r { v with sourceNotes := newNotes }
      if newNotes.isEmpty then ((c1.removeNode nodeId).1, nodesRemoved + 1)
      else (c1.updateNode r, nodesRemoved)

/-- `removeNoteFromCache(cache, notePath)` (src/graph/merge.ts): remove all
edges sourced from the note, then withdraw the note from every node that
references it, deleting orphaned nodes.  Returns (cache, nodesRemoved,
edgesRemoved). -/
def removeNoteFromCache (c : GraphCache) (notePath : String) : GraphCache × Nat × Nat :=
  let edgesToRemove := (c.getAllEdges.filter (fun e => e.sourceNote == some notePath)).map (·.id)
  let c1 := edgesToRemove.foldl (fun acc id => (GraphCache.removeEdge acc id).1) c
  let edgesRemoved := edgesToRemove.length
  let nodesToCheck := (c1.getAllNodes.filter (fun n => n.sourceNotes.contains notePath)).map (·.id)
  let st := nodesToCheck.foldl (removeNoteNodeStep notePath) (c1, 0)
  (st.1, st.2, edgesRemoved)

/-- `.replace(/\s+/g, '')`: drop every whitespace character. -/
def stripWs (s : String) : String :=
  ⟨s.data.filter (fun ch => !ch.isWhitespace)⟩

/-- JS `String.indexOf`: first index at which `sub` occurs in `l`. -/
def idxOf : List Char → List Char → Option Nat
  | [], sub => if sub.isPrefixOf ([] : List Char) then some 0 else none
  | a :: t, sub => if sub.isPrefixOf (a :: t) then some 0 else (idxOf t sub).map (· + 1)

/-- The 2-character sliding windows of a character list. -/
def bigramList : List Char → List (List Char)
  | a :: b :: t => [a, b] :: bigramList (b :: t)
  | _ => []

/-- `generateBigrams(text)`: lowercase, strip whitespace, collect the
sliding windows into a set (deduplicated). -/
def generateBigrams (text : String) : List (List Char) :=
  (bigramList (stripWs (lowerStr text)).data).dedup

/-- `jaccardSimilarity(setA, setB)` over deduplicated bigram lists. -/
def jaccardSimilarity (A B : List (List Char)) : ℚ :=
  if A.length == 0 && B.length == 0 then 0
  else
    let inter := (A.filter (fun x => B.contains x)).length
    let union := A.length + B.length - inter
    if union == 0 then 0 else (inter : ℚ) / (union : ℚ)

/-- `calculateMatchScore(query, name)` (src/graph/tools.ts), with scores as
rationals.  Tier order: exact, starts-with, name-contains-query,
query-contains-name, bigram Jaccard fallback. -/
def calculateMatchScore (query name : String) : ℚ :=
  let queryLower := stripWs (lowerStr query)
  let nameLower := stripWs (lowerStr name)
  if nameLower == queryLower then 1
  else if queryLower.data.isPrefixOf nameLower.data then
    let lenFrac : ℚ := (queryLower.length : ℚ) / (nameLower.length : ℚ)
    9/10 + lenFrac * (9/100)
  else if (idxOf nameLower.data queryLower.data).isSome then
    let pos : ℚ := (((idxOf nameLower.data queryLower.data).getD 0 : Nat) : ℚ)
    let posBonus : ℚ := max 0 (1/10 - pos * (1/100))
    let lenFrac : ℚ := (queryLower.length : ℚ) / (nameLower.length : ℚ)
    7/10 + lenFrac * (1/10) + posBonus
  else if (idxOf queryLower.data nameLower.data).isSome then
    let lenFrac : ℚ := (nameLower.length : ℚ) / (queryLower.length : ℚ)
    6/10 + lenFrac * (1/10)
  else
    let queryBigrams := generateBigrams query
    let nameBigrams := generateBigrams name
    if queryBigrams.length == 0 || nameBigrams.length == 0 then 0
    else
      let sim := jaccardSimilarity queryBigrams nameBigrams
      if 3/10 < sim then 3/10 + (sim - 3/10) * (43/100) else 0

/-- `Math.round(score * 100) / 100` (round half up). -/
def round2 (q : ℚ) : ℚ :=
  ((⌊q * 100 + 1/2⌋ : ℤ) : ℚ) / 100

/-- One row of a search result. -/
structure SearchNodeResult where
  name : String
  label : String
  score : ℚ
deriving DecidableEq, Repr

/-- Insert into a descending-by-score list, after every earlier element of
strictly greater or equal score is kept in front of later equal-score
elements (stable). -/
def insertByScore (x : SearchNodeResult) : List SearchNodeResult → List SearchNodeResult
  | [] => [x]
  | y :: t => if y.score ≤ x.score then x :: y :: t else y :: insertByScore x t

/-- `results.sort((a, b) => b.score - a.score)`: stable descending sort. -/
def sortByScoreDesc : List SearchNodeResult → List SearchNodeResult
  | [] => []
  | x :: t => insertByScore x (sortByScoreDesc t)

/-- The body of the scoring loop of `searchNodes`: skip label-filtered
nodes, score the rest, keep positive scores rounded to two decimals. -/
def searchStep (queryTrimmed : String) (labelFilter : Option String)
    (acc : List SearchNodeResult) (node : OntologyNode) : List SearchNodeResult :=
  if (match labelFilter with
      | some l => node.label != l
      | none => false) then acc
  else
    let score := calculateMatchScore queryTrimmed (propName node.properties)
    if 0 < score then
      acc ++ [⟨propName node.properties, node.label, round2 score⟩]
    else acc

/-- `searchNodes(cache, query, label)` (src/graph/tools.ts).  An absent
label filter is `none` (in JS an empty-string label is falsy and also
disables the filter). -/
def searchNodes (c : GraphCache) (query : String) (labelFilter : Option String) :
    List SearchNodeResult :=
  let queryTrimmed := trimStr query
  if queryTrimmed == "" then []
  else
    let results := c.getAllNodes.foldl (searchStep queryTrimmed labelFilter) []
    (sortByScoreDesc results).take 20

/-- One row of a bounded-reachability result. -/
structure ConnectedNodeResult where
  name : String
  label : String
  path : List String
deriving DecidableEq, Repr

/-- One step of a shortest-path result. -/
structure PathStep where
  node : String
  via : Option RelationshipType
  detail : Option String
deriving DecidableEq, Repr

/-- The result of `findPath`. -/
structure PathResult where
  found : Bool
  path : List PathStep
deriving DecidableEq, Repr

/-- Fuel bound for the BFS loops: every iteration dequeues one entry, and an
entry is enqueued only initially (once) or when its node id is newly marked
visited, which can happen at most twice per edge (its two endpoints), so
both loops always finish within this bound. -/
def bfsFuel (c : GraphCache) : Nat :=
  2 * c.edges.length + c.nodes.length + 2

/-- One edge-expansion step of the BFS of `getConnectedNodes`; the state is
(queue, visited, results) and `id`/`path`/`depth` describe the dequeued
entry.  The neighbor id is marked visited before the node lookup. -/
def connectedStep (c : GraphCache) (id : String) (path : List String) (depth : Nat)
    (acc : List (String × List String × Nat) × List String × List ConnectedNodeResult)
    (e : OntologyEdge) :
    List (String × List String × Nat) × List String × List ConnectedNodeResult :=
  let (q, vis, res) := acc
  let neighborId := if e.source == id then e.target else e.source
  if vis.contains neighborId then acc
  else
    let vis1 := vis ++ [neighborId]
    match c.getNodeById neighborId with
    | some n =>
      let newPath := path ++ [propName n.properties]
      (q ++ [(neighborId, newPath, depth + 1)], vis1,
        res ++ [⟨propName n.properties, n.label, newPath⟩])
    | none => (q, vis1, res)

/-- The `while (queue.length > 0)` loop of `getConnectedNodes`. -/
def connectedLoop (c : GraphCache) (maxHops : Nat) :
    Nat → List (String × List String × Nat) → List String → List ConnectedNodeResult →
    List ConnectedNodeResult
  | 0, _, _, results => results
  | _ + 1, [], _, results => results
  | fuel + 1, (id, path, depth) :: queue, visited, results =>
    if maxHops ≤ depth then connectedLoop c maxHops fuel queue visited results
    else
      let st := (c.getConnectedEdges id).foldl (connectedStep c id path depth)
        (queue, visited, results)
      connectedLoop c maxHops fuel st.1 st.2.1 st.2.2

/-- `getConnectedNodes(cache, nodeName, hops)` (src/graph/tools.ts): BFS over
undirected incidences, hop bound clamped to 4, at most 50 results. -/
def getConnectedNodes (c : GraphCache) (nodeName : String) (hops : Nat) :
    List ConnectedNodeResult :=
  match c.getNodeByName nodeName with
  | none => []
  | some startNode =>
    let maxHops := min hops 4
    (connectedLoop c maxHops (bfsFuel c) [(startNode.id, [], 0)] [startNode.id] []).take 50

/-- Path reconstruction of `findPath`: walk the parent pointers back from the
end node, prepending one step per node.  The BFS sets each parent pointer
once, so the walk visits each visited id at most once and the fuel
`visited.length + 1` is never exhausted. -/
def reconstructPath (c : GraphCache)
    (visited : List (String × Option String × Option OntologyEdge)) :
    Nat → Option String → List PathStep → List PathStep
  | 0, _, acc => acc
  | _ + 1, none, acc => acc
  | fuel + 1, some id, acc =>
    let entry := alGet visited id
    let acc1 :=
      match c.getNodeById id with
      | some n =>
        ⟨propName n.properties, (entry.bind (·.2)).map (·.type),
          (entry.bind (·.2)).map (fun e => propDetail e.properties)⟩ :: acc
      | none => acc
    reconstructPath c visited fuel (entry.bind (·.1)) acc1

/-- One neighbor-expansion step of the BFS of `findPath`; the state is
(queue, visited-with-parent-pointers). -/
def findPathStep (_c : GraphCache) (currentId : String) (depth : Nat)
    (acc : List (String × Nat) × List (String × Option String × Option OntologyEdge))
    (e : OntologyEdge) :
    List (String × Nat) × List (String × Option String × Option OntologyEdge) :=
  let (q, vis) := acc
  let neighborId := if e.source == currentId then e.target else e.source
  if (alGet vis neighborId).isSome then acc
  else (q ++ [(neighborId, depth + 1)], alSet vis neighborId (some currentId, some e))

/-- The BFS loop of `findPath`. -/
def findPathLoop (c : GraphCache) (endId : String) (maxHops : Nat) :
    Nat → List (String × Nat) → List (String × Option String × Option OntologyEdge) →
    PathResult
  | 0, _, _ => ⟨false, []⟩
  | _ + 1, [], _ => ⟨false, []⟩
  | fuel + 1, (currentId, depth) :: queue, visited =>
    if currentId == endId then
      ⟨true, reconstructPath c visited (visited.length + 1) (some endId) []⟩
    else if maxHops ≤ depth then findPathLoop c endId maxHops fuel queue visited
    else
      let st := (c.getConnectedEdges currentId).foldl (findPathStep c currentId depth)
        (queue, visited)
      findPathLoop c endId maxHops fuel st.1 st.2

/-- `findPath(cache, fromName, toName, maxHops)` (src/graph/tools.ts). -/
def findPath (c : GraphCache) (fromName toName : String) (maxHops : Nat) : PathResult :=
  match c.getNodeByName fromName, c.getNodeByName toName with
  | some startNode, some endNode =>
    if startNode.id == endNode.id then
      ⟨true, [⟨propName startNode.properties, none, none⟩]⟩
    else
      findPathLoop c endNode.id maxHops (bfsFuel c)
        [(startNode.id, 0)] [(startNode.id, (none, none))]
  | _, _ => ⟨false, []⟩

/-- A legacy (v1) node of the persisted blob: carries a closed-set `type`
field and no `properties` object. -/
structure LegacyGraphNode where
  id : String
  type : String
  label : String
deriving DecidableEq, Repr

/-- A node as found in the persisted blob: either the legacy (v1) shape or
the current (v2) shape; `isLegacyGraphData` distinguishes them structurally. -/
inductive StoredNode where
  | legacy : LegacyGraphNode → StoredNode
  | v2 : OntologyNode → StoredNode
deriving DecidableEq, Repr

/-- `'type' in node` on the persisted shape. -/
def StoredNode.hasTypeField : StoredNode → Bool
  | .legacy _ => true
  | .v2 _ => false

/-- `'properties' in node` on the persisted shape. -/
def StoredNode.hasPropertiesField : StoredNode → Bool
  | .legacy _ => false
  | .v2 _ => true

/-- The `graph` member of the persisted blob. -/
structure StoredGraphData where
  nodes : List StoredNode
  edges : List OntologyEdge
  version : Nat
deriving DecidableEq, Repr

/-- One per-document change-hash record (src/types.ts `NoteHash`). -/
structure NoteHash where
  path : String
  hash : String
  analyzedAt : Nat
deriving DecidableEq, Repr

/-- The change-hash history (src/types.ts `HashData`). -/
structure HashData where
  hashes : List NoteHash
deriving DecidableEq, Repr

/-- The persisted blob (src/types.ts `PluginData`); the `settings` member is
irrelevant to the graph core and omitted.  `graph`/`hashes` may be absent
on old blobs. -/
structure PluginData where
  graph : Option StoredGraphData
  hashes : Option HashData
deriving DecidableEq, Repr

/-- Current schema generation (src/types.ts). -/
def GRAPH_SCHEMA_VERSION : Nat := 2

/-- `isLegacyGraphData(data)` (src/types.ts): nonempty `nodes` whose first
element has a `type` field and no `properties` object. -/
def isLegacyGraphData (g : StoredGraphData) : Bool :=
  match g.nodes with
  | [] => false
  | first :: _ => first.hasTypeField && !first.hasPropertiesField

/-- `rebuildIndexes()`: clear every index, then re-index all nodes and edges. -/
def GraphCache.rebuildIndexes (c : GraphCache) : GraphCache :=
  let c0 := { c with
    nodeById := [], nodesByLabel := [], nodesBySourceNote := [], nodeByName := [],
    edgeById := [], edgesBySource := [], edgesByTarget := [], edgesBySourceNote := [] }
  let c1 := c.nodes.foldl (fun acc r => GraphCache.indexNode acc r) c0
  c.edges.foldl (fun acc e => GraphCache.indexEdge acc e) c1

/-- Load collections into a fresh cache and rebuild all indexes, allocating
one reference per node object (JSON parsing yields fresh objects). -/
def loadCollections (vals : List OntologyNode) (edges : List OntologyEdge) (ver : Nat) :
    GraphCache :=
  let refs := List.range vals.length
  GraphCache.rebuildIndexes
    { emptyCache with
      heap := refs.zip vals
      nextRef := vals.length
      nodes := refs
      edges := edges
      version := ver }

/-- `ensureLoaded()` (src/graph/cache.ts) as a function of the persisted
blob: the loaded cache together with the *local* `data` object.  On legacy
data the code empties `data.hashes.hashes` on that local object and sets
the dirty flag, but it never calls `saveData` here, so the local object is
dropped afterwards and the persisted blob is untouched.  The non-legacy
branch casts the stored nodes to the v2 shape unchecked. -/
def ensureLoaded (disk : Option PluginData) : GraphCache × Option PluginData :=
  match disk with
  | none => (loadCollections [] [] GRAPH_SCHEMA_VERSION, none)
  | some data =>
    match data.graph with
    | none => (loadCollections [] [] GRAPH_SCHEMA_VERSION, some data)
    | some graph =>
      if isLegacyGraphData graph then
        ({ loadCollections [] [] GRAPH_SCHEMA_VERSION with dirty := true },
          some { data with hashes := data.hashes.map (fun _ => ⟨[]⟩) })
      else
        let vals := graph.nodes.filterMap (fun sn =>
          match sn with
          | .v2 n => some n
          | .legacy _ => none)
        (loadCollections vals graph.edges
          (if graph.version == 0 then GRAPH_SCHEMA_VERSION else graph.version), some data)

/-- `flush()` (src/graph/cache.ts): cancel the pending timer (out of scope);
if dirty, re-load the persisted blob, overwrite only its `graph` member
with the in-memory collections, save it back and clear the dirty flag.
The `hashes` member of the saved blob therefore comes from the freshly
re-loaded disk copy, not from anything done at load time. -/
def flush (c : GraphCache) (disk : Option PluginData) : GraphCache × Option PluginData :=
  if !c.dirty then (c, disk)
  else
    let data := disk.getD { graph := some ⟨[], [], GRAPH_SCHEMA_VERSION⟩, hashes := some ⟨[]⟩ }
    let data1 := { data with
      graph := some ⟨c.getAllNodes.map StoredNode.v2, c.edges, c.version⟩ }
    ({ c with dirty := false }, some data1)

/-- `loadHashes(plugin)` (src/graph/hashes.ts): read the hash history from
the persisted blob. -/
def loadHashes (disk : Option PluginData) : HashData :=
  (disk.bind (·.hashes)).getD ⟨[]⟩

/-- `hasNoteChanged(hashes, path, currentHash)` (src/graph/hashes.ts). -/
def hasNoteChanged (h : HashData) (path currentHash : String) : Bool :=
  match h.hashes.find? (fun e => e.path == path) with
  | none => true
  | some e => e.hash != currentHash

/-- The value written onto an existing node by the update branch of the
merge node loop: append the note if absent, stamp `updatedAt`, merge the
raw properties. -/
def updNode (v : OntologyNode) (notePath : String) (now : Nat) (raw : RawExtractionNode) :
    OntologyNode :=
  let n1 :=
    if v.sourceNotes.contains notePath then v
    else { v with sourceNotes := v.sourceNotes ++ [notePath] }
  { n1 with updatedAt := now, properties := mergeProps n1.properties raw.properties }

/-- Concrete store for the C2 witness: document `M.md` contributed a node
named `Turing` under label `Person`. -/
def c2wBatch : OntologyExtractionResult :=
  ⟨[⟨"t1", "Person", [("name", "Turing")]⟩], []⟩

/-- The C2 witness store. -/
def c2wCache : GraphCache :=
  (mergeExtractionIntoCache emptyCache "M.md" c2wBatch 5).cache

/-- The raw node of the second batch of the C2 witness: `turing` (lower
case) under a different label. -/
def c2wRaw : RawExtractionNode := ⟨"u1", "Concept", [("name", "turing")]⟩

/-- The stored node of the C2 witness. -/
def c2wNode : OntologyNode :=
  ⟨"person:turing", "Person", [("name", "Turing")], ["M.md"], 5, 5⟩

/-- The first-written edge of the C6 witness. -/
def c6wEdge : OntologyEdge :=
  ⟨"b:b->a:a:CITES", "b:b", "a:a", .CITES, [("detail", "first")], some "Y.md", 0⟩

/-- The C6 witness store: two nodes and the edge between them. -/
def c6wCache : GraphCache :=
  ((emptyCache.addNode ⟨"a:a", "A", [("name", "a")], ["X.md"], 0, 0⟩).addNode
    ⟨"b:b", "B", [("name", "b")], ["Y.md"], 0, 0⟩).addEdge c6wEdge

/-- A later writer for the same edge id with different detail/properties. -/
def c6wEdge2 : OntologyEdge :=
  ⟨"b:b->a:a:CITES", "b:b", "a:a", .CITES, [("detail", "second")], some "Z.md", 7⟩

/-- A later batch from another document re-deriving the same triple. -/
def c6wBatch : OntologyExtractionResult :=
  ⟨[⟨"t1", "B", [("name", "b")]⟩, ⟨"t2", "A", [("name", "a")]⟩],
   [⟨"t1", "t2", .CITES, [("detail", "third")]⟩]⟩

/-- The node ids one undirected step from `id`, in the order the traversal
engine scans them. -/
def neighborIds (c : GraphCache) (id : String) : List String :=
  (c.getConnectedEdges id).map (fun e => if e.source == id then e.target else e.source)

/-- The node ids reachable from `startId` within `k` undirected hops, over
the same incidence structure the traversal engine uses. -/
def reachWithin (c : GraphCache) (startId : String) : Nat → List String
  | 0 => [startId]
  | k + 1 =>
    let prev := reachWithin c startId k
    (prev ++ (prev.map (neighborIds c)).flatten).dedup

/-- Node `a` of the C9 witness chain. -/
def c9wA : OntologyNode := ⟨"a:a", "A", [("name", "a")], ["X.md"], 0, 0⟩

/-- Node `c` of the C9 witness chain. -/
def c9wC : OntologyNode := ⟨"c:c", "C", [("name", "c")], ["Z.md"], 0, 0⟩

/-- The C9 witness store: a chain a — b — c (two directed edges). -/
def c9wCache : GraphCache :=
  ((((emptyCache.addNode c9wA).addNode
    ⟨"b:b", "B", [("name", "b")], ["Y.md"], 0, 0⟩).addNode c9wC).addEdge
    ⟨"b:b->a:a:CITES", "b:b", "a:a", .CITES, [("detail", "d")], some "Y.md", 0⟩).addEdge
    ⟨"c:c->b:b:CITES", "c:c", "b:b", .CITES, [("detail", "e")], some "Z.md", 0⟩

/-- The claim's four ranking classes for a candidate name against a query,
highest first: 3 = exact equality of the whitespace-stripped lowercase
forms, 2 = proper prefix match only, 1 = proper substring match only,
0 = reachable only through the bigram-Jaccard fallback.  A candidate whose
only match is the query-contains-name tier is outside the classification
(`none`). -/
def claimTier (query name : String) : Option Nat :=
  let q := stripWs (lowerStr query)
  let n := stripWs (lowerStr name)
  if n == q then some 3
  else if q.data.isPrefixOf n.data then some 2
  else if (idxOf n.data q.data).isSome then some 1
  else if (idxOf q.data n.data).isSome then none
  else some 0

/-- Lower bound of the rounded score of a ranking class. -/
def tierLo : Nat → ℚ
  | 3 => 1
  | 2 => 9/10
  | 1 => 7/10
  | _ => 0

/-- Upper bound of the rounded score of a ranking class. -/
def tierHi : Nat → ℚ
  | 3 => 1
  | 2 => 99/100
  | 1 => 89/100
  | _ => 6/10

/-- The C4 witness store: one candidate per ranking class for the query
`abc` — an exact match, a proper prefix extension, a proper substring
carrier, and a bigram-overlap-only name. -/
def c4wCache : GraphCache :=
  (((emptyCache.addNode ⟨"p:abcd", "P", [("name", "abcd")], ["n"], 0, 0⟩).addNode
    ⟨"p:xabc", "P", [("name", "xabc")], ["n"], 0, 0⟩).addNode
    ⟨"p:abxbc", "P", [("name", "abxbc")], ["n"], 0, 0⟩).addNode
    ⟨"p:abc", "P", [("name", "abc")], ["n"], 0, 0⟩

/-- The endpoint of an edge other than `id`: the neighbor the traversal
steps to over that edge. -/
def otherEnd (id : String) (e : OntologyEdge) : String :=
  if e.source == id then e.target else e.source

/-- First occurrence of each id not already seen (the visited-set
discipline of the BFS, one id per newly visited neighbor). -/
def neighborsFrom (seen : List String) : List String → List String
  | [] => []
  | x :: t => if seen.contains x then neighborsFrom seen t
              else x :: neighborsFrom (seen ++ [x]) t

/-- The spec notion for C8: the direct neighbors of the node `id` — the
distinct other endpoints of the canonical edges incident to `id` in either
direction, `id` itself excluded, in the engine scan order (outgoing edges
first). -/
def directNeighbors (c : GraphCache) (id : String) : List String :=
  neighborsFrom [id]
    ((c.edges.filter (fun e => e.source == id) ++
      c.edges.filter (fun e => e.target == id)).map (fun e => otherEnd id e))

/-- A node of the C8 star stores. -/
def c8Node (nm : String) : OntologyNode :=
  ⟨"c:" ++ nm, "C", [("name", nm)], ["s.md"], 0, 0⟩

/-- A hub-to-leaf edge of the C8 star stores. -/
def c8Edge (nm : String) : OntologyEdge :=
  ⟨"c:hub->c:" ++ nm ++ ":CITES", "c:hub", "c:" ++ nm, .CITES,
   [("detail", "d")], some "s.md", 0⟩

/-- A star store: a hub node joined by one outgoing edge to one leaf per
listed name. -/
def starCache (names : List String) : GraphCache :=
  let c0 := emptyCache.addNode (c8Node "hub")
  let c1 := names.foldl (fun c nm => c.addNode (c8Node nm)) c0
  names.foldl (fun c nm => c.addEdge (c8Edge nm)) c1

/-- Fifty-one leaf names. -/
def c8names : List String := (List.range 51).map (fun i => "n" ++ toString i)

/-- The C8 counterexample store: a hub with 51 direct neighbors. -/
def c8star : GraphCache := starCache c8names

/-- The C8 witness store: a hub with two direct neighbors. -/
def c8w : GraphCache := starCache ["p", "q"]

/-- The well-formedness of a cache that every store operation maintains and
the withdrawal path relies on: listed node references are distinct and
dereference; stored node ids are distinct; `nodeById` finds exactly the
listed node objects; `edgeById` finds exactly the stored edges; stored edge
ids are distinct.  Every conjunct is decidable, so a concrete cache
satisfies it by computation. -/
def CacheInv (c : GraphCache) : Prop :=
  c.nodes.Nodup ∧
  (∀ r ∈ c.nodes, (heapGet c r).isSome) ∧
  (c.getAllNodes.map (fun n => n.id)).Nodup ∧
  (∀ r ∈ c.nodes, ∀ v, heapGet c r = some v → alGet c.nodeById v.id = some r) ∧
  (∀ p ∈ c.nodeById, p.2 ∈ c.nodes ∧ ((heapGet c p.2).map (fun v => v.id)) = some p.1) ∧
  (∀ e ∈ c.edges, alGet c.edgeById e.id = some e) ∧
  (∀ p ∈ c.edgeById, p.2 ∈ c.edges ∧ p.2.id = p.1) ∧
  (c.edges.map (fun e => e.id)).Nodup

/-- The spec notion for C5: a node's source-note list after the withdrawal
of document `X`. -/
def withdrawNotes (X : String) (notes : List String) : List String :=
  notes.filter (fun p => p != X)

/-- The spec notion for C5: a node is orphaned by the withdrawal of `X`
when no source note remains. -/
def isOrphaned (X : String) (n : OntologyNode) : Bool :=
  (withdrawNotes X n.sourceNotes).isEmpty

/-- The spec notion for C5: the node collection after the withdrawal of
`X` — nodes not sourced from `X` are untouched, orphaned nodes are deleted,
the rest survive with `X` removed from their source notes. -/
def survivorsAfter (X : String) (ns : List OntologyNode) : List OntologyNode :=
  ns.filterMap (fun n =>
    if n.sourceNotes.contains X then
      if isOrphaned X n then none
      else some { n with sourceNotes := withdrawNotes X n.sourceNotes }
    else some n)

/-- The number of nodes the withdrawal of `X` orphans. -/
def orphanCount (X : String) (ns : List OntologyNode) : Nat :=
  (ns.filter (fun n => n.sourceNotes.contains X && isOrphaned X n)).length

/-- The ids of the nodes the withdrawal of `X` orphans. -/
def orphanIds (X : String) (ns : List OntologyNode) : List String :=
  (ns.filter (fun n => n.sourceNotes.contains X && isOrphaned X n)).map (fun n => n.id)

/-- The C5 counterexample store: node `a` sourced only from `X.md`, node
`b` sourced from `Y.md`, and one edge between them recorded by `Y.md`. -/
def c5cCache : GraphCache :=
  ((emptyCache.addNode ⟨"a:a", "A", [("name", "a")], ["X.md"], 0, 0⟩).addNode
    ⟨"b:b", "B", [("name", "b")], ["Y.md"], 0, 0⟩).addEdge
    ⟨"b:b->a:a:CITES", "b:b", "a:a", .CITES, [("detail", "d")], some "Y.md", 0⟩

/-- The C5 witness store: an orphan-to-be `a` (only `X.md`), a survivor `b`
(`X.md` and `Y.md`), a bystander `c` (`Y.md`), an edge recorded by `X.md`,
an edge incident to `a` recorded by `Y.md`, and a surviving edge. -/
def c5wCache : GraphCache :=
  (((((emptyCache.addNode ⟨"a:a", "A", [("name", "a")], ["X.md"], 0, 0⟩).addNode
    ⟨"b:b", "B", [("name", "b")], ["X.md", "Y.md"], 0, 0⟩).addNode
    ⟨"c:c", "C", [("name", "c")], ["Y.md"], 0, 0⟩).addEdge
    ⟨"c:c->b:b:CITES", "c:c", "b:b", .CITES, [("detail", "d1")], some "X.md", 0⟩).addEdge
    ⟨"c:c->a:a:CITES", "c:c", "a:a", .CITES, [("detail", "d2")], some "Y.md", 0⟩).addEdge
    ⟨"b:b->c:c:CITES", "b:b", "c:c", .CITES, [("detail", "d3")], some "Y.md", 0⟩

/-- The C1 batch: one raw node named `a`. -/
def c1cBatch : OntologyExtractionResult := ⟨[⟨"t1", "A", [("name", "a")]⟩], []⟩

/-- The C1 scenario store: the same node merged from `X.md` and then from
`Y.md`, so its `sourceNotes` is `[X.md, Y.md]`. -/
def c1cCache : GraphCache :=
  (mergeExtractionIntoCache (mergeExtractionIntoCache emptyCache "X.md" c1cBatch 0).cache
    "Y.md" c1cBatch 1).cache

/-- The C7 persisted blob: a legacy (v1) graph together with a nonempty
per-document hash history. -/
def c7disk : Option PluginData :=
  some ⟨some ⟨[.legacy ⟨"id1", "concept", "L"⟩], [], 1⟩, some ⟨[⟨"n.md", "h1", 5⟩]⟩⟩

/-- A node with its `updatedAt` stamp cleared: C3 compares stores up to
update timestamps. -/
def stripUpd (n : OntologyNode) : OntologyNode := { n with updatedAt := 0 }

/-- The case-insensitive name of a stored node, as keyed by `nodeByName`. -/
def lowName (n : OntologyNode) : String := lowerStr (propName n.properties)

/-- The case-insensitive normalized name of a raw extraction node. -/
def rawLowName (rn : RawExtractionNode) : String :=
  lowerStr (normalizeName (propName rn.properties))

/-- The id the merge engine generates for a raw extraction node. -/
def rawGenId (rn : RawExtractionNode) : String :=
  generateNodeId rn.label (normalizeName (propName rn.properties))

/-- Node-side well-formedness the merge engine maintains: listed references
are distinct, dereference, and are correctly registered in `nodeById` and
(by unique case-insensitive name) in `nodeByName`; the reference allocator
is ahead of every listed reference.  Decidable on a concrete cache. -/
def MergeWf (c : GraphCache) : Prop :=
  c.nodes.Nodup ∧
  (∀ r ∈ c.nodes, (heapGet c r).isSome) ∧
  (∀ r ∈ c.nodes, ∀ v, heapGet c r = some v → alGet c.nodeById v.id = some r) ∧
  (∀ q ∈ c.nodeById, q.2 ∈ c.nodes ∧ ((heapGet c q.2).map (fun v => v.id)) = some q.1) ∧
  (∀ r ∈ c.nodes, ∀ v, heapGet c r = some v → alGet c.nodeByName (lowName v) = some r) ∧
  (∀ q ∈ c.nodeByName, q.2 ∈ c.nodes ∧ ((heapGet c q.2).map lowName) = some q.1) ∧
  (∀ r ∈ c.nodes, r < c.nextRef)

/-- The id-collision freedom C3 needs: a generated id of a raw batch node
may only coincide with a stored or generated id whose case-insensitive
name is the same (then the name lookup resolves it first, and the id
fallback of the merge node loop can never pick a node with a different
name).  The counterexample violates this through the `:` separator. -/
def MergeCollisionFree (c0 : GraphCache) (b : OntologyExtractionResult) : Prop :=
  ∀ rn ∈ b.nodes,
    (∀ n ∈ c0.getAllNodes, n.id = rawGenId rn → lowName n = rawLowName rn) ∧
    (∀ rm ∈ b.nodes, rawGenId rm = rawGenId rn → rawLowName rm = rawLowName rn)

/-- Provenance invariant of the run of a merge from `c0` with batch `b`:
every stored node is, in id and case-insensitive name, either an original
node of `c0` or generated from a raw node of `b`. -/
def ProvFrom (c0 : GraphCache) (b : OntologyExtractionResult) (c : GraphCache) : Prop :=
  ∀ n ∈ c.getAllNodes,
    (∃ n0 ∈ c0.getAllNodes, n.id = n0.id ∧ lowName n = lowName n0) ∨
    (∃ rm ∈ b.nodes, n.id = rawGenId rm ∧ lowName n = rawLowName rm)

/-- How a stored node object can evolve under later steps of the same merge
run: id and name are fixed, recorded source notes and present property keys
are never dropped. -/
def nodeEvol (p : String) (v w : OntologyNode) : Prop :=
  w.id = v.id ∧ propName w.properties = propName v.properties ∧
  (v.sourceNotes.contains p = true → w.sourceNotes.contains p = true) ∧
  (∀ k, (v.properties.lookup k).isSome = true → (w.properties.lookup k).isSome = true)

/-- First batch of the C3 counterexample: a node whose name contains the id
separator. -/
def c3cBatch1 : OntologyExtractionResult := ⟨[⟨"t1", "A", [("name", "x:y")]⟩], []⟩

/-- Second batch of the C3 counterexample: its first raw node generates the
id `a:x:y` already taken by the differently-named node of the first batch. -/
def c3cBatch2 : OntologyExtractionResult :=
  ⟨[⟨"t1", "A:X", [("name", "Y")]⟩, ⟨"t2", "B", [("name", "y")]⟩],
   [⟨"t1", "t2", .RELATED_TO, [("detail", "d")]⟩]⟩

/-- The C3 counterexample store after merging batch 1 from `n1.md` and
batch 2 from `n2.md` once. -/
def c3cAfter1 : GraphCache :=
  (mergeExtractionIntoCache
    (mergeExtractionIntoCache emptyCache "n1.md" c3cBatch1 0).cache "n2.md" c3cBatch2 1).cache

/-- The C3 witness batch: two fresh nodes and one relationship. -/
def c3wBatch : OntologyExtractionResult :=
  ⟨[⟨"t1", "A", [("name", "a")]⟩, ⟨"t2", "B", [("name", "b")]⟩],
   [⟨"t1", "t2", .CITES, [("detail", "d")]⟩]⟩

/-! Basic lemmas about the association-list map model. -/

theorem alGet_alSet_self [BEq κ] [LawfulBEq κ] (m : List (κ × α)) (k : κ) (v : α) :
    alGet (alSet m k v) k = some v := by
  induction m with
  | nil => simp [alGet, alSet]
  | cons p t ih =>
    by_cases h : p.1 == k
    · simp [alGet, alSet, h]
    · simp [alGet, alSet, h, ih]

theorem alGet_alSet_ne [BEq κ] [LawfulBEq κ] (m : List (κ × α)) (k k' : κ) (v : α)
    (h : k' ≠ k) : alGet (alSet m k v) k' = alGet m k' := by
  have hkk : (k == k') = false := by
    simp only [beq_eq_false_iff_ne]
    exact fun hh => h hh.symm
  induction m with
  | nil => simp [alGet, alSet, hkk]
  | cons p t ih =>
    by_cases hp : p.1 == k
    · have hp1 : p.1 = k := by simpa using hp
      have hp' : (p.1 == k') = false := by
        simp only [beq_eq_false_iff_ne, hp1]
        exact fun hh => h hh.symm
      simp [alGet, alSet, hp, hkk, hp']
    · by_cases hq : p.1 == k'
      · simp [alGet, alSet, hp, hq]
      · simp [alGet, alSet, hp, hq, ih]

theorem alGet_alDel_self [BEq κ] [LawfulBEq κ] (m : List (κ × α)) (k : κ) :
    alGet (alDel m k) k = none := by
  induction m with
  | nil => simp [alGet, alDel]
  | cons p t ih =>
    by_cases h : p.1 == k
    · simp [alDel, h, ih]
    · simp [alGet, alDel, h, ih]

theorem alGet_alDel_ne [BEq κ] [LawfulBEq κ] (m : List (κ × α)) (k k' : κ)
    (h : k' ≠ k) : alGet (alDel m k) k' = alGet m k' := by
  induction m with
  | nil => simp [alGet, alDel]
  | cons p t ih =>
    by_cases hp : p.1 == k
    · have hp1 : p.1 = k := by simpa using hp
      have hp' : (p.1 == k') = false := by
        simp only [beq_eq_false_iff_ne, hp1]
        exact fun hh => h hh.symm
      simp [alGet, alDel, hp, hp', ih]
    · by_cases hq : p.1 == k'
      · simp [alGet, alDel, hp, hq]
      · simp [alGet, alDel, hp, hq, ih]

/-- Setting then reading an arbitrary key. -/
theorem alGet_alSet [BEq κ] [LawfulBEq κ] (m : List (κ × α)) (k k' : κ) (v : α) :
    alGet (alSet m k v) k' = if k' == k then some v else alGet m k' := by
  by_cases h : k' = k
  · subst h; simp [alGet_alSet_self]
  · have hb : (k' == k) = false := by simpa using h
    simp [hb, alGet_alSet_ne m k k' v h]

/-- Deleting then reading an arbitrary key. -/
theorem alGet_alDel [BEq κ] [LawfulBEq κ] (m : List (κ × α)) (k k' : κ) :
    alGet (alDel m k) k' = if k' == k then none else alGet m k' := by
  by_cases h : k' = k
  · subst h; simp [alGet_alDel_self]
  · have hb : (k' == k) = false := by simpa using h
    simp [hb, alGet_alDel_ne m k k' h]

/-- Deleting a key and re-inserting it with the value it had is extensionally
the identity. -/
theorem alGet_alSet_alDel_restore [BEq κ] [LawfulBEq κ] (m : List (κ × α)) (k k' : κ)
    (v : α) (h : alGet m k = some v) :
    alGet (alSet (alDel m k) k v) k' = alGet m k' := by
  by_cases hk : k' = k
  · subst hk; rw [alGet_alSet_self, h]
  · rw [alGet_alSet_ne _ _ _ _ hk, alGet_alDel_ne _ _ _ hk]

/-- Appending an entry with a different key does not change a lookup. -/
theorem lookup_append_single_ne [BEq κ] [LawfulBEq κ] (l : List (κ × β)) (kv : κ × β)
    (k : κ) (h : (k == kv.1) = false) : (l ++ [kv]).lookup k = l.lookup k := by
  induction l with
  | nil => simp [List.lookup, h]
  | cons p t ih =>
    by_cases hp : k == p.1
    · simp [List.lookup, hp]
    · simp only [List.cons_append, List.lookup, hp]
      exact ih

/-- The property-merge loop never touches the `"name"` property. -/
theorem mergeProps_lookup_name (raw : List (String × String)) :
    ∀ ps : List (String × String), (mergeProps ps raw).lookup "name" = ps.lookup "name" := by
  induction raw with
  | nil => intro ps; rfl
  | cons kv t ih =>
    intro ps
    rw [show mergeProps ps (kv :: t) = mergeProps (if kv.1 == "name" then ps
        else if (ps.lookup kv.1).isSome then ps else ps ++ [kv]) t from rfl]
    by_cases h1 : kv.1 == "name"
    · rw [if_pos h1]; exact ih ps
    · rw [if_neg h1]
      by_cases h2 : (ps.lookup kv.1).isSome
      · rw [if_pos h2]; exact ih ps
      · rw [if_neg h2, ih (ps ++ [kv])]
        apply lookup_append_single_ne
        simp only [beq_iff_eq] at h1
        simp only [beq_eq_false_iff_ne]
        exact fun hh => h1 hh.symm

/-- `mergeProps` never touches `properties.name`. -/
theorem propName_mergeProps (ps raw : List (String × String)) :
    propName (mergeProps ps raw) = propName ps := by
  unfold propName
  rw [mergeProps_lookup_name]

/-- The relationship loop only adds edges: every node-related component of
the cache is untouched by one step. -/
theorem processRawRel_preserves_nodes (notePath : String) (now : Nat)
    (idMap : List (String × String)) (st : GraphCache × Nat)
    (rawRel : RawExtractionRelationship) :
    (processRawRel notePath now idMap st rawRel).1.nodes = st.1.nodes ∧
    (processRawRel notePath now idMap st rawRel).1.heap = st.1.heap ∧
    (processRawRel notePath now idMap st rawRel).1.nextRef = st.1.nextRef ∧
    (processRawRel notePath now idMap st rawRel).1.nodeById = st.1.nodeById ∧
    (processRawRel notePath now idMap st rawRel).1.nodeByName = st.1.nodeByName ∧
    (processRawRel notePath now idMap st rawRel).1.nodesByLabel = st.1.nodesByLabel ∧
    (processRawRel notePath now idMap st rawRel).1.nodesBySourceNote = st.1.nodesBySourceNote := by
  obtain ⟨c, n⟩ := st
  unfold processRawRel
  cases alGet idMap rawRel.source with
  | none => simp
  | some s =>
    cases alGet idMap rawRel.target with
    | none => simp
    | some t =>
      simp only []
      split
      · simp
      · split
        · simp [GraphCache.addEdge, GraphCache.indexEdge, GraphCache.markDirty]
          split <;> simp
        · simp

/-- The whole relationship loop leaves every node-related component alone. -/
theorem relLoop_preserves_nodes (notePath : String) (now : Nat)
    (idMap : List (String × String)) (rels : List RawExtractionRelationship) :
    ∀ st : GraphCache × Nat,
    (rels.foldl (processRawRel notePath now idMap) st).1.nodes = st.1.nodes ∧
    (rels.foldl (processRawRel notePath now idMap) st).1.heap = st.1.heap ∧
    (rels.foldl (processRawRel notePath now idMap) st).1.nextRef = st.1.nextRef ∧
    (rels.foldl (processRawRel notePath now idMap) st).1.nodeById = st.1.nodeById ∧
    (rels.foldl (processRawRel notePath now idMap) st).1.nodeByName = st.1.nodeByName ∧
    (rels.foldl (processRawRel notePath now idMap) st).1.nodesByLabel = st.1.nodesByLabel ∧
    (rels.foldl (processRawRel notePath now idMap) st).1.nodesBySourceNote
      = st.1.nodesBySourceNote := by
  induction rels with
  | nil => intro st; simp
  | cons r t ih =>
    intro st
    have h1 := processRawRel_preserves_nodes notePath now idMap st r
    have h2 := ih (processRawRel notePath now idMap st r)
    simp only [List.foldl_cons]
    exact ⟨h2.1.trans h1.1, h2.2.1.trans h1.2.1, h2.2.2.1.trans h1.2.2.1,
      h2.2.2.2.1.trans h1.2.2.2.1, h2.2.2.2.2.1.trans h1.2.2.2.2.1,
      h2.2.2.2.2.2.1.trans h1.2.2.2.2.2.1, h2.2.2.2.2.2.2.trans h1.2.2.2.2.2.2⟩

/-- The name-hit case of the merge node loop: when the case-insensitive name
lookup finds a node object, the step mutates that object and re-registers
it through `updateNode`; its id is recorded in the id map and the counter
is unchanged. -/
theorem processRawNode_name_hit (c : GraphCache) (idMap : List (String × String)) (k : Nat)
    (raw : RawExtractionNode) (notePath : String) (now : Nat) (r : Nat) (v : OntologyNode)
    (hname : alGet c.nodeByName (lowerStr (normalizeName (propName raw.properties))) = some r)
    (hheap : heapGet c r = some v) :
    processRawNode notePath now (c, idMap, k) raw =
      ((heapSet c r (updNode v notePath now raw)).updateNode r,
        alSet idMap raw.id v.id, k) := by
  unfold processRawNode
  simp only [GraphCache.getNodeByNameRef, hname, Option.map_some', Option.getD_some,
    Option.some_orElse, heapModify, hheap, updNode]

/-- `updateNode` on a registered node object: the canonical collections are
untouched, and only the heap entry of the object is overwritten (with the
value it already has). -/
theorem updateNode_hit (c : GraphCache) (r : Nat) (w : OntologyNode)
    (hheap : heapGet c r = some w) (hid : alGet c.nodeById w.id = some r) :
    (c.updateNode r).nodes = c.nodes ∧
    (c.updateNode r).edges = c.edges ∧
    (c.updateNode r).heap = alSet c.heap r w ∧
    (c.updateNode r).nextRef = c.nextRef ∧
    (c.updateNode r).edgeById = c.edgeById ∧
    (c.updateNode r).nodeById =
      alSet (alDel c.nodeById w.id) w.id r ∧
    (c.updateNode r).nodeByName =
      alSet (alDel c.nodeByName (lowerStr (propName w.properties))) (lowerStr (propName w.properties)) r := by
  unfold GraphCache.updateNode
  simp only [hheap, hid]
  unfold GraphCache.unindexNode
  simp only [hheap]
  unfold GraphCache.indexNode heapSet heapGet
  simp only [alGet_alSet_self]
  simp [GraphCache.markDirty]

/-- C2: cross-label dedup, first label wins.  Merging a batch for document
`Y` whose raw node resolves, case-insensitively, to an existing node keeps
that node (no second node is created, `nodesAdded = 0`, the canonical node
collection is unchanged), maps the batch-local id to the existing node's
id, and appends `Y` to its `sourceNotes`, giving `[X, Y]`; the node's id,
label and name are untouched (only non-`name` properties may be merged in
and `updatedAt` restamped). -/
theorem C2_cross_label_dedup
    (c : GraphCache) (raw : RawExtractionNode) (rels : List RawExtractionRelationship)
    (X Y : String) (now : Nat) (r : Nat) (v : OntologyNode)
    (hname : alGet c.nodeByName (lowerStr (normalizeName (propName raw.properties))) = some r)
    (hheap : heapGet c r = some v)
    (hid : alGet c.nodeById v.id = some r)
    (hsrc : v.sourceNotes = [X])
    (hXY : Y ≠ X) :
    (mergeExtractionIntoCache c Y ⟨[raw], rels⟩ now).nodesAdded = 0 ∧
    (mergeExtractionIntoCache c Y ⟨[raw], rels⟩ now).cache.nodes = c.nodes ∧
    alGet (mergeExtractionIntoCache c Y ⟨[raw], rels⟩ now).idMap raw.id = some v.id ∧
    heapGet (mergeExtractionIntoCache c Y ⟨[raw], rels⟩ now).cache r =
      some { v with
        sourceNotes := [X, Y]
        updatedAt := now
        properties := mergeProps v.properties raw.properties } := by
  have hcont : (v.sourceNotes.contains Y) = false := by
    rw [hsrc]
    have hb : (Y == X) = false := by simpa using hXY
    simp only [List.contains, List.elem_cons, List.elem_nil, hb]
  have hupd : updNode v Y now raw =
      { v with
        sourceNotes := [X, Y]
        updatedAt := now
        properties := mergeProps v.properties raw.properties } := by
    simp [updNode, hcont, hsrc, hXY]
  have hw : heapGet (heapSet c r (updNode v Y now raw)) r = some (updNode v Y now raw) := by
    unfold heapGet heapSet
    simp [alGet_alSet_self]
  have hwid : (updNode v Y now raw).id = v.id := by rw [hupd]
  have hid2 : alGet (heapSet c r (updNode v Y now raw)).nodeById (updNode v Y now raw).id
      = some r := by
    rw [hwid]
    unfold heapSet
    exact hid
  have hup := updateNode_hit (heapSet c r (updNode v Y now raw)) r (updNode v Y now raw)
    hw hid2
  unfold mergeExtractionIntoCache
  simp only [List.foldl_cons, List.foldl_nil,
    processRawNode_name_hit c [] 0 raw Y now r v hname hheap]
  have hrel := relLoop_preserves_nodes Y now (alSet [] raw.id v.id) rels
    ((heapSet c r (updNode v Y now raw)).updateNode r, 0)
  refine ⟨trivial, ?_, ?_, ?_⟩
  · rw [hrel.1, hup.1]
    unfold heapSet
    rfl
  · simp [alGet_alSet_self]
  · unfold heapGet
    rw [hrel.2.1, hup.2.2.1]
    unfold heapSet
    simp only []
    rw [alGet_alSet_self, hupd]

/-- Witness for C2 at a concrete input (the spec's Turing scenario): the
hypotheses hold for the stored `Person`/`Turing` node, and merging
`turing` under label `Concept` from `N.md` adds no node and yields
`sourceNotes = ["M.md", "N.md"]` on the surviving node. -/
theorem C2_cross_label_dedup_witness :
    alGet c2wCache.nodeByName
      (lowerStr (normalizeName (propName c2wRaw.properties))) = some 0 ∧
    heapGet c2wCache 0 = some c2wNode ∧
    (mergeExtractionIntoCache c2wCache "N.md" ⟨[c2wRaw], []⟩ 9).nodesAdded = 0 ∧
    heapGet (mergeExtractionIntoCache c2wCache "N.md" ⟨[c2wRaw], []⟩ 9).cache 0 =
      some { c2wNode with
        sourceNotes := ["M.md", "N.md"]
        updatedAt := 9
        properties := mergeProps c2wNode.properties c2wRaw.properties } :=
  ⟨by decide, by decide,
    (C2_cross_label_dedup c2wCache c2wRaw [] "M.md" "N.md" 9 0 c2wNode
      (by decide) (by decide) (by decide) (by decide) (by decide)).1,
    (C2_cross_label_dedup c2wCache c2wRaw [] "M.md" "N.md" 9 0 c2wNode
      (by decide) (by decide) (by decide) (by decide) (by decide)).2.2.2⟩

/-- `indexNode` touches no edge component. -/
theorem indexNode_edges (c : GraphCache) (r : Nat) :
    (c.indexNode r).edges = c.edges ∧ (c.indexNode r).edgeById = c.edgeById := by
  unfold GraphCache.indexNode
  cases heapGet c r <;> simp

/-- `unindexNode` touches no edge component. -/
theorem unindexNode_edges (c : GraphCache) (r : Nat) :
    (c.unindexNode r).edges = c.edges ∧ (c.unindexNode r).edgeById = c.edgeById := by
  unfold GraphCache.unindexNode
  cases heapGet c r <;> simp

/-- The `addNode` tail touches no edge component. -/
theorem addNodeRef_edges (c : GraphCache) (r : Nat) :
    (c.addNodeRef r).edges = c.edges ∧ (c.addNodeRef r).edgeById = c.edgeById := by
  unfold GraphCache.addNodeRef GraphCache.markDirty
  have h := indexNode_edges { c with nodes := c.nodes ++ [r] } r
  simpa using h

/-- `addNode` touches no edge component. -/
theorem addNode_edges (c : GraphCache) (v : OntologyNode) :
    (c.addNode v).edges = c.edges ∧ (c.addNode v).edgeById = c.edgeById := by
  unfold GraphCache.addNode
  cases h : alGet c.nodeById v.id with
  | none =>
    simp only [h]
    have h2 := addNodeRef_edges { c with heap := alSet c.heap c.nextRef v, nextRef := c.nextRef + 1 } c.nextRef
    simpa using h2
  | some r0 =>
    simp only [h]
    have h1 := unindexNode_edges c r0
    have h2 := addNodeRef_edges
      { heap := alSet { (c.unindexNode r0) with nodes := (c.unindexNode r0).nodes.erase r0 }.heap
          { (c.unindexNode r0) with nodes := (c.unindexNode r0).nodes.erase r0 }.nextRef v
        nextRef := { (c.unindexNode r0) with nodes := (c.unindexNode r0).nodes.erase r0 }.nextRef + 1
        nodes := (c.unindexNode r0).nodes.erase r0
        edges := (c.unindexNode r0).edges
        version := (c.unindexNode r0).version
        dirty := (c.unindexNode r0).dirty
        nodeById := (c.unindexNode r0).nodeById
        nodesByLabel := (c.unindexNode r0).nodesByLabel
        nodesBySourceNote := (c.unindexNode r0).nodesBySourceNote
        nodeByName := (c.unindexNode r0).nodeByName
        edgeById := (c.unindexNode r0).edgeById
        edgesBySource := (c.unindexNode r0).edgesBySource
        edgesByTarget := (c.unindexNode r0).edgesByTarget
        edgesBySourceNote := (c.unindexNode r0).edgesBySourceNote }
      { (c.unindexNode r0) with nodes := (c.unindexNode r0).nodes.erase r0 }.nextRef
    simp only [] at h2 ⊢
    constructor
    · rw [h2.1.trans rfl] at *
      exact h1.1
    · rw [h2.2.trans rfl] at *
      exact h1.2

/-- `updateNode` touches no edge component. -/
theorem updateNode_edges (c : GraphCache) (r : Nat) :
    (c.updateNode r).edges = c.edges ∧ (c.updateNode r).edgeById = c.edgeById := by
  unfold GraphCache.updateNode
  cases h : heapGet c r with
  | none => simp
  | some v =>
    cases h2 : alGet c.nodeById v.id with
    | none =>
      simp only [h, h2]
      exact addNodeRef_edges c r
    | some r0 =>
      simp only [h, h2]
      have h3 := indexNode_edges (heapSet (c.unindexNode r0) r0 v) r0
      have h4 := unindexNode_edges c r0
      unfold GraphCache.markDirty
      unfold heapSet at h3 ⊢
      constructor
      · simpa using h3.1.trans (by simpa using h4.1)
      · simpa using h3.2.trans (by simpa using h4.2)

/-- `heapModify` touches no edge component. -/
theorem heapModify_edges (c : GraphCache) (r : Nat) (f : OntologyNode → OntologyNode) :
    (heapModify c r f).edges = c.edges ∧ (heapModify c r f).edgeById = c.edgeById := by
  unfold heapModify heapSet
  cases heapGet c r <;> simp

/-- One step of the merge node loop touches no edge component. -/
theorem processRawNode_edges (notePath : String) (now : Nat)
    (st : GraphCache × List (String × String) × Nat) (raw : RawExtractionNode) :
    (processRawNode notePath now st raw).1.edges = st.1.edges ∧
    (processRawNode notePath now st raw).1.edgeById = st.1.edgeById := by
  obtain ⟨c, idMap, k⟩ := st
  unfold processRawNode
  simp only []
  cases hex : (c.getNodeByNameRef (normalizeName (propName raw.properties)) <|>
      c.getNodeByIdRef (match c.getNodeByNameRef (normalizeName (propName raw.properties)) with
        | some r => ((heapGet c r).map (fun x => x.id)).getD
            (generateNodeId raw.label (normalizeName (propName raw.properties)))
        | none => generateNodeId raw.label (normalizeName (propName raw.properties)))) with
  | some r =>
    simp only [hex]
    have h1 := heapModify_edges c r (fun n =>
      let n1 := if n.sourceNotes.contains notePath then n
                else { n with sourceNotes := n.sourceNotes ++ [notePath] }
      let n2 := { n1 with updatedAt := now }
      { n2 with properties := mergeProps n2.properties raw.properties })
    have h2 := updateNode_edges (heapModify c r (fun n =>
      let n1 := if n.sourceNotes.contains notePath then n
                else { n with sourceNotes := n.sourceNotes ++ [notePath] }
      let n2 := { n1 with updatedAt := now }
      { n2 with properties := mergeProps n2.properties raw.properties })) r
    exact ⟨h2.1.trans h1.1, h2.2.trans h1.2⟩
  | none =>
    simp only [hex]
    exact addNode_edges c _

/-- The whole merge node loop touches no edge component. -/
theorem nodePhase_edges (notePath : String) (now : Nat) (raws : List RawExtractionNode) :
    ∀ st : GraphCache × List (String × String) × Nat,
    (raws.foldl (processRawNode notePath now) st).1.edges = st.1.edges ∧
    (raws.foldl (processRawNode notePath now) st).1.edgeById = st.1.edgeById := by
  induction raws with
  | nil => intro st; simp
  | cons raw t ih =>
    intro st
    have h1 := processRawNode_edges notePath now st raw
    have h2 := ih (processRawNode notePath now st raw)
    simp only [List.foldl_cons]
    exact ⟨h2.1.trans h1.1, h2.2.trans h1.2⟩

/-- One step of the merge relationship loop never replaces or duplicates an
existing edge: a registered id keeps its value and stays unique. -/
theorem processRawRel_keeps_edge (notePath : String) (now : Nat)
    (idMap : List (String × String)) (st : GraphCache × Nat)
    (rawRel : RawExtractionRelationship) (eid : String) (e : OntologyEdge)
    (hget : alGet st.1.edgeById eid = some e)
    (hcount : st.1.edges.countP (fun x => x.id == eid) = 1) :
    alGet (processRawRel notePath now idMap st rawRel).1.edgeById eid = some e ∧
    (processRawRel notePath now idMap st rawRel).1.edges.countP (fun x => x.id == eid) = 1 := by
  obtain ⟨c, k⟩ := st
  unfold processRawRel
  cases alGet idMap rawRel.source with
  | none => exact ⟨hget, hcount⟩
  | some s =>
    cases alGet idMap rawRel.target with
    | none => exact ⟨hget, hcount⟩
    | some t =>
      simp only []
      split
      · exact ⟨hget, hcount⟩
      · split
        · rename_i hnew
          have hids : generateEdgeId s t rawRel.type ≠ eid := by
            intro hh
            rw [hh] at hnew
            simp [hget] at hnew
          have hfalse : (alGet c.edgeById (generateEdgeId s t rawRel.type)).isSome = false := by
            cases ho : alGet c.edgeById (generateEdgeId s t rawRel.type) with
            | none => rfl
            | some x => rw [ho] at hnew; simp at hnew
          unfold GraphCache.addEdge
          simp only [hfalse, Bool.false_eq_true, if_false,
            GraphCache.indexEdge, GraphCache.markDirty]
          constructor
          · exact (alGet_alSet_ne _ _ _ _ (fun hh => hids hh.symm)).trans hget
          · rw [List.countP_append]
            simp only [List.countP_cons, List.countP_nil]
            have : ((⟨generateEdgeId s t rawRel.type, s, t, rawRel.type,
                newEdgeProps rawRel.properties, some notePath, now⟩ : OntologyEdge).id == eid)
                = false := by
              simp only [beq_eq_false_iff_ne]
              exact hids
            rw [this]
            simpa using hcount
        · exact ⟨hget, hcount⟩

/-- The whole merge relationship loop keeps a registered edge id's value and
uniqueness. -/
theorem relLoop_keeps_edge (notePath : String) (now : Nat)
    (idMap : List (String × String)) (rels : List RawExtractionRelationship)
    (eid : String) (e : OntologyEdge) :
    ∀ st : GraphCache × Nat,
    alGet st.1.edgeById eid = some e →
    st.1.edges.countP (fun x => x.id == eid) = 1 →
    alGet (rels.foldl (processRawRel notePath now idMap) st).1.edgeById eid = some e ∧
    (rels.foldl (processRawRel notePath now idMap) st).1.edges.countP
      (fun x => x.id == eid) = 1 := by
  induction rels with
  | nil => intro st h1 h2; exact ⟨h1, h2⟩
  | cons rel t ih =>
    intro st h1 h2
    have hstep := processRawRel_keeps_edge notePath now idMap st rel eid e h1 h2
    simp only [List.foldl_cons]
    exact ih (processRawRel notePath now idMap st rel) hstep.1 hstep.2

/-- C6: edge-triple determinism / create-once.  Once an edge with a given id
exists (uniquely), `addEdge` with that id is a complete no-op on the store
state, and any later merge leaves exactly that one edge with its original
detail text, properties and sourceNote. -/
theorem C6_edge_create_once (c : GraphCache) (eid : String) (e : OntologyEdge)
    (hget : alGet c.edgeById eid = some e)
    (hcount : c.edges.countP (fun x => x.id == eid) = 1) :
    (∀ e2 : OntologyEdge, e2.id = eid → c.addEdge e2 = c) ∧
    ∀ (p : String) (b : OntologyExtractionResult) (now : Nat),
      alGet (mergeExtractionIntoCache c p b now).cache.edgeById eid = some e ∧
      (mergeExtractionIntoCache c p b now).cache.edges.countP (fun x => x.id == eid) = 1 := by
  constructor
  · intro e2 h2
    unfold GraphCache.addEdge
    rw [h2, hget]
    simp
  · intro p b now
    unfold mergeExtractionIntoCache
    simp only []
    have hnode := nodePhase_edges p now b.nodes (c, [], 0)
    apply relLoop_keeps_edge
    · rw [hnode.2]; exact hget
    · rw [hnode.1]; exact hcount

/-- Witness for C6 at a concrete input: the edge exists uniquely; a direct
`addEdge` with the same id and different detail is a no-op, and a re-merge
of the triple from another document keeps the first writer's edge value. -/
theorem C6_edge_create_once_witness :
    alGet c6wCache.edgeById "b:b->a:a:CITES" = some c6wEdge ∧
    c6wCache.edges.countP (fun x => x.id == "b:b->a:a:CITES") = 1 ∧
    c6wCache.addEdge c6wEdge2 = c6wCache ∧
    alGet (mergeExtractionIntoCache c6wCache "W.md" c6wBatch 9).cache.edgeById
      "b:b->a:a:CITES" = some c6wEdge :=
  ⟨by decide, by decide,
    (C6_edge_create_once c6wCache "b:b->a:a:CITES" c6wEdge (by decide) (by decide)).1
      c6wEdge2 rfl,
    ((C6_edge_create_once c6wCache "b:b->a:a:CITES" c6wEdge (by decide) (by decide)).2
      "W.md" c6wBatch 9).1⟩

/-- Reachability sets grow with the hop bound. -/
theorem reachWithin_mono_succ (c : GraphCache) (s x : String) (k : Nat)
    (h : x ∈ reachWithin c s k) : x ∈ reachWithin c s (k + 1) := by
  unfold reachWithin
  simp only [List.mem_dedup, List.mem_append]
  exact Or.inl h

/-- Reachability sets are monotone in the hop bound. -/
theorem reachWithin_mono (c : GraphCache) (s x : String) (k k' : Nat) (hk : k ≤ k')
    (h : x ∈ reachWithin c s k) : x ∈ reachWithin c s k' := by
  induction k' with
  | zero => cases Nat.le_zero.mp hk; exact h
  | succ n ih =>
    rcases Nat.lt_or_ge k (n + 1) with hlt | hge
    · exact reachWithin_mono_succ c s x n (ih (Nat.lt_succ_iff.mp hlt))
    · cases Nat.le_antisymm hk hge; exact h

/-- The start node is reachable within any bound. -/
theorem reachWithin_start (c : GraphCache) (s : String) (k : Nat) :
    s ∈ reachWithin c s k := by
  apply reachWithin_mono c s s 0 k (Nat.zero_le k)
  simp [reachWithin]

/-- Stepping to a neighbor of a reachable node stays reachable (one more hop). -/
theorem reachWithin_step (c : GraphCache) (s x y : String) (k : Nat)
    (hx : x ∈ reachWithin c s k) (hy : y ∈ neighborIds c x) :
    y ∈ reachWithin c s (k + 1) := by
  unfold reachWithin
  simp only [List.mem_dedup, List.mem_append, List.mem_flatten]
  refine Or.inr ⟨neighborIds c x, ?_, hy⟩
  simp only [List.mem_map]
  exact ⟨x, hx, rfl⟩

/-- Every entry of the queue after one BFS expansion either was already
queued or is a neighbor of the dequeued node at the next depth. -/
theorem findPathStep_fold_queue (c : GraphCache) (currentId : String) (depth : Nat)
    (edges : List OntologyEdge) :
    ∀ (q0 : List (String × Nat))
      (vis0 : List (String × Option String × Option OntologyEdge)),
    ∀ p ∈ (edges.foldl (findPathStep c currentId depth) (q0, vis0)).1,
      p ∈ q0 ∨ (p.2 = depth + 1 ∧ ∃ e ∈ edges,
        p.1 = (if e.source == currentId then e.target else e.source)) := by
  induction edges with
  | nil => intro q0 vis0 p hp; exact Or.inl hp
  | cons e t ih =>
    intro q0 vis0 p hp
    simp only [List.foldl_cons] at hp
    have := ih (findPathStep c currentId depth (q0, vis0) e).1
      (findPathStep c currentId depth (q0, vis0) e).2 p (by simpa using hp)
    rcases this with hin | ⟨hd, e2, he2, hform⟩
    · unfold findPathStep at hin
      by_cases hv : (alGet vis0 (if e.source == currentId then e.target else e.source)).isSome
      · simp only [hv, if_true] at hin
        exact Or.inl hin
      · simp only [hv, Bool.false_eq_true, if_false, List.mem_append,
          List.mem_singleton] at hin
        rcases hin with h1 | h2
        · exact Or.inl h1
        · subst h2
          refine Or.inr ⟨rfl, e, List.mem_cons_self e t, ?_⟩
          by_cases hs : e.source == currentId
          · simp [hs]
          · simp [hs]
    · exact Or.inr ⟨hd, e2, List.mem_cons_of_mem e he2, hform⟩

/-- BFS soundness: if the target id is not reachable from the seeds within
the hop bound, the loop reports not-found with an empty path, for any fuel. -/
theorem findPathLoop_unreachable (c : GraphCache) (endId s : String) (maxHops : Nat)
    (hend : endId ∉ reachWithin c s maxHops) :
    ∀ (fuel : Nat) (queue : List (String × Nat))
      (visited : List (String × Option String × Option OntologyEdge)),
    (∀ p ∈ queue, p.2 ≤ maxHops ∧ p.1 ∈ reachWithin c s p.2) →
    findPathLoop c endId maxHops fuel queue visited = ⟨false, []⟩ := by
  intro fuel
  induction fuel with
  | zero => intro queue visited _; rfl
  | succ n ih =>
    intro queue visited hinv
    match queue with
    | [] => rfl
    | (currentId, depth) :: rest =>
      have hcur := hinv (currentId, depth) (List.mem_cons_self _ _)
      have hne : (currentId == endId) = false := by
        simp only [beq_eq_false_iff_ne]
        intro hh
        exact hend (reachWithin_mono c s endId depth maxHops hcur.1 (hh ▸ hcur.2))
      unfold findPathLoop
      simp only [hne, Bool.false_eq_true, if_false]
      by_cases hdepth : maxHops ≤ depth
      · simp only [hdepth, if_true]
        exact ih rest visited (fun p hp => hinv p (List.mem_cons_of_mem _ hp))
      · simp only [hdepth, if_false]
        apply ih
        intro p hp
        have := findPathStep_fold_queue c currentId depth (c.getConnectedEdges currentId)
          rest visited p hp
        rcases this with hin | ⟨hd, e, he, hform⟩
        · exact hinv p (List.mem_cons_of_mem _ hin)
        · constructor
          · rw [hd]; exact Nat.succ_le_of_lt (Nat.lt_of_not_le hdepth)
          · rw [hd]
            apply reachWithin_step c s currentId p.1 depth hcur.2
            unfold neighborIds
            simp only [List.mem_map]
            exact ⟨e, he, hform.symm⟩

/-- C9: path not-found is a value, not an error.  If either name resolves to
no node, `findPath` returns `{found := false, path := []}`; if both resolve
to the same node it returns `found` with a single-element path immediately;
and if the target is not reachable within `maxHops` undirected hops it
returns `{found := false, path := []}` — always an ordinary value. -/
theorem C9_path_not_found_is_value (c : GraphCache) (fromName toName : String)
    (maxHops : Nat) :
    ((c.getNodeByName fromName = none ∨ c.getNodeByName toName = none) →
      findPath c fromName toName maxHops = ⟨false, []⟩) ∧
    (∀ s e : OntologyNode, c.getNodeByName fromName = some s →
      c.getNodeByName toName = some e → s.id = e.id →
      findPath c fromName toName maxHops =
        ⟨true, [⟨propName s.properties, none, none⟩]⟩) ∧
    (∀ s e : OntologyNode, c.getNodeByName fromName = some s →
      c.getNodeByName toName = some e →
      e.id ∉ reachWithin c s.id maxHops →
      findPath c fromName toName maxHops = ⟨false, []⟩) := by
  refine ⟨?_, ?_, ?_⟩
  · intro h
    unfold findPath
    rcases h with h | h
    · rw [h]
    · rw [h]
      cases c.getNodeByName fromName <;> rfl
  · intro s e hs he hid
    unfold findPath
    rw [hs, he]
    have : (s.id == e.id) = true := by simpa using hid
    simp [this]
  · intro s e hs he hreach
    unfold findPath
    rw [hs, he]
    have hne : (s.id == e.id) = false := by
      simp only [beq_eq_false_iff_ne]
      intro hh
      exact hreach (hh ▸ reachWithin_start c s.id maxHops)
    simp only [hne, Bool.false_eq_true, if_false]
    apply findPathLoop_unreachable c e.id s.id maxHops hreach
    intro p hp
    simp only [List.mem_singleton] at hp
    subst hp
    exact ⟨Nat.zero_le _, reachWithin_start c s.id 0⟩

/-- Witness for C9 on the concrete chain a — b — c: an unknown name gives
`{found := false, path := []}`; a same-node query returns one step; node
`c` is two hops from `a`, so with `maxHops = 1` the result is
`{found := false, path := []}`. -/
theorem C9_path_not_found_is_value_witness :
    findPath c9wCache "zz" "a" 4 = ⟨false, []⟩ ∧
    findPath c9wCache "a" "a" 4 = ⟨true, [⟨propName c9wA.properties, none, none⟩]⟩ ∧
    c9wC.id ∉ reachWithin c9wCache c9wA.id 1 ∧
    findPath c9wCache "a" "c" 1 = ⟨false, []⟩ :=
  ⟨(C9_path_not_found_is_value c9wCache "zz" "a" 4).1 (Or.inl (by decide)),
   (C9_path_not_found_is_value c9wCache "a" "a" 4).2.1 c9wA c9wA
     (by decide) (by decide) rfl,
   by decide,
   (C9_path_not_found_is_value c9wCache "a" "c" 1).2.2 c9wA c9wC
     (by decide) (by decide) (by decide)⟩

/-- C10: the shortest-path search treats every edge as traversable in both
directions.  For two distinct existing nodes joined by a single directed
edge from `a` to `b` and no other connection, both `path(a.name, b.name)`
and `path(b.name, a.name)` find a two-element path. -/
theorem C10_path_is_undirected
    (a b : OntologyNode) (ty : RelationshipType) (det : List (String × String))
    (sn : Option String) (t : Nat)
    (hid : a.id ≠ b.id)
    (hname : lowerStr (propName a.properties) ≠ lowerStr (propName b.properties)) :
    (findPath (((emptyCache.addNode a).addNode b).addEdge
        ⟨generateEdgeId a.id b.id ty, a.id, b.id, ty, det, sn, t⟩)
      (propName a.properties) (propName b.properties) 4).found = true ∧
    (findPath (((emptyCache.addNode a).addNode b).addEdge
        ⟨generateEdgeId a.id b.id ty, a.id, b.id, ty, det, sn, t⟩)
      (propName a.properties) (propName b.properties) 4).path.map (fun s => s.node) =
      [propName a.properties, propName b.properties] ∧
    (findPath (((emptyCache.addNode a).addNode b).addEdge
        ⟨generateEdgeId a.id b.id ty, a.id, b.id, ty, det, sn, t⟩)
      (propName b.properties) (propName a.properties) 4).found = true ∧
    (findPath (((emptyCache.addNode a).addNode b).addEdge
        ⟨generateEdgeId a.id b.id ty, a.id, b.id, ty, det, sn, t⟩)
      (propName b.properties) (propName a.properties) 4).path.map (fun s => s.node) =
      [propName b.properties, propName a.properties] := by
  have hab : (a.id == b.id) = false := by simpa using hid
  have hba : (b.id == a.id) = false := by
    simp only [beq_eq_false_iff_ne]
    exact fun hh => hid hh.symm
  have hk1 : (lowerStr (propName b.properties) == lowerStr (propName a.properties)) = false := by
    simp only [beq_eq_false_iff_ne]
    exact fun hh => hname hh.symm
  have hk2 : (lowerStr (propName a.properties) == lowerStr (propName b.properties)) = false := by
    simpa using hname
  refine ⟨?_, ?_, ?_, ?_⟩ <;>
    simp [GraphCache.addNode, GraphCache.addEdge, GraphCache.addNodeRef,
      GraphCache.indexNode, GraphCache.unindexNode, GraphCache.indexEdge,
      GraphCache.markDirty, emptyCache, heapGet, heapSet, alGet, alSet, alDel,
      bPush, bGet, bErase, hab, hba, hk1, hk2, findPath, GraphCache.getNodeByName,
      GraphCache.getNodeById, GraphCache.getConnectedEdges, bfsFuel, findPathLoop,
      findPathStep, reconstructPath, propDetail]

/-- Witness for C10 at a concrete input: one directed edge a → b, both
directions found with the two-element path. -/
theorem C10_path_is_undirected_witness :
    (findPath (((emptyCache.addNode ⟨"a:a", "A", [("name", "a")], ["X.md"], 0, 0⟩).addNode
        ⟨"b:b", "B", [("name", "b")], ["Y.md"], 0, 0⟩).addEdge
        ⟨generateEdgeId "a:a" "b:b" .CITES, "a:a", "b:b", .CITES, [("detail", "d")],
          some "X.md", 0⟩) "b" "a" 4).found = true ∧
    (findPath (((emptyCache.addNode ⟨"a:a", "A", [("name", "a")], ["X.md"], 0, 0⟩).addNode
        ⟨"b:b", "B", [("name", "b")], ["Y.md"], 0, 0⟩).addEdge
        ⟨generateEdgeId "a:a" "b:b" .CITES, "a:a", "b:b", .CITES, [("detail", "d")],
          some "X.md", 0⟩) "b" "a" 4).path.map (fun s => s.node) = ["b", "a"] := by
  have h := C10_path_is_undirected ⟨"a:a", "A", [("name", "a")], ["X.md"], 0, 0⟩
    ⟨"b:b", "B", [("name", "b")], ["Y.md"], 0, 0⟩ .CITES [("detail", "d")]
    (some "X.md") 0 (by decide) (by decide)
  exact ⟨h.2.2.1, h.2.2.2⟩

/-- A found occurrence that is not a prefix sits at index at least 1. -/
theorem idxOf_some_pos (l sub : List Char) (h : ¬ sub.isPrefixOf l = true) :
    ∀ i, idxOf l sub = some i → 1 ≤ i := by
  intro i hi
  cases l with
  | nil =>
    unfold idxOf at hi
    rw [if_neg h] at hi
    cases hi
  | cons a t =>
    unfold idxOf at hi
    rw [if_neg h] at hi
    rcases Option.map_eq_some'.mp hi with ⟨j, _, hj⟩
    subst hj
    exact Nat.succ_le_succ (Nat.zero_le j)

/-- A found occurrence leaves room for the whole pattern. -/
theorem idxOf_some_le (sub : List Char) :
    ∀ (l : List Char) (i : Nat), idxOf l sub = some i → sub.length + i ≤ l.length := by
  intro l
  induction l with
  | nil =>
    intro i hi
    unfold idxOf at hi
    by_cases h : sub.isPrefixOf ([] : List Char)
    · rw [if_pos h] at hi
      cases hi
      have : sub = [] := List.prefix_nil.mp (List.isPrefixOf_iff_prefix.mp h)
      simp [this]
    · rw [if_neg h] at hi
      cases hi
  | cons a t ih =>
    intro i hi
    unfold idxOf at hi
    by_cases h : sub.isPrefixOf (a :: t)
    · rw [if_pos h] at hi
      cases hi
      have := (List.isPrefixOf_iff_prefix.mp h).length_le
      simpa using this
    · rw [if_neg h] at hi
      rcases Option.map_eq_some'.mp hi with ⟨j, hj, hji⟩
      subst hji
      have := ih j hj
      simp only [List.length_cons]
      omega

/-- A proper prefix is strictly shorter. -/
theorem prefix_ne_length_lt (q n : List Char) (hp : q.isPrefixOf n = true) (hne : n ≠ q) :
    q.length < n.length := by
  have hpre := List.isPrefixOf_iff_prefix.mp hp
  rcases Nat.lt_or_ge q.length n.length with h | h
  · exact h
  · exact absurd (List.IsPrefix.eq_of_length hpre
      (Nat.le_antisymm hpre.length_le h)).symm hne

/-- The Jaccard similarity of a deduplicated set against any set is at most 1. -/
theorem jaccardSimilarity_le_one (A B : List (List Char)) (hA : A.Nodup) :
    jaccardSimilarity A B ≤ 1 := by
  unfold jaccardSimilarity
  by_cases h0 : (A.length == 0 && B.length == 0) = true
  · simp [h0]
  · simp only [h0, Bool.false_eq_true, if_false]
    set f := fun x : List Char => B.contains x with hf
    set inter := (A.filter f).length with hinter
    have hIA : inter ≤ A.length := List.length_filter_le f A
    have hIB : inter ≤ B.length := by
      have hsub : ∀ x ∈ A.filter f, x ∈ B := by
        intro x hx
        have := (List.mem_filter.mp hx).2
        simpa [hf, List.contains] using this
      have hnd : (A.filter f).Nodup := hA.filter f
      have hcard : (A.filter f).toFinset ⊆ B.toFinset := by
        intro x hx
        rw [List.mem_toFinset] at hx ⊢
        exact hsub x hx
      calc (A.filter f).length = (A.filter f).toFinset.card :=
            (List.toFinset_card_of_nodup hnd).symm
        _ ≤ B.toFinset.card := Finset.card_le_card hcard
        _ ≤ B.length := List.toFinset_card_le B
    by_cases hu : (A.length + B.length - inter == 0) = true
    · simp [hu]
    · simp only [hu, Bool.false_eq_true, if_false]
      have huz : A.length + B.length - inter ≠ 0 := by simpa using hu
      have hle : inter ≤ A.length + B.length - inter := by omega
      rw [div_le_one (by positivity)]
      exact_mod_cast hle

/-- Unequal strings have unequal character lists. -/
theorem stringDataNe (s t : String) (h : s ≠ t) : s.data ≠ t.data := by
  intro hd
  apply h
  cases s
  cases t
  exact congrArg String.mk (by simpa using hd)

/-- `round2` is bounded above by `m / 100` when the scaled score is below `m + 1`. -/
theorem round2_le (x : ℚ) (m : ℤ) (h : x * 100 + 1/2 < (m : ℚ) + 1) :
    round2 x ≤ (m : ℚ) / 100 := by
  unfold round2
  have hfl : ⌊x * 100 + 1/2⌋ ≤ m := Int.floor_le_iff.mpr (by exact_mod_cast h)
  have : ((⌊x * 100 + 1/2⌋ : ℤ) : ℚ) ≤ (m : ℚ) := by exact_mod_cast hfl
  linarith

/-- `round2` is bounded below by `m / 100` when the scaled score is at least `m`. -/
theorem round2_ge (x : ℚ) (m : ℤ) (h : (m : ℚ) ≤ x * 100 + 1/2) :
    (m : ℚ) / 100 ≤ round2 x := by
  unfold round2
  have hfl : m ≤ ⌊x * 100 + 1/2⌋ := Int.le_floor.mpr (by exact_mod_cast h)
  have : (m : ℚ) ≤ ((⌊x * 100 + 1/2⌋ : ℤ) : ℚ) := by exact_mod_cast hfl
  linarith

/-- Every emitted ranking class is between 0 and 3. -/
theorem claimTier_le_three (query name : String) (t : Nat)
    (h : claimTier query name = some t) : t ≤ 3 := by
  unfold claimTier at h
  by_cases h1 : (stripWs (lowerStr name) == stripWs (lowerStr query)) = true
  · rw [if_pos h1] at h; cases h; omega
  · rw [if_neg h1] at h
    by_cases h2 : ((stripWs (lowerStr query)).data.isPrefixOf (stripWs (lowerStr name)).data) = true
    · rw [if_pos h2] at h; cases h; omega
    · rw [if_neg h2] at h
      by_cases h3 : (idxOf (stripWs (lowerStr name)).data (stripWs (lowerStr query)).data).isSome = true
      · rw [if_pos h3] at h; cases h; omega
      · rw [if_neg h3] at h
        by_cases h4 : (idxOf (stripWs (lowerStr query)).data (stripWs (lowerStr name)).data).isSome = true
        · rw [if_pos h4] at h; cases h
        · rw [if_neg h4] at h; cases h; omega

/-- Exact-equality candidates score exactly 1. -/
theorem calc_exact (query name : String)
    (h1 : (stripWs (lowerStr name) == stripWs (lowerStr query)) = true) :
    calculateMatchScore query name = 1 := by
  unfold calculateMatchScore
  simp [h1]

/-- Prefix-only candidates score in [0.9, 0.99). -/
theorem calc_pre_bounds (query name : String)
    (h1 : (stripWs (lowerStr name) == stripWs (lowerStr query)) = false)
    (h2 : ((stripWs (lowerStr query)).data.isPrefixOf (stripWs (lowerStr name)).data) = true) :
    9/10 ≤ calculateMatchScore query name ∧ calculateMatchScore query name < 99/100 := by
  unfold calculateMatchScore
  simp only [h1, Bool.false_eq_true, if_false, h2, if_true]
  have hne : (stripWs (lowerStr name)).data ≠ (stripWs (lowerStr query)).data := by
    apply stringDataNe
    simpa using h1
  have hlt : (stripWs (lowerStr query)).data.length <
      (stripWs (lowerStr name)).data.length := prefix_ne_length_lt _ _ h2 hne
  have hq0 : (0:ℚ) ≤ ((stripWs (lowerStr query)).length : ℚ) := by positivity
  have hn0 : (0:ℚ) < ((stripWs (lowerStr name)).length : ℚ) := by
    have : 0 < (stripWs (lowerStr name)).data.length := by omega
    exact_mod_cast this
  have hr1 : ((stripWs (lowerStr query)).length : ℚ) /
      ((stripWs (lowerStr name)).length : ℚ) < 1 := by
    rw [div_lt_one hn0]
    exact_mod_cast hlt
  have hr0 : (0:ℚ) ≤ ((stripWs (lowerStr query)).length : ℚ) /
      ((stripWs (lowerStr name)).length : ℚ) := by positivity
  constructor <;> nlinarith

/-- Substring-only candidates score in [0.7, 0.89). -/
theorem calc_sub_bounds (query name : String)
    (h1 : (stripWs (lowerStr name) == stripWs (lowerStr query)) = false)
    (h2 : ((stripWs (lowerStr query)).data.isPrefixOf (stripWs (lowerStr name)).data) = false)
    (h3 : (idxOf (stripWs (lowerStr name)).data (stripWs (lowerStr query)).data).isSome = true) :
    7/10 ≤ calculateMatchScore query name ∧ calculateMatchScore query name < 89/100 := by
  unfold calculateMatchScore
  simp only [h1, h2, Bool.false_eq_true, if_false, h3, if_true]
  rcases Option.isSome_iff_exists.mp h3 with ⟨i, hi⟩
  have hi1 : 1 ≤ i := idxOf_some_pos _ _ (by simp [h2]) i hi
  have hile : (stripWs (lowerStr query)).data.length + i ≤
      (stripWs (lowerStr name)).data.length := idxOf_some_le _ _ i hi
  rw [hi]
  simp only [Option.getD_some]
  have hn0 : (0:ℚ) < ((stripWs (lowerStr name)).length : ℚ) := by
    have : 0 < (stripWs (lowerStr name)).data.length := by omega
    exact_mod_cast this
  have hr1 : ((stripWs (lowerStr query)).length : ℚ) /
      ((stripWs (lowerStr name)).length : ℚ) < 1 := by
    rw [div_lt_one hn0]
    have : (stripWs (lowerStr query)).data.length <
        (stripWs (lowerStr name)).data.length := by omega
    exact_mod_cast this
  have hr0 : (0:ℚ) ≤ ((stripWs (lowerStr query)).length : ℚ) /
      ((stripWs (lowerStr name)).length : ℚ) := by positivity
  have hi1q : (1:ℚ) ≤ (i : ℚ) := by exact_mod_cast hi1
  have hbonus0 : (0:ℚ) ≤ max 0 (1/10 - (i:ℚ) * (1/100)) := le_max_left _ _
  have hbonus : max 0 (1/10 - (i:ℚ) * (1/100)) ≤ 9/100 := by
    apply max_le
    · norm_num
    · nlinarith
  constructor <;> nlinarith

/-- Fallback-tier candidates score at most 0.601. -/
theorem calc_bigram_bound (query name : String)
    (h1 : (stripWs (lowerStr name) == stripWs (lowerStr query)) = false)
    (h2 : ((stripWs (lowerStr query)).data.isPrefixOf (stripWs (lowerStr name)).data) = false)
    (h3 : (idxOf (stripWs (lowerStr name)).data (stripWs (lowerStr query)).data).isSome = false)
    (h4 : (idxOf (stripWs (lowerStr query)).data (stripWs (lowerStr name)).data).isSome = false) :
    calculateMatchScore query name ≤ 601/1000 := by
  unfold calculateMatchScore
  simp only [h1, h2, h3, h4, Bool.false_eq_true, if_false]
  by_cases hb : ((generateBigrams query).length == 0 || (generateBigrams name).length == 0) = true
  · simp only [hb, if_true]
    norm_num
  · simp only [hb, Bool.false_eq_true, if_false]
    have hsim : jaccardSimilarity (generateBigrams query) (generateBigrams name) ≤ 1 :=
      jaccardSimilarity_le_one _ _ (by unfold generateBigrams; exact List.nodup_dedup _)
    by_cases hgt : 3/10 < jaccardSimilarity (generateBigrams query) (generateBigrams name)
    · simp only [hgt, if_true]
      linarith
    · simp only [hgt, if_false]
      norm_num

/-- The rounded match score of a candidate lies in the band of its ranking
class (for class 0, any nonnegative raw score rounds into the band). -/
theorem score_in_band (query name : String) (t : Nat)
    (ht : claimTier query name = some t)
    (hpos : 0 ≤ calculateMatchScore query name) :
    tierLo t ≤ round2 (calculateMatchScore query name) ∧
    round2 (calculateMatchScore query name) ≤ tierHi t := by
  unfold claimTier at ht
  by_cases h1 : (stripWs (lowerStr name) == stripWs (lowerStr query)) = true
  · rw [if_pos h1] at ht
    cases ht
    rw [calc_exact query name h1]
    constructor
    · show tierLo 3 ≤ round2 1
      unfold tierLo round2
      norm_num
    · show round2 1 ≤ tierHi 3
      unfold tierHi round2
      norm_num
  · rw [if_neg h1] at ht
    have h1f : (stripWs (lowerStr name) == stripWs (lowerStr query)) = false := by
      simpa using h1
    by_cases h2 : ((stripWs (lowerStr query)).data.isPrefixOf (stripWs (lowerStr name)).data) = true
    · rw [if_pos h2] at ht
      cases ht
      have hb := calc_pre_bounds query name h1f h2
      constructor
      · show tierLo 2 ≤ _
        unfold tierLo
        have := round2_ge (calculateMatchScore query name) 90 (by nlinarith [hb.1])
        calc (9:ℚ)/10 = ((90 : ℤ) : ℚ)/100 := by norm_num
          _ ≤ _ := this
      · show _ ≤ tierHi 2
        unfold tierHi
        have := round2_le (calculateMatchScore query name) 99 (by nlinarith [hb.2])
        calc round2 _ ≤ ((99 : ℤ) : ℚ)/100 := this
          _ = 99/100 := by norm_num
    · rw [if_neg h2] at ht
      have h2f : ((stripWs (lowerStr query)).data.isPrefixOf (stripWs (lowerStr name)).data) = false := by
        simp only [Bool.not_eq_true] at h2
        exact h2
      by_cases h3 : (idxOf (stripWs (lowerStr name)).data (stripWs (lowerStr query)).data).isSome = true
      · rw [if_pos h3] at ht
        cases ht
        have hb := calc_sub_bounds query name h1f h2f h3
        constructor
        · show tierLo 1 ≤ _
          unfold tierLo
          have := round2_ge (calculateMatchScore query name) 70 (by nlinarith [hb.1])
          calc (7:ℚ)/10 = ((70 : ℤ) : ℚ)/100 := by norm_num
            _ ≤ _ := this
        · show _ ≤ tierHi 1
          unfold tierHi
          have := round2_le (calculateMatchScore query name) 89 (by nlinarith [hb.2])
          calc round2 _ ≤ ((89 : ℤ) : ℚ)/100 := this
            _ = 89/100 := by norm_num
      · rw [if_neg h3] at ht
        have h3f : (idxOf (stripWs (lowerStr name)).data (stripWs (lowerStr query)).data).isSome = false := by
          simp only [Bool.not_eq_true] at h3
          exact h3
        by_cases h4 : (idxOf (stripWs (lowerStr query)).data (stripWs (lowerStr name)).data).isSome = true
        · rw [if_pos h4] at ht
          cases ht
        · rw [if_neg h4] at ht
          cases ht
          have h4f : (idxOf (stripWs (lowerStr query)).data (stripWs (lowerStr name)).data).isSome = false := by
            simp only [Bool.not_eq_true] at h4
            exact h4
          have hb := calc_bigram_bound query name h1f h2f h3f h4f
          constructor
          · show tierLo 0 ≤ _
            unfold tierLo
            have := round2_ge (calculateMatchScore query name) 0 (by nlinarith)
            simpa using this
          · show _ ≤ tierHi 0
            unfold tierHi
            have := round2_le (calculateMatchScore query name) 60 (by nlinarith)
            calc round2 _ ≤ ((60 : ℤ) : ℚ)/100 := this
              _ = 6/10 := by norm_num

/-- Membership in the stable insertion. -/
theorem mem_insertByScore (x y : SearchNodeResult) (l : List SearchNodeResult) :
    y ∈ insertByScore x l ↔ y = x ∨ y ∈ l := by
  induction l with
  | nil => simp [insertByScore]
  | cons z t ih =>
    unfold insertByScore
    by_cases h : z.score ≤ x.score
    · simp [h, List.mem_cons]
    · simp only [h, if_false, List.mem_cons, ih]
      tauto

/-- Membership in the sorted list. -/
theorem mem_sortByScoreDesc (y : SearchNodeResult) (l : List SearchNodeResult) :
    y ∈ sortByScoreDesc l ↔ y ∈ l := by
  induction l with
  | nil => simp [sortByScoreDesc]
  | cons x t ih =>
    unfold sortByScoreDesc
    rw [mem_insertByScore]
    simp [ih, List.mem_cons]

/-- The stable insertion keeps the list sorted descending by score. -/
theorem pairwise_insertByScore (x : SearchNodeResult) (l : List SearchNodeResult)
    (h : List.Pairwise (fun a b => b.score ≤ a.score) l) :
    List.Pairwise (fun a b => b.score ≤ a.score) (insertByScore x l) := by
  induction l with
  | nil => simp [insertByScore]
  | cons z t ih =>
    rcases List.pairwise_cons.mp h with ⟨hz, ht⟩
    unfold insertByScore
    by_cases hc : z.score ≤ x.score
    · simp only [hc, if_true]
      apply List.pairwise_cons.mpr
      refine ⟨?_, h⟩
      intro w hw
      rcases List.mem_cons.mp hw with hw | hw
      · subst hw; exact hc
      · exact le_trans (hz w hw) hc
    · simp only [hc, if_false]
      apply List.pairwise_cons.mpr
      constructor
      · intro w hw
        rcases (mem_insertByScore x w t).mp hw with hw | hw
        · subst hw; exact le_of_lt (lt_of_not_le hc)
        · exact hz w hw
      · exact ih ht

/-- The sort produces a descending-by-score list. -/
theorem pairwise_sortByScoreDesc (l : List SearchNodeResult) :
    List.Pairwise (fun a b => b.score ≤ a.score) (sortByScoreDesc l) := by
  induction l with
  | nil => simp [sortByScoreDesc]
  | cons x t ih => exact pairwise_insertByScore x (sortByScoreDesc t) ih

/-- The search result list is descending by (rounded) score. -/
theorem searchNodes_pairwise (c : GraphCache) (query : String) (lf : Option String) :
    List.Pairwise (fun a b => b.score ≤ a.score) (searchNodes c query lf) := by
  unfold searchNodes
  by_cases hq : (trimStr query == "") = true
  · simp [hq]
  · simp only [hq, Bool.false_eq_true, if_false]
    exact (pairwise_sortByScoreDesc _).sublist (List.take_sublist _ _)

/-- Every entry of the scoring loop's accumulator carries the rounded score
of its own name, and scored positively. -/
theorem searchFold_entry (qT : String) (lf : Option String) (nodes : List OntologyNode) :
    ∀ acc : List SearchNodeResult,
    (∀ res ∈ acc, res.score = round2 (calculateMatchScore qT res.name) ∧
      0 < calculateMatchScore qT res.name) →
    ∀ res ∈ nodes.foldl (searchStep qT lf) acc,
      res.score = round2 (calculateMatchScore qT res.name) ∧
      0 < calculateMatchScore qT res.name := by
  induction nodes with
  | nil => intro acc hacc; exact hacc
  | cons node t ih =>
    intro acc hacc
    simp only [List.foldl_cons]
    apply ih
    intro res hres
    unfold searchStep at hres
    dsimp only [] at hres
    split at hres
    · exact hacc res hres
    · split at hres
      · rcases List.mem_append.mp hres with hres | hres
        · exact hacc res hres
        · simp only [List.mem_singleton] at hres
          subst hres
          rename_i hscore
          exact ⟨rfl, hscore⟩
      · exact hacc res hres

/-- Every search result row scored positively and carries the rounded match
score of its own name against the trimmed query. -/
theorem searchNodes_entry (c : GraphCache) (query : String) (lf : Option String) :
    ∀ res ∈ searchNodes c query lf,
      res.score = round2 (calculateMatchScore (trimStr query) res.name) ∧
      0 < calculateMatchScore (trimStr query) res.name := by
  unfold searchNodes
  by_cases hq : (trimStr query == "") = true
  · simp [hq]
  · simp only [hq, Bool.false_eq_true, if_false]
    intro res hres
    have h1 : res ∈ sortByScoreDesc (c.getAllNodes.foldl (searchStep (trimStr query) lf) []) :=
      List.mem_of_mem_take hres
    rw [mem_sortByScoreDesc] at h1
    exact searchFold_entry (trimStr query) lf c.getAllNodes [] (by simp) res h1

/-- The score bands of distinct ranking classes are strictly separated. -/
theorem tier_sep (t t' : Nat) (h3 : t ≤ 3) (hlt : t' < t) : tierHi t' < tierLo t := by
  interval_cases t <;> interval_cases t' <;> norm_num [tierHi, tierLo]

/-- C4: search ranking order.  In the ranked list returned by the fuzzy name
search, any entry of a strictly higher ranking class (exact = 3 above
prefix-only = 2 above proper-substring-only = 1 above bigram-fallback = 0,
classes per `claimTier`) appears strictly earlier than any entry of a lower
class, rounding of scores to two decimals included. -/
theorem C4_search_ranking_order (c : GraphCache) (query : String) (lf : Option String)
    (i j : Nat)
    (hi : i < (searchNodes c query lf).length)
    (hj : j < (searchNodes c query lf).length)
    (ti tj : Nat)
    (hti : claimTier (trimStr query) ((searchNodes c query lf).get ⟨i, hi⟩).name = some ti)
    (htj : claimTier (trimStr query) ((searchNodes c query lf).get ⟨j, hj⟩).name = some tj)
    (hlt : tj < ti) :
    i < j := by
  have hpw := searchNodes_pairwise c query lf
  have hei := searchNodes_entry c query lf ((searchNodes c query lf).get ⟨i, hi⟩)
    (List.get_mem _ _ hi)
  have hej := searchNodes_entry c query lf ((searchNodes c query lf).get ⟨j, hj⟩)
    (List.get_mem _ _ hj)
  have hbi := score_in_band (trimStr query) ((searchNodes c query lf).get ⟨i, hi⟩).name ti hti
    (le_of_lt hei.2)
  have hbj := score_in_band (trimStr query) ((searchNodes c query lf).get ⟨j, hj⟩).name tj htj
    (le_of_lt hej.2)
  have hsep : tierHi tj < tierLo ti :=
    tier_sep ti tj (claimTier_le_three _ _ ti hti) hlt
  have hscore : ((searchNodes c query lf).get ⟨j, hj⟩).score <
      ((searchNodes c query lf).get ⟨i, hi⟩).score := by
    rw [hei.1, hej.1]
    calc round2 (calculateMatchScore (trimStr query)
          ((searchNodes c query lf).get ⟨j, hj⟩).name) ≤ tierHi tj := hbj.2
      _ < tierLo ti := hsep
      _ ≤ _ := hbi.1
  by_contra hij
  push_neg at hij
  rcases Nat.lt_or_ge j i with hji | hji
  · have := List.pairwise_iff_get.mp hpw ⟨j, hj⟩ ⟨i, hi⟩ hji
    exact absurd this (not_le.mpr hscore)
  · have hii : i = j := Nat.le_antisymm hji hij
    subst hii
    exact absurd rfl (ne_of_lt hscore)

/-- Witness for C4 at a concrete input: for the query `abc` the four stored
candidates fall into the four ranking classes, and the theorem places each
class strictly above the next in the returned ranking. -/
theorem C4_search_ranking_order_witness :
    claimTier (trimStr "abc") ((searchNodes c4wCache "abc" none).get ⟨0, by with_unfolding_all decide⟩).name
      = some 3 ∧
    claimTier (trimStr "abc") ((searchNodes c4wCache "abc" none).get ⟨1, by with_unfolding_all decide⟩).name
      = some 2 ∧
    claimTier (trimStr "abc") ((searchNodes c4wCache "abc" none).get ⟨2, by with_unfolding_all decide⟩).name
      = some 1 ∧
    claimTier (trimStr "abc") ((searchNodes c4wCache "abc" none).get ⟨3, by with_unfolding_all decide⟩).name
      = some 0 ∧
    (0 : Nat) < 1 ∧ (1 : Nat) < 2 ∧ (2 : Nat) < 3 :=
  ⟨by with_unfolding_all decide, by with_unfolding_all decide, by with_unfolding_all decide, by with_unfolding_all decide,
   C4_search_ranking_order c4wCache "abc" none 0 1 (by with_unfolding_all decide) (by with_unfolding_all decide) 3 2
     (by with_unfolding_all decide) (by with_unfolding_all decide) (by with_unfolding_all decide),
   C4_search_ranking_order c4wCache "abc" none 1 2 (by with_unfolding_all decide) (by with_unfolding_all decide) 2 1
     (by with_unfolding_all decide) (by with_unfolding_all decide) (by with_unfolding_all decide),
   C4_search_ranking_order c4wCache "abc" none 2 3 (by with_unfolding_all decide) (by with_unfolding_all decide) 1 0
     (by with_unfolding_all decide) (by with_unfolding_all decide) (by with_unfolding_all decide)⟩

/-- An edge to an already-visited neighbor changes nothing. -/
theorem connectedStep_seen (c : GraphCache) (id : String) (path : List String) (d : Nat)
    (q : List (String × List String × Nat)) (vis : List String)
    (res : List ConnectedNodeResult) (e : OntologyEdge)
    (hv : vis.contains (otherEnd id e) = true) :
    connectedStep c id path d (q, vis, res) e = (q, vis, res) := by
  simp only [otherEnd] at hv
  simp only [connectedStep]
  rw [if_pos hv]

/-- An edge to a fresh neighbor that resolves appends one queue entry, one
visited id and one result row. -/
theorem connectedStep_new_some (c : GraphCache) (id : String) (path : List String) (d : Nat)
    (q : List (String × List String × Nat)) (vis : List String)
    (res : List ConnectedNodeResult) (e : OntologyEdge)
    (hv : vis.contains (otherEnd id e) = false)
    (n : OntologyNode) (hn : c.getNodeById (otherEnd id e) = some n) :
    connectedStep c id path d (q, vis, res) e =
      (q ++ [(otherEnd id e, path ++ [propName n.properties], d + 1)],
       vis ++ [otherEnd id e],
       res ++ [⟨propName n.properties, n.label, path ++ [propName n.properties]⟩]) := by
  simp only [otherEnd] at hv hn
  simp only [connectedStep]
  rw [if_neg (by rw [hv]; exact Bool.false_ne_true), hn]
  rfl

/-- An edge to a fresh neighbor that does not resolve only marks it visited. -/
theorem connectedStep_new_none (c : GraphCache) (id : String) (path : List String) (d : Nat)
    (q : List (String × List String × Nat)) (vis : List String)
    (res : List ConnectedNodeResult) (e : OntologyEdge)
    (hv : vis.contains (otherEnd id e) = false)
    (hn : c.getNodeById (otherEnd id e) = none) :
    connectedStep c id path d (q, vis, res) e =
      (q, vis ++ [otherEnd id e], res) := by
  simp only [otherEnd] at hv hn
  simp only [connectedStep]
  rw [if_neg (by rw [hv]; exact Bool.false_ne_true), hn]
  rfl

/-- A visited-set scan returns at most one id per scanned id. -/
theorem neighborsFrom_length_le (l : List String) :
    ∀ seen, (neighborsFrom seen l).length ≤ l.length := by
  induction l with
  | nil => intro seen; simp [neighborsFrom]
  | cons x t ih =>
    intro seen
    by_cases hx : seen.contains x = true
    · rw [neighborsFrom, if_pos hx]
      exact Nat.le_succ_of_le (ih seen)
    · rw [neighborsFrom, if_neg hx]
      exact Nat.succ_le_succ (ih (seen ++ [x]))

/-- Unrolling the edge fold of one BFS layer of `getConnectedNodes`: the
queue, the visited list and the results each grow by one entry per newly
seen neighbor (resolvable ones for the queue and the results), in scan
order. -/
theorem connectedFold_spec (c : GraphCache) (id : String) (path : List String) (d : Nat)
    (es : List OntologyEdge) :
    ∀ (q : List (String × List String × Nat)) (vis : List String)
      (res : List ConnectedNodeResult),
    es.foldl (connectedStep c id path d) (q, vis, res) =
      (q ++ (neighborsFrom vis (es.map (fun e => otherEnd id e))).filterMap
          (fun nid => (c.getNodeById nid).map
            (fun n => (nid, path ++ [propName n.properties], d + 1))),
       vis ++ neighborsFrom vis (es.map (fun e => otherEnd id e)),
       res ++ (neighborsFrom vis (es.map (fun e => otherEnd id e))).filterMap
          (fun nid => (c.getNodeById nid).map
            (fun n => ⟨propName n.properties, n.label, path ++ [propName n.properties]⟩))) := by
  induction es with
  | nil => intro q vis res; simp [neighborsFrom]
  | cons e t ih =>
    intro q vis res
    rw [List.foldl_cons, List.map_cons]
    by_cases hv : vis.contains (otherEnd id e) = true
    · rw [connectedStep_seen c id path d q vis res e hv, ih, neighborsFrom, if_pos hv]
    · have hv' : vis.contains (otherEnd id e) = false := by
        simp only [Bool.not_eq_true] at hv
        exact hv
      rw [neighborsFrom, if_neg hv]
      cases hn : c.getNodeById (otherEnd id e) with
      | some n =>
        rw [connectedStep_new_some c id path d q vis res e hv' n hn, ih]
        simp [hn, List.append_assoc]
      | none =>
        rw [connectedStep_new_none c id path d q vis res e hv' hn, ih]
        simp [hn, List.append_assoc]

/-- Once every queued entry has reached the hop bound, the loop drains the
queue without changing the results. -/
theorem connectedLoop_drain (c : GraphCache) (maxHops : Nat) :
    ∀ (fuel : Nat) (q : List (String × List String × Nat)) (vis : List String)
      (res : List ConnectedNodeResult),
      (∀ p ∈ q, maxHops ≤ p.2.2) → q.length < fuel →
      connectedLoop c maxHops fuel q vis res = res := by
  intro fuel
  induction fuel with
  | zero => intro q vis res _ hl; omega
  | succ f ih =>
    intro q vis res hq hl
    cases q with
    | nil => simp [connectedLoop]
    | cons p t =>
      obtain ⟨id, path, depth⟩ := p
      simp only [connectedLoop]
      rw [if_pos (hq _ (List.mem_cons_self _ _))]
      refine ih t vis res (fun p hp => hq p (List.mem_cons_of_mem _ hp)) ?_
      simp only [List.length_cons] at hl
      omega

/-- C8 (amended): hop bound of bounded reachability.  With the incidence
buckets of the start node agreeing with the canonical edge collection and at
most 50 direct neighbors, `connected(start, 0)` is empty and
`connected(start, 1)` is exactly the list of direct neighbors of the start
node, each resolvable neighbor contributing one row whose path is the
one-element list holding its own name.  (Without the 50-neighbor bound the
result cap truncates the neighbor list; see the counterexample.) -/
theorem C8_hop_bound (c : GraphCache) (name : String) (startNode : OntologyNode)
    (hname : c.getNodeByName name = some startNode)
    (hsrc : bGet c.edgesBySource startNode.id =
      c.edges.filter (fun e => e.source == startNode.id))
    (htgt : bGet c.edgesByTarget startNode.id =
      c.edges.filter (fun e => e.target == startNode.id))
    (hcount : (directNeighbors c startNode.id).length ≤ 50) :
    getConnectedNodes c name 0 = [] ∧
    getConnectedNodes c name 1 =
      (directNeighbors c startNode.id).filterMap
        (fun nid => (c.getNodeById nid).map
          (fun n => ⟨propName n.properties, n.label, [propName n.properties]⟩)) := by
  constructor
  · unfold getConnectedNodes
    rw [hname]
    dsimp only []
    rw [connectedLoop_drain c (min 0 4) (bfsFuel c) [(startNode.id, [], 0)] [startNode.id] []
      (by
        intro p hp
        simp only [List.mem_singleton] at hp
        subst hp
        show min 0 4 ≤ 0
        decide)
      (by unfold bfsFuel; simp only [List.length_singleton]; omega)]
    rfl
  · unfold getConnectedNodes
    rw [hname]
    try dsimp only []
    have hmin : min 1 4 = 1 := by decide
    rw [hmin]
    have hfuel : bfsFuel c = (2 * c.edges.length + c.nodes.length + 1) + 1 := by
      unfold bfsFuel; omega
    rw [hfuel]
    simp only [connectedLoop]
    rw [if_neg (by decide)]
    try dsimp only []
    unfold GraphCache.getConnectedEdges
    rw [hsrc, htgt, connectedFold_spec]
    dsimp only []
    rw [connectedLoop_drain c 1 (2 * c.edges.length + c.nodes.length + 1) _ _ _
      (by
        intro p hp
        simp only [List.nil_append, List.mem_filterMap] at hp
        obtain ⟨nid, _, hmap⟩ := hp
        cases ho : c.getNodeById nid with
        | none => rw [ho] at hmap; simp at hmap
        | some n =>
          rw [ho] at hmap
          simp only [Option.map_some', Option.some_inj] at hmap
          subst hmap
          exact Nat.le_refl 1)
      (by
        simp only [List.nil_append]
        refine lt_of_le_of_lt
          (le_trans (List.length_filterMap_le _ _) (neighborsFrom_length_le _ _)) ?_
        have h3 := List.length_filter_le (fun e => e.source == startNode.id) c.edges
        have h4 := List.length_filter_le (fun e => e.target == startNode.id) c.edges
        simp only [List.length_map, List.length_append]
        omega)]
    simp only [List.nil_append]
    unfold directNeighbors
    exact List.take_of_length_le (le_trans (List.length_filterMap_le _ _) hcount)

/-- Witness for C8 at a concrete input: a hub with two direct neighbors. -/
theorem C8_hop_bound_witness :
    getConnectedNodes c8w "hub" 0 = [] ∧
    getConnectedNodes c8w "hub" 1 =
      (directNeighbors c8w (c8Node "hub").id).filterMap
        (fun nid => (c8w.getNodeById nid).map
          (fun n => ⟨propName n.properties, n.label, [propName n.properties]⟩)) :=
  C8_hop_bound c8w "hub" (c8Node "hub") (by decide) (by decide) (by decide) (by decide)

set_option maxRecDepth 100000 in
/-- Counterexample to the literal C8: in a star store whose hub has 51
direct neighbors, `connected(hub, 1)` returns only 50 rows — the 51st
neighbor `n50`, although joined to the hub by an edge, appears in no row,
because the traversal caps its result list at 50 entries. -/
theorem C8_hop_bound_counterexample :
    (directNeighbors c8star "c:hub").length = 51 ∧
    (c8star.edges.filter (fun e => e.source == "c:hub" && e.target == "c:n50")).length = 1 ∧
    (getConnectedNodes c8star "hub" 1).length = 50 ∧
    (getConnectedNodes c8star "hub" 1).all (fun r => r.name != "n50") = true := by
  decide

/-- A successful map lookup is an entry of the map. -/
theorem alGet_mem [BEq κ] (m : List (κ × α)) (k : κ) (v : α)
    (h : alGet m k = some v) : (k, v) ∈ m ∨ ∃ p ∈ m, p.2 = v := by
  right
  induction m with
  | nil => simp [alGet] at h
  | cons p t ih =>
    rw [alGet] at h
    by_cases hk : (p.1 == k) = true
    · rw [if_pos hk] at h
      exact ⟨p, List.mem_cons_self _ _, Option.some_inj.mp h⟩
    · rw [if_neg hk] at h
      obtain ⟨q, hq, he⟩ := ih h
      exact ⟨q, List.mem_cons_of_mem _ hq, he⟩

/-- A successful map lookup is an entry of the map, key included. -/
theorem alGet_mem_pair [BEq κ] [LawfulBEq κ] (m : List (κ × α)) (k : κ) (v : α)
    (h : alGet m k = some v) : (k, v) ∈ m := by
  induction m with
  | nil => simp [alGet] at h
  | cons p t ih =>
    rw [alGet] at h
    by_cases hk : (p.1 == k) = true
    · rw [if_pos hk] at h
      have : p = (k, v) := by
        obtain ⟨p1, p2⟩ := p
        simp only [beq_iff_eq] at hk
        simp only [Option.some_inj] at h
        simp [hk, h]
      rw [← this]
      exact List.mem_cons_self _ _
    · rw [if_neg hk] at h
      exact List.mem_cons_of_mem _ (ih h)

/-- Deleting a key keeps every other entry. -/
theorem alDel_subset [BEq κ] (m : List (κ × α)) (k : κ) :
    ∀ p ∈ alDel m k, p ∈ m := by
  induction m with
  | nil => intro p hp; simp [alDel] at hp
  | cons q t ih =>
    intro p hp
    rw [alDel] at hp
    by_cases hk : (q.1 == k) = true
    · rw [if_pos hk] at hp
      exact List.mem_cons_of_mem _ (ih p hp)
    · rw [if_neg hk] at hp
      rcases List.mem_cons.mp hp with h | h
      · exact h ▸ List.mem_cons_self _ _
      · exact List.mem_cons_of_mem _ (ih p h)

/-- No entry under the deleted key survives the deletion. -/
theorem alDel_key_ne [BEq κ] [LawfulBEq κ] (m : List (κ × α)) (k : κ) :
    ∀ p ∈ alDel m k, p.1 ≠ k := by
  induction m with
  | nil => intro p hp; simp [alDel] at hp
  | cons q t ih =>
    intro p hp
    rw [alDel] at hp
    by_cases hk : (q.1 == k) = true
    · rw [if_pos hk] at hp
      exact ih p hp
    · rw [if_neg hk] at hp
      rcases List.mem_cons.mp hp with h | h
      · subst h
        simpa using hk
      · exact ih p h

/-- An entry of the updated map is the new binding or an old entry. -/
theorem mem_alSet_or [BEq κ] (m : List (κ × α)) (k : κ) (v : α) :
    ∀ p ∈ alSet m k v, p = (k, v) ∨ p ∈ m := by
  induction m with
  | nil =>
    intro p hp
    rw [alSet] at hp
    simp only [List.mem_singleton] at hp
    exact Or.inl hp
  | cons q t ih =>
    intro p hp
    rw [alSet] at hp
    by_cases hk : (q.1 == k) = true
    · rw [if_pos hk] at hp
      rcases List.mem_cons.mp hp with h | h
      · exact Or.inl h
      · exact Or.inr (List.mem_cons_of_mem _ h)
    · rw [if_neg hk] at hp
      rcases List.mem_cons.mp hp with h | h
      · exact Or.inr (h ▸ List.mem_cons_self _ _)
      · rcases ih p h with h' | h'
        · exact Or.inl h'
        · exact Or.inr (List.mem_cons_of_mem _ h')

/-- Splitting a list at the first filtered survivor, from a cons-shaped
image of `filter` under `map`. -/
theorem filter_map_eq_cons_split {α β : Type} (p : α → Bool) (f : α → β) :
    ∀ (l : List α) (a : β) (r : List β),
    (l.filter p).map f = a :: r →
    ∃ l1 x l2, l = l1 ++ x :: l2 ∧ (∀ y ∈ l1, p y = false) ∧ p x = true ∧ f x = a ∧
      ((l2.filter p).map f) = r := by
  intro l
  induction l with
  | nil => intro a r h; simp at h
  | cons z t ih =>
    intro a r h
    by_cases hz : p z = true
    · rw [List.filter_cons_of_pos hz, List.map_cons] at h
      obtain ⟨h1, h2⟩ := List.cons_eq_cons.mp h
      exact ⟨[], z, t, by simp, by simp, hz, h1, h2⟩
    · rw [List.filter_cons_of_neg hz] at h
      obtain ⟨l1, x, l2, he, hl1, hx, hfx, hr⟩ := ih a r h
      refine ⟨z :: l1, x, l2, by simp [he], ?_, hx, hfx, hr⟩
      intro y hy
      rcases List.mem_cons.mp hy with h' | h'
      · subst h'
        simpa using hz
      · exact hl1 y h'

/-- Splitting the domain of a `filterMap` along a split of its image. -/
theorem filterMap_eq_append_cons_split {α β : Type} (f : α → Option β) :
    ∀ (l : List α) (s1 : List β) (x : β) (s2 : List β),
    l.filterMap f = s1 ++ x :: s2 →
    ∃ a1 r a2, l = a1 ++ r :: a2 ∧ a1.filterMap f = s1 ∧ f r = some x ∧
      a2.filterMap f = s2 := by
  intro l
  induction l with
  | nil =>
    intro s1 x s2 h
    rw [List.filterMap_nil] at h
    exact absurd h.symm (List.append_ne_nil_of_right_ne_nil _ (List.cons_ne_nil _ _))
  | cons z t ih =>
    intro s1 x s2 h
    rw [List.filterMap_cons] at h
    cases hz : f z with
    | none =>
      rw [hz] at h
      obtain ⟨a1, r, a2, he, h1, hr, h2⟩ := ih s1 x s2 h
      exact ⟨z :: a1, r, a2, by simp [he], by simp [List.filterMap_cons, hz, h1], hr, h2⟩
    | some y =>
      rw [hz] at h
      cases s1 with
      | nil =>
        simp only [List.nil_append] at h
        obtain ⟨h1, h2⟩ := List.cons_eq_cons.mp h
        exact ⟨[], z, t, by simp, by simp, h1 ▸ hz, h2⟩
      | cons s1h s1t =>
        simp only [List.cons_append] at h
        obtain ⟨h1, h2⟩ := List.cons_eq_cons.mp h
        obtain ⟨a1, r, a2, he, ha1, hr, h2'⟩ := ih s1t x s2 h2
        exact ⟨z :: a1, r, a2, by simp [he],
          by simp [List.filterMap_cons, hz, ha1, h1], hr, h2'⟩

/-- Distinct entries of a list with nodup image are separated by the map. -/
theorem nodup_map_ne {α β : Type} (f : α → β) (l : List α)
    (h : (l.map f).Nodup) :
    ∀ a ∈ l, ∀ b ∈ l, a ≠ b → f a ≠ f b := by
  intro a ha b hb hne
  intro hf
  exact hne (List.inj_on_of_nodup_map h ha hb hf)

/-- Effect of `removeEdge` on the canonical collections and the lookup
indexes when the id resolves: the edge leaves `edges` and `edgeById`; the
node side is untouched. -/
theorem removeEdge_found_spec (c : GraphCache) (e : OntologyEdge)
    (he : alGet c.edgeById e.id = some e) :
    (c.removeEdge e.id).1.edges = c.edges.erase e ∧
    (c.removeEdge e.id).1.nodes = c.nodes ∧
    (c.removeEdge e.id).1.heap = c.heap ∧
    (c.removeEdge e.id).1.nodeById = c.nodeById ∧
    (c.removeEdge e.id).1.edgeById = alDel c.edgeById e.id := by
  unfold GraphCache.removeEdge
  rw [he]
  exact ⟨rfl, rfl, rfl, rfl, rfl⟩

/-- Folding `removeEdge` over the ids of a set of stored edges removes
exactly those edges from the collection and the id index, keeps every
other edge, and leaves the node side untouched. -/
theorem removeEdgesFold_spec :
    ∀ (el : List OntologyEdge) (c : GraphCache),
    (∀ e ∈ c.edges, alGet c.edgeById e.id = some e) →
    (∀ p ∈ c.edgeById, p.2 ∈ c.edges ∧ p.2.id = p.1) →
    ((c.edges.map (fun e => e.id)).Nodup) →
    el.Nodup → (∀ e ∈ el, e ∈ c.edges) →
    let res := el.foldl (fun acc e => (GraphCache.removeEdge acc e.id).1) c
    res.edges = c.edges.filter (fun e => !(el.contains e)) ∧
    res.nodes = c.nodes ∧ res.heap = c.heap ∧ res.nodeById = c.nodeById ∧
    (∀ e ∈ res.edges, alGet res.edgeById e.id = some e) ∧
    (∀ p ∈ res.edgeById, p.2 ∈ res.edges ∧ p.2.id = p.1) ∧
    ((res.edges.map (fun e => e.id)).Nodup) := by
  intro el
  induction el with
  | nil =>
    intro c hcomp hsound hids _ _
    refine ⟨?_, rfl, rfl, rfl, hcomp, hsound, hids⟩
    rw [List.filter_congr (fun e _ => by simp : ∀ e ∈ c.edges,
      (!(List.contains ([] : List OntologyEdge) e)) = true)]
    exact (List.filter_true _).symm
  | cons e1 rest ih =>
    intro c hcomp hsound hids hnd hmem
    have hvnd : c.edges.Nodup := List.Nodup.of_map _ hids
    have he1m : e1 ∈ c.edges := hmem e1 (List.mem_cons_self _ _)
    have he1 : alGet c.edgeById e1.id = some e1 := hcomp e1 he1m
    obtain ⟨hE, hN, hH, hI, hB⟩ := removeEdge_found_spec c e1 he1
    rw [List.foldl_cons]
    set c1 := (c.removeEdge e1.id).1 with hc1
    have hcomp1 : ∀ e ∈ c1.edges, alGet c1.edgeById e.id = some e := by
      intro e he'
      rw [hE] at he'
      have hne : e ≠ e1 := ((List.Nodup.mem_erase_iff hvnd).mp he').1
      have hme : e ∈ c.edges := ((List.Nodup.mem_erase_iff hvnd).mp he').2
      have hidne : e.id ≠ e1.id := by
        intro h
        exact hne (List.inj_on_of_nodup_map hids hme he1m h)
      rw [hB, alGet_alDel_ne _ _ _ (by simpa using hidne)]
      exact hcomp e hme
    have hsound1 : ∀ p ∈ c1.edgeById, p.2 ∈ c1.edges ∧ p.2.id = p.1 := by
      intro p hp
      rw [hB] at hp
      have hpm := alDel_subset _ _ p hp
      have hpk := alDel_key_ne _ _ p hp
      obtain ⟨h1, h2⟩ := hsound p hpm
      have hne : p.2 ≠ e1 := by
        intro h
        exact hpk (by rw [← h2, h])
      rw [hE]
      exact ⟨(List.Nodup.mem_erase_iff hvnd).mpr ⟨hne, h1⟩, h2⟩
    have hids1 : (c1.edges.map (fun e => e.id)).Nodup := by
      rw [hE]
      exact List.Nodup.sublist (List.Sublist.map _ (List.erase_sublist _ _)) hids
    have hnd1 : rest.Nodup := (List.nodup_cons.mp hnd).2
    have hmem1 : ∀ e ∈ rest, e ∈ c1.edges := by
      intro e he'
      rw [hE]
      refine (List.Nodup.mem_erase_iff hvnd).mpr ⟨?_, hmem e (List.mem_cons_of_mem _ he')⟩
      intro h
      exact (List.nodup_cons.mp hnd).1 (h ▸ he')
    obtain ⟨rE, rN, rH, rI, rcomp, rsound, rids⟩ := ih c1 hcomp1 hsound1 hids1 hnd1 hmem1
    refine ⟨?_, by rw [rN, hN], by rw [rH, hH], by rw [rI, hI], rcomp, rsound, rids⟩
    rw [rE, hE, List.Nodup.erase_eq_filter hvnd, List.filter_filter]
    refine List.filter_congr ?_
    intro x _
    by_cases hx : x = e1
    · simp [hx]
    · simp [List.contains_cons, hx, Ne.symm hx]

/-- Reading the heap after writing a reference. -/
theorem heapGet_heapSet (c : GraphCache) (r : Nat) (v : OntologyNode) (r' : Nat) :
    heapGet (heapSet c r v) r' = if r' = r then some v else heapGet c r' := by
  unfold heapGet heapSet
  rw [alGet_alSet]
  by_cases h : r' = r <;> simp [h]

/-- Membership in a filtered list decides the filter. -/
theorem contains_filter_of_mem {α : Type} [BEq α] [LawfulBEq α]
    (l : List α) (p : α → Bool) (e : α) (he : e ∈ l) :
    (l.filter p).contains e = p e := by
  cases hp : p e
  · cases hc : (l.filter p).contains e
    · rfl
    · have hm : e ∈ l.filter p := List.elem_iff.mp hc
      rw [List.mem_filter, hp] at hm
      exact absurd hm.2 Bool.false_ne_true
  · exact List.elem_iff.mpr (List.mem_filter.mpr ⟨he, hp⟩)

/-- `updateNode` called on a reference whose object is already correctly
registered under its id: the canonical collections, the heap reads and the
node-id lookups are all unchanged (the id entry is re-written in place). -/
theorem updateNode_known_spec (c0 : GraphCache) (r1 : Nat) (v : OntologyNode)
    (hg : heapGet c0 r1 = some v)
    (hfind : alGet c0.nodeById v.id = some r1) :
    (c0.updateNode r1).nodes = c0.nodes ∧
    (c0.updateNode r1).edges = c0.edges ∧
    (c0.updateNode r1).edgeById = c0.edgeById ∧
    (c0.updateNode r1).nodeById = alSet (alDel c0.nodeById v.id) v.id r1 ∧
    (∀ r, heapGet (c0.updateNode r1) r = heapGet c0 r) := by
  unfold GraphCache.updateNode
  rw [hg]
  dsimp only []
  rw [hfind]
  dsimp only []
  unfold GraphCache.unindexNode
  rw [hg]
  dsimp only []
  unfold GraphCache.indexNode heapSet GraphCache.markDirty heapGet
  dsimp only []
  rw [show alGet (alSet c0.heap r1 v) r1 = some v from alGet_alSet_self _ _ _]
  dsimp only []
  refine ⟨rfl, rfl, rfl, rfl, ?_⟩
  intro r
  show alGet (alSet c0.heap r1 v) r = heapGet c0 r
  rw [alGet_alSet]
  by_cases h : r = r1
  · subst h
    rw [if_pos (beq_self_eq_true _)]
    exact hg.symm
  · simp [(by simpa using h : (r == r1) = false), heapGet]

/-- The withdrawal step on a node that keeps at least one other source note:
the node object's `sourceNotes` is re-assigned in place, nothing else
observable changes, and the counter is untouched. -/
theorem survivorStep_spec (c : GraphCache) (X : String) (nr : Nat) (id1 : String)
    (r1 : Nat) (n1 : OntologyNode)
    (hfind : alGet c.nodeById id1 = some r1)
    (hg : heapGet c r1 = some n1)
    (hid : n1.id = id1)
    (hnemp : (n1.sourceNotes.filter (fun p => p != X)).isEmpty = false) :
    (removeNoteNodeStep X (c, nr) id1).2 = nr ∧
    (removeNoteNodeStep X (c, nr) id1).1.nodes = c.nodes ∧
    (removeNoteNodeStep X (c, nr) id1).1.edges = c.edges ∧
    (removeNoteNodeStep X (c, nr) id1).1.edgeById = c.edgeById ∧
    (removeNoteNodeStep X (c, nr) id1).1.nodeById =
      alSet (alDel c.nodeById n1.id) n1.id r1 ∧
    (∀ r, heapGet (removeNoteNodeStep X (c, nr) id1).1 r =
      if r = r1 then some { n1 with sourceNotes := n1.sourceNotes.filter (fun p => p != X) }
      else heapGet c r) := by
  have hstep : removeNoteNodeStep X (c, nr) id1 =
      ((heapSet c r1 { n1 with sourceNotes := n1.sourceNotes.filter (fun p => p != X) }).updateNode r1, nr) := by
    unfold removeNoteNodeStep GraphCache.getNodeByIdRef
    dsimp only []
    rw [hfind]
    dsimp only []
    rw [hg]
    dsimp only []
    rw [hnemp]
    try dsimp only []
    try rfl
    try simp only [Bool.false_eq_true, if_false]
  set n1' : OntologyNode :=
    { n1 with sourceNotes := n1.sourceNotes.filter (fun p => p != X) } with hn1'
  set c1 := heapSet c r1 n1' with hc1
  have hg1 : heapGet c1 r1 = some n1' := by
    rw [hc1, heapGet_heapSet, if_pos rfl]
  have hfind1 : alGet c1.nodeById n1'.id = some r1 := by
    have : c1.nodeById = c.nodeById := rfl
    rw [this, show n1'.id = n1.id from rfl, hid]
    exact hfind
  obtain ⟨uN, uE, uB, uI, uH⟩ := updateNode_known_spec c1 r1 n1' hg1 hfind1
  rw [hstep]
  refine ⟨rfl, ?_, ?_, ?_, ?_, ?_⟩
  · rw [uN]; rfl
  · rw [uE]; rfl
  · rw [uB]; rfl
  · rw [uI]
    rw [show c1.nodeById = c.nodeById from rfl, show n1'.id = n1.id from rfl, hid]
  · intro r
    rw [uH r, hc1, heapGet_heapSet]

/-- The withdrawal step on a node left with no source note: the node leaves
the collection and the id index, its incident edges leave the edge
collection and the edge-id index, and the counter advances. -/
theorem orphanStep_spec (c : GraphCache) (X : String) (nr : Nat) (id1 : String)
    (r1 : Nat) (n1 : OntologyNode)
    (hfind : alGet c.nodeById id1 = some r1)
    (hg : heapGet c r1 = some n1)
    (hid : n1.id = id1)
    (hemp : (n1.sourceNotes.filter (fun p => p != X)).isEmpty = true)
    (hedgecomp : ∀ e ∈ c.edges, alGet c.edgeById e.id = some e)
    (hedgesound : ∀ p ∈ c.edgeById, p.2 ∈ c.edges ∧ p.2.id = p.1)
    (hedgeids : (c.edges.map (fun e => e.id)).Nodup) :
    (removeNoteNodeStep X (c, nr) id1).2 = nr + 1 ∧
    (removeNoteNodeStep X (c, nr) id1).1.nodes = c.nodes.erase r1 ∧
    (removeNoteNodeStep X (c, nr) id1).1.edges =
      c.edges.filter (fun e => !(e.source == id1 || e.target == id1)) ∧
    (removeNoteNodeStep X (c, nr) id1).1.nodeById = alDel c.nodeById n1.id ∧
    (∀ r, heapGet (removeNoteNodeStep X (c, nr) id1).1 r =
      if r = r1 then some { n1 with sourceNotes := n1.sourceNotes.filter (fun p => p != X) }
      else heapGet c r) ∧
    (∀ e ∈ (removeNoteNodeStep X (c, nr) id1).1.edges,
      alGet (removeNoteNodeStep X (c, nr) id1).1.edgeById e.id = some e) ∧
    (∀ p ∈ (removeNoteNodeStep X (c, nr) id1).1.edgeById,
      p.2 ∈ (removeNoteNodeStep X (c, nr) id1).1.edges ∧ p.2.id = p.1) ∧
    (((removeNoteNodeStep X (c, nr) id1).1.edges.map (fun e => e.id)).Nodup) := by
  set n1o : OntologyNode :=
    { n1 with sourceNotes := n1.sourceNotes.filter (fun p => p != X) } with hn1o
  set c1 := heapSet c r1 n1o with hc1def
  have hstep : removeNoteNodeStep X (c, nr) id1 = ((c1.removeNode id1).1, nr + 1) := by
    unfold removeNoteNodeStep GraphCache.getNodeByIdRef
    dsimp only []
    rw [hfind]
    dsimp only []
    rw [hg]
    dsimp only []
    rw [hemp]
    try dsimp only []
    try rfl
    try simp only [if_true]
  have hfind1 : alGet c1.nodeById id1 = some r1 := hfind
  have hrm : (c1.removeNode id1).1 =
      (GraphCache.removeEdgesByNode
        (GraphCache.unindexNode { c1 with nodes := c1.nodes.erase r1 } r1) id1).markDirty := by
    unfold GraphCache.removeNode
    rw [hfind1]
  have hga : heapGet { c1 with nodes := c1.nodes.erase r1 } r1 = some n1o := by
    show alGet c1.heap r1 = some n1o
    rw [hc1def]
    show alGet (alSet c.heap r1 n1o) r1 = some n1o
    exact alGet_alSet_self _ _ _
  set c2 := GraphCache.unindexNode { c1 with nodes := c1.nodes.erase r1 } r1 with hc2def
  have hc2E : c2.edges = c.edges := by
    rw [hc2def]; unfold GraphCache.unindexNode; rw [hga]
    rfl
  have hc2B : c2.edgeById = c.edgeById := by
    rw [hc2def]; unfold GraphCache.unindexNode; rw [hga]
    rfl
  have hc2N : c2.nodes = c.nodes.erase r1 := by
    rw [hc2def]; unfold GraphCache.unindexNode; rw [hga]
    rfl
  have hc2H : c2.heap = alSet c.heap r1 n1o := by
    rw [hc2def]; unfold GraphCache.unindexNode; rw [hga]
    rfl
  have hc2I : c2.nodeById = alDel c.nodeById n1.id := by
    rw [hc2def]; unfold GraphCache.unindexNode; rw [hga]
    rfl
  have hvnd : c.edges.Nodup := List.Nodup.of_map _ hedgeids
  obtain ⟨gE, gN, gH, gI, gcomp, gsound, gids⟩ :=
    removeEdgesFold_spec
      (c2.edges.filter (fun e => e.source == id1 || e.target == id1)) c2
      (by rw [hc2E, hc2B]; exact hedgecomp)
      (by rw [hc2E, hc2B]; exact hedgesound)
      (by rw [hc2E]; exact hedgeids)
      (by rw [hc2E]; exact List.Nodup.filter _ hvnd)
      (fun e he => List.mem_filter.mp he |>.1)
  have hfold : GraphCache.removeEdgesByNode c2 id1 =
      (c2.edges.filter (fun e => e.source == id1 || e.target == id1)).foldl
        (fun acc e => (GraphCache.removeEdge acc e.id).1) c2 := by
    unfold GraphCache.removeEdgesByNode
    rw [List.foldl_map]
  rw [hstep]
  refine ⟨rfl, ?_, ?_, ?_, ?_, ?_, ?_, ?_⟩
  · show (c1.removeNode id1).1.nodes = c.nodes.erase r1
    rw [hrm]
    show (GraphCache.removeEdgesByNode c2 id1).nodes = c.nodes.erase r1
    rw [hfold]
    rw [show ((c2.edges.filter (fun e => e.source == id1 || e.target == id1)).foldl
      (fun acc e => (GraphCache.removeEdge acc e.id).1) c2).nodes
        = c2.nodes from gN, hc2N]
  · show (c1.removeNode id1).1.edges =
      c.edges.filter (fun e => !(e.source == id1 || e.target == id1))
    rw [hrm]
    show (GraphCache.removeEdgesByNode c2 id1).edges = _
    rw [hfold, gE, hc2E]
    refine List.filter_congr ?_
    intro e he
    rw [contains_filter_of_mem _ _ _ he]
  · show (c1.removeNode id1).1.nodeById = alDel c.nodeById n1.id
    rw [hrm]
    show (GraphCache.removeEdgesByNode c2 id1).nodeById = _
    rw [hfold]
    rw [show ((c2.edges.filter (fun e => e.source == id1 || e.target == id1)).foldl
      (fun acc e => (GraphCache.removeEdge acc e.id).1) c2).nodeById
        = c2.nodeById from gI, hc2I]
  · intro r
    show heapGet (c1.removeNode id1).1 r = _
    rw [hrm]
    show alGet (GraphCache.removeEdgesByNode c2 id1).heap r = _
    rw [hfold]
    rw [show ((c2.edges.filter (fun e => e.source == id1 || e.target == id1)).foldl
      (fun acc e => (GraphCache.removeEdge acc e.id).1) c2).heap
        = c2.heap from gH, hc2H]
    rw [alGet_alSet]
    by_cases h : r = r1
    · subst h; rw [if_pos (beq_self_eq_true _), if_pos rfl]
    · rw [if_neg (by simpa using h : ¬((r == r1) = true)), if_neg h]
      rfl
  · intro e he
    rw [hrm] at he ⊢
    rw [show (GraphCache.removeEdgesByNode c2 id1).markDirty.edges
      = (GraphCache.removeEdgesByNode c2 id1).edges from rfl, hfold] at he
    rw [show (GraphCache.removeEdgesByNode c2 id1).markDirty.edgeById
      = (GraphCache.removeEdgesByNode c2 id1).edgeById from rfl, hfold]
    exact gcomp e he
  · intro p hp
    rw [hrm] at hp ⊢
    rw [show (GraphCache.removeEdgesByNode c2 id1).markDirty.edgeById
      = (GraphCache.removeEdgesByNode c2 id1).edgeById from rfl, hfold] at hp
    rw [show (GraphCache.removeEdgesByNode c2 id1).markDirty.edges
      = (GraphCache.removeEdgesByNode c2 id1).edges from rfl, hfold]
    exact gsound p hp
  · rw [hrm]
    rw [show (GraphCache.removeEdgesByNode c2 id1).markDirty.edges
      = (GraphCache.removeEdgesByNode c2 id1).edges from rfl, hfold]
    exact gids

/-- The survivor withdrawal step preserves cache well-formedness. -/
theorem survivorStep_inv (c : GraphCache) (X : String) (nr : Nat) (id1 : String)
    (r1 : Nat) (n1 : OntologyNode)
    (hinv : CacheInv c)
    (hr1 : r1 ∈ c.nodes)
    (hfind : alGet c.nodeById id1 = some r1)
    (hg : heapGet c r1 = some n1)
    (hid : n1.id = id1)
    (hnemp : (n1.sourceNotes.filter (fun p => p != X)).isEmpty = false) :
    CacheInv (removeNoteNodeStep X (c, nr) id1).1 := by
  obtain ⟨_, sN, sE, sB, sI, sH⟩ :=
    survivorStep_spec c X nr id1 r1 n1 hfind hg hid hnemp
  obtain ⟨i1, i2, i3, i4, i5, i6, i7, i8⟩ := hinv
  have hids : (removeNoteNodeStep X (c, nr) id1).1.getAllNodes.map (fun n => n.id)
      = c.getAllNodes.map (fun n => n.id) := by
    unfold GraphCache.getAllNodes
    rw [sN, List.map_filterMap, List.map_filterMap]
    refine List.filterMap_congr ?_
    intro r _
    rw [sH r]
    by_cases h : r = r1
    · subst h
      rw [if_pos rfl, hg]
      rfl
    · rw [if_neg h]
  refine ⟨?_, ?_, ?_, ?_, ?_, ?_, ?_, ?_⟩
  · rw [sN]; exact i1
  · intro r hr
    rw [sN] at hr
    rw [sH r]
    by_cases h : r = r1
    · rw [if_pos h]; rfl
    · rw [if_neg h]; exact i2 r hr
  · rw [hids]; exact i3
  · intro r hr v hv
    rw [sN] at hr
    rw [sH r] at hv
    rw [sI]
    by_cases h : r = r1
    · rw [if_pos h] at hv
      have hveq : v = { n1 with sourceNotes := n1.sourceNotes.filter (fun p => p != X) } :=
        (Option.some_inj.mp hv).symm
      rw [hveq, show ({ n1 with sourceNotes := n1.sourceNotes.filter (fun p => p != X) } :
        OntologyNode).id = n1.id from rfl, alGet_alSet_self, h]
    · rw [if_neg h] at hv
      have hvr := i4 r hr v hv
      have hne : v.id ≠ n1.id := by
        intro hsame
        have h1 := i4 r1 hr1 n1 hg
        rw [hsame, h1] at hvr
        exact h (Option.some_inj.mp hvr.symm)
      rw [alGet_alSet_ne _ _ _ _ hne, alGet_alDel_ne _ _ _ hne]
      exact hvr
  · intro p hp
    rw [sI] at hp
    rcases mem_alSet_or _ _ _ p hp with h | h
    · subst h
      refine ⟨by rw [sN]; exact hr1, ?_⟩
      rw [sH r1, if_pos rfl]
      rfl
    · have hpm := alDel_subset _ _ p h
      have hpk := alDel_key_ne _ _ p h
      obtain ⟨h1, h2⟩ := i5 p hpm
      refine ⟨by rw [sN]; exact h1, ?_⟩
      rw [sH p.2]
      by_cases hc : p.2 = r1
      · rw [hc, hg] at h2
        simp only [Option.map_some'] at h2
        exact absurd (by rw [← Option.some_inj.mp h2]) hpk
      · rw [if_neg hc]
        exact h2
  · intro e he
    rw [sE] at he
    rw [sB]
    exact i6 e he
  · intro p hp
    rw [sB] at hp
    rw [sE]
    exact i7 p hp
  · rw [sE]; exact i8

/-- The orphan withdrawal step preserves cache well-formedness. -/
theorem orphanStep_inv (c : GraphCache) (X : String) (nr : Nat) (id1 : String)
    (r1 : Nat) (n1 : OntologyNode)
    (hinv : CacheInv c)
    (hr1 : r1 ∈ c.nodes)
    (hfind : alGet c.nodeById id1 = some r1)
    (hg : heapGet c r1 = some n1)
    (hid : n1.id = id1)
    (hemp : (n1.sourceNotes.filter (fun p => p != X)).isEmpty = true) :
    CacheInv (removeNoteNodeStep X (c, nr) id1).1 := by
  obtain ⟨i1, i2, i3, i4, i5, i6, i7, i8⟩ := hinv
  obtain ⟨_, oN, oE, oI, oH, ocomp, osound, oids⟩ :=
    orphanStep_spec c X nr id1 r1 n1 hfind hg hid hemp i6 i7 i8
  refine ⟨?_, ?_, ?_, ?_, ?_, ocomp, osound, oids⟩
  · rw [oN]; exact List.Nodup.erase _ i1
  · intro r hr
    rw [oN] at hr
    rw [oH r]
    by_cases h : r = r1
    · rw [if_pos h]; rfl
    · rw [if_neg h]; exact i2 r (List.mem_of_mem_erase hr)
  · have hsub : (removeNoteNodeStep X (c, nr) id1).1.getAllNodes.map (fun n => n.id)
        = ((c.nodes.erase r1).filterMap (heapGet c)).map (fun n => n.id) := by
      unfold GraphCache.getAllNodes
      rw [oN]
      congr 1
      refine List.filterMap_congr ?_
      intro r hr
      rw [oH r, if_neg ((List.Nodup.mem_erase_iff i1).mp hr).1]
    rw [hsub]
    exact List.Nodup.sublist
      (List.Sublist.map _ (List.Sublist.filterMap _ (List.erase_sublist _ _))) i3
  · intro r hr v hv
    rw [oN] at hr
    have hr' : r ≠ r1 := ((List.Nodup.mem_erase_iff i1).mp hr).1
    have hrm : r ∈ c.nodes := ((List.Nodup.mem_erase_iff i1).mp hr).2
    rw [oH r, if_neg hr'] at hv
    have hvr := i4 r hrm v hv
    have hne : v.id ≠ n1.id := by
      intro hsame
      have h1 := i4 r1 hr1 n1 hg
      rw [hsame, h1] at hvr
      exact hr' (Option.some_inj.mp hvr.symm)
    rw [oI, alGet_alDel_ne _ _ _ hne]
    exact hvr
  · intro p hp
    rw [oI] at hp
    have hpm := alDel_subset _ _ p hp
    have hpk := alDel_key_ne _ _ p hp
    obtain ⟨h1, h2⟩ := i5 p hpm
    have hp2 : p.2 ≠ r1 := by
      intro hc
      rw [hc, hg] at h2
      simp only [Option.map_some'] at h2
      exact hpk (by rw [← Option.some_inj.mp h2])
    refine ⟨?_, ?_⟩
    · rw [oN]
      exact (List.Nodup.mem_erase_iff i1).mpr ⟨hp2, h1⟩
    · rw [oH p.2, if_neg hp2]
      exact h2

/-- Withdrawing a note from a note-filtered source-note list never leaves
the note behind. -/
theorem withdraw_not_contains (l : List String) (X : String) :
    (l.filter (fun p => p != X)).contains X = false := by
  cases hc : (l.filter (fun p => p != X)).contains X
  · rfl
  · have hm : X ∈ l.filter (fun p => p != X) := List.elem_iff.mp hc
    rw [List.mem_filter] at hm
    have := hm.2
    rw [bne_self_eq_false] at this
    exact absurd this Bool.false_ne_true

/-- The survivor collection distributes over appending. -/
theorem survivorsAfter_append (X : String) (l1 l2 : List OntologyNode) :
    survivorsAfter X (l1 ++ l2) = survivorsAfter X l1 ++ survivorsAfter X l2 := by
  unfold survivorsAfter
  exact List.filterMap_append _ _ _

/-- An orphaned head node is dropped from the survivor collection. -/
theorem survivorsAfter_cons_orphan (X : String) (n : OntologyNode) (ns : List OntologyNode)
    (hc : n.sourceNotes.contains X = true) (ho : isOrphaned X n = true) :
    survivorsAfter X (n :: ns) = survivorsAfter X ns := by
  unfold survivorsAfter
  rw [List.filterMap_cons]
  simp only [hc, ho, if_true]

/-- A surviving head node keeps its place with the note withdrawn. -/
theorem survivorsAfter_cons_survivor (X : String) (n : OntologyNode) (ns : List OntologyNode)
    (hc : n.sourceNotes.contains X = true) (ho : isOrphaned X n = false) :
    survivorsAfter X (n :: ns) =
      { n with sourceNotes := withdrawNotes X n.sourceNotes } :: survivorsAfter X ns := by
  unfold survivorsAfter
  rw [List.filterMap_cons]
  simp only [hc, ho, if_true, Bool.false_eq_true, if_false]

/-- A head node not sourced from the withdrawn note is untouched. -/
theorem survivorsAfter_cons_untouched (X : String) (n : OntologyNode) (ns : List OntologyNode)
    (hc : n.sourceNotes.contains X = false) :
    survivorsAfter X (n :: ns) = n :: survivorsAfter X ns := by
  unfold survivorsAfter
  rw [List.filterMap_cons]
  simp only [hc, Bool.false_eq_true, if_false]

/-- A collection of nodes not sourced from the withdrawn note is untouched. -/
theorem survivorsAfter_untouched (X : String) (ns : List OntologyNode)
    (h : ∀ n ∈ ns, n.sourceNotes.contains X = false) :
    survivorsAfter X ns = ns := by
  induction ns with
  | nil => rfl
  | cons n t ih =>
    rw [survivorsAfter_cons_untouched X n t (h n (List.mem_cons_self _ _))]
    rw [ih (fun n hn => h n (List.mem_cons_of_mem _ hn))]

/-- The orphan filter distributes over appending. -/
theorem orphanCount_append (X : String) (l1 l2 : List OntologyNode) :
    orphanCount X (l1 ++ l2) = orphanCount X l1 + orphanCount X l2 := by
  unfold orphanCount
  rw [List.filter_append, List.length_append]

/-- Counting past an orphaned head node. -/
theorem orphanCount_cons_orphan (X : String) (n : OntologyNode) (ns : List OntologyNode)
    (hc : n.sourceNotes.contains X = true) (ho : isOrphaned X n = true) :
    orphanCount X (n :: ns) = orphanCount X ns + 1 := by
  unfold orphanCount
  rw [List.filter_cons_of_pos (by rw [hc, ho]; rfl), List.length_cons]

/-- Counting past a non-orphaned head node. -/
theorem orphanCount_cons_other (X : String) (n : OntologyNode) (ns : List OntologyNode)
    (h : (n.sourceNotes.contains X && isOrphaned X n) = false) :
    orphanCount X (n :: ns) = orphanCount X ns := by
  unfold orphanCount
  rw [List.filter_cons_of_neg (by rw [h]; exact Bool.false_ne_true)]

/-- A collection of nodes not sourced from the withdrawn note has no orphan. -/
theorem orphanCount_untouched (X : String) (ns : List OntologyNode)
    (h : ∀ n ∈ ns, n.sourceNotes.contains X = false) :
    orphanCount X ns = 0 := by
  induction ns with
  | nil => rfl
  | cons n t ih =>
    rw [orphanCount_cons_other X n t (by rw [h n (List.mem_cons_self _ _)]; rfl)]
    exact ih (fun n hn => h n (List.mem_cons_of_mem _ hn))

/-- The orphan id list distributes over appending. -/
theorem orphanIds_append (X : String) (l1 l2 : List OntologyNode) :
    orphanIds X (l1 ++ l2) = orphanIds X l1 ++ orphanIds X l2 := by
  unfold orphanIds
  rw [List.filter_append, List.map_append]

/-- The orphan id list past an orphaned head node. -/
theorem orphanIds_cons_orphan (X : String) (n : OntologyNode) (ns : List OntologyNode)
    (hc : n.sourceNotes.contains X = true) (ho : isOrphaned X n = true) :
    orphanIds X (n :: ns) = n.id :: orphanIds X ns := by
  unfold orphanIds
  rw [List.filter_cons_of_pos (by rw [hc, ho]; rfl), List.map_cons]

/-- The orphan id list past a non-orphaned head node. -/
theorem orphanIds_cons_other (X : String) (n : OntologyNode) (ns : List OntologyNode)
    (h : (n.sourceNotes.contains X && isOrphaned X n) = false) :
    orphanIds X (n :: ns) = orphanIds X ns := by
  unfold orphanIds
  rw [List.filter_cons_of_neg (by rw [h]; exact Bool.false_ne_true)]

/-- A collection of nodes not sourced from the withdrawn note contributes no
orphan id. -/
theorem orphanIds_untouched (X : String) (ns : List OntologyNode)
    (h : ∀ n ∈ ns, n.sourceNotes.contains X = false) :
    orphanIds X ns = [] := by
  induction ns with
  | nil => rfl
  | cons n t ih =>
    rw [orphanIds_cons_other X n t (by rw [h n (List.mem_cons_self _ _)]; rfl)]
    exact ih (fun n hn => h n (List.mem_cons_of_mem _ hn))

/-- The node loop of `removeNoteFromCache` on a well-formed cache: the
resulting node collection is the spec's survivor collection, the counter
counts exactly the orphaned nodes, and the edge collection loses exactly
the edges incident to an orphaned node. -/
theorem removeNoteFold_spec (X : String) :
    ∀ (todo : List String) (c : GraphCache) (nr : Nat),
    CacheInv c →
    todo = ((c.getAllNodes.filter (fun n => n.sourceNotes.contains X)).map (fun n => n.id)) →
    (todo.foldl (removeNoteNodeStep X) (c, nr)).1.getAllNodes
      = survivorsAfter X c.getAllNodes ∧
    (todo.foldl (removeNoteNodeStep X) (c, nr)).2 = nr + orphanCount X c.getAllNodes ∧
    (todo.foldl (removeNoteNodeStep X) (c, nr)).1.edges
      = c.edges.filter (fun e =>
          !((orphanIds X c.getAllNodes).contains e.source ||
            (orphanIds X c.getAllNodes).contains e.target)) := by
  intro todo
  induction todo with
  | nil =>
    intro c nr hinv htodo
    have hfil : c.getAllNodes.filter (fun n => n.sourceNotes.contains X) = [] :=
      List.map_eq_nil.mp htodo.symm
    have hnone : ∀ n ∈ c.getAllNodes, n.sourceNotes.contains X = false := by
      intro n hn
      by_cases h : n.sourceNotes.contains X = true
      · exact absurd (List.mem_filter.mpr ⟨hn, h⟩)
          (by rw [hfil]; exact List.not_mem_nil n)
      · exact Bool.of_not_eq_true h
    refine ⟨?_, ?_, ?_⟩
    · show c.getAllNodes = survivorsAfter X c.getAllNodes
      exact (survivorsAfter_untouched X _ hnone).symm
    · show nr = nr + orphanCount X c.getAllNodes
      rw [orphanCount_untouched X _ hnone]
      rfl
    · show c.edges = _
      rw [orphanIds_untouched X _ hnone]
      rw [List.filter_congr (fun e _ => by simp : ∀ e ∈ c.edges,
        (!((List.contains ([] : List String) e.source) ||
           (List.contains ([] : List String) e.target))) = true)]
      exact (List.filter_true _).symm
  | cons id1 rest ih =>
    intro c nr hinv htodo
    obtain ⟨pre, n1, post, hsplit, hpre, hn1, hfid, hrest⟩ :=
      filter_map_eq_cons_split _ _ c.getAllNodes id1 rest htodo.symm
    obtain ⟨R1, r1, R2, hnsplit, hR1, hg, hR2⟩ :=
      filterMap_eq_append_cons_split (heapGet c) c.nodes pre n1 post
        (by rw [show c.nodes.filterMap (heapGet c) = c.getAllNodes from rfl, hsplit])
    have hinv0 := hinv
    obtain ⟨i1, i2, i3, i4, i5, i6, i7, i8⟩ := hinv0
    have hr1 : r1 ∈ c.nodes := by
      rw [hnsplit]
      exact List.mem_append_right _ (List.mem_cons_self _ _)
    have hfind : alGet c.nodeById id1 = some r1 := by
      rw [← hfid]
      exact i4 r1 hr1 n1 hg
    have hr1R1 : r1 ∉ R1 := by
      intro hmem
      have hnd := i1
      rw [hnsplit, List.nodup_append] at hnd
      exact hnd.2.2 hmem (List.mem_cons_self _ _)
    have hr1R2 : r1 ∉ R2 := by
      have hnd := i1
      rw [hnsplit, List.nodup_append, List.nodup_cons] at hnd
      exact hnd.2.1.1
    have hprefalse : pre.filter (fun n => n.sourceNotes.contains X) = [] :=
      List.filter_eq_nil.mpr
        (fun n hn => by rw [hpre n hn]; exact Bool.false_ne_true)
    rw [List.foldl_cons]
    by_cases horph : (n1.sourceNotes.filter (fun p => p != X)).isEmpty = true
    · -- the node is orphaned: it is deleted with its incident edges
      have horphB : isOrphaned X n1 = true := by
        unfold isOrphaned withdrawNotes; exact horph
      obtain ⟨o2, oN, oE, oI, oH, _, _, _⟩ :=
        orphanStep_spec c X nr id1 r1 n1 hfind hg hfid horph i6 i7 i8
      have hinv' := orphanStep_inv c X nr id1 r1 n1 hinv hr1 hfind hg hfid horph
      have hpair : removeNoteNodeStep X (c, nr) id1 =
          ((removeNoteNodeStep X (c, nr) id1).1, nr + 1) := by
        exact Prod.ext rfl o2
      have hall' : (removeNoteNodeStep X (c, nr) id1).1.getAllNodes = pre ++ post := by
        unfold GraphCache.getAllNodes
        rw [oN, hnsplit, List.erase_append_right _ hr1R1, List.erase_cons_head]
        rw [List.filterMap_append]
        rw [List.filterMap_congr (fun r hr => by
            rw [oH r, if_neg (fun hc => hr1R1 (by rw [← hc]; exact hr))] :
          ∀ r ∈ R1, heapGet (removeNoteNodeStep X (c, nr) id1).1 r = heapGet c r)]
        rw [List.filterMap_congr (fun r hr => by
            rw [oH r, if_neg (fun hc => hr1R2 (by rw [← hc]; exact hr))] :
          ∀ r ∈ R2, heapGet (removeNoteNodeStep X (c, nr) id1).1 r = heapGet c r)]
        rw [hR1, hR2]
      have htodo' : rest =
          (((removeNoteNodeStep X (c, nr) id1).1.getAllNodes.filter
            (fun n => n.sourceNotes.contains X)).map (fun n => n.id)) := by
        rw [hall', List.filter_append, hprefalse, List.nil_append, hrest]
      obtain ⟨ihA, ihC, ihE⟩ :=
        ih (removeNoteNodeStep X (c, nr) id1).1 (nr + 1) hinv' htodo'
      rw [hpair]
      refine ⟨?_, ?_, ?_⟩
      · rw [ihA, hall', hsplit, survivorsAfter_append, survivorsAfter_append,
          survivorsAfter_cons_orphan X n1 post hn1 horphB]
      · rw [ihC, hall', hsplit, orphanCount_append, orphanCount_append,
          orphanCount_cons_orphan X n1 post hn1 horphB]
        omega
      · rw [ihE, oE, hall', hsplit, List.filter_filter]
        rw [orphanIds_append, orphanIds_append,
          orphanIds_cons_orphan X n1 post hn1 horphB,
          orphanIds_untouched X pre hpre, hfid]
        refine List.filter_congr ?_
        intro e _
        simp only [List.nil_append, List.contains_cons, Bool.not_or]
        cases h1 : e.source == id1 <;> cases h2 : e.target == id1 <;>
          cases h3 : (orphanIds X post).contains e.source <;>
          cases h4 : (orphanIds X post).contains e.target <;> rfl
    · -- the node survives with the note withdrawn
      have hnemp : (n1.sourceNotes.filter (fun p => p != X)).isEmpty = false :=
        Bool.of_not_eq_true horph
      have horphB : isOrphaned X n1 = false := by
        unfold isOrphaned withdrawNotes; exact hnemp
      obtain ⟨s2, sN, sE, sB, sI, sH⟩ :=
        survivorStep_spec c X nr id1 r1 n1 hfind hg hfid hnemp
      have hinv' := survivorStep_inv c X nr id1 r1 n1 hinv hr1 hfind hg hfid hnemp
      have hpair : removeNoteNodeStep X (c, nr) id1 =
          ((removeNoteNodeStep X (c, nr) id1).1, nr) := by
        exact Prod.ext rfl s2
      have hall' : (removeNoteNodeStep X (c, nr) id1).1.getAllNodes =
          pre ++ { n1 with sourceNotes := n1.sourceNotes.filter (fun p => p != X) } :: post := by
        unfold GraphCache.getAllNodes
        rw [sN, hnsplit, List.filterMap_append, List.filterMap_cons]
        rw [List.filterMap_congr (fun r hr => by
            rw [sH r, if_neg (fun hc => hr1R1 (by rw [← hc]; exact hr))] :
          ∀ r ∈ R1, heapGet (removeNoteNodeStep X (c, nr) id1).1 r = heapGet c r)]
        rw [List.filterMap_congr (fun r hr => by
            rw [sH r, if_neg (fun hc => hr1R2 (by rw [← hc]; exact hr))] :
          ∀ r ∈ R2, heapGet (removeNoteNodeStep X (c, nr) id1).1 r = heapGet c r)]
        rw [hR1, hR2, sH r1, if_pos rfl]
      have hcontains' : ({ n1 with
          sourceNotes := n1.sourceNotes.filter (fun p => p != X) } :
            OntologyNode).sourceNotes.contains X = false :=
        withdraw_not_contains _ _
      have htodo' : rest =
          (((removeNoteNodeStep X (c, nr) id1).1.getAllNodes.filter
            (fun n => n.sourceNotes.contains X)).map (fun n => n.id)) := by
        rw [hall', List.filter_append, hprefalse, List.nil_append,
          List.filter_cons_of_neg (by rw [hcontains']; exact Bool.false_ne_true), hrest]
      obtain ⟨ihA, ihC, ihE⟩ :=
        ih (removeNoteNodeStep X (c, nr) id1).1 nr hinv' htodo'
      have hq1 : (n1.sourceNotes.contains X && isOrphaned X n1) = false := by
        rw [hn1, horphB]
        rfl
      have hq1' : (({ n1 with
          sourceNotes := n1.sourceNotes.filter (fun p => p != X) } :
            OntologyNode).sourceNotes.contains X &&
          isOrphaned X { n1 with
            sourceNotes := n1.sourceNotes.filter (fun p => p != X) }) = false := by
        rw [hcontains']
        rfl
      rw [hpair]
      refine ⟨?_, ?_, ?_⟩
      · rw [ihA, hall', hsplit, survivorsAfter_append, survivorsAfter_append,
          survivorsAfter_cons_survivor X n1 post hn1 horphB,
          survivorsAfter_cons_untouched X _ post hcontains']
        unfold withdrawNotes
        rfl
      · rw [ihC, hall', hsplit, orphanCount_append, orphanCount_append,
          orphanCount_cons_other X n1 post hq1,
          orphanCount_cons_other X _ post hq1']
      · rw [ihE, sE, hall', hsplit]
        rw [orphanIds_append, orphanIds_append,
          orphanIds_cons_other X n1 post hq1,
          orphanIds_cons_other X _ post hq1']

/-- C5 (amended): orphan garbage collection on withdrawal.  On a
well-formed store, withdrawing document `X` leaves exactly the spec's
survivor collection (nodes sourced only from `X` are deleted, others keep
their place with `X` filtered out of their source notes), the returned node
count is exactly the number of orphaned nodes, and the edge collection
loses exactly the edges recorded by `X` plus the edges incident to an
orphaned node.  The returned edge count, however, counts only the edges
recorded by `X` — the edges cascade-removed with an orphaned node are
removed but not counted (see the counterexample). -/
theorem C5_orphan_gc (c : GraphCache) (X : String) (hinv : CacheInv c) :
    (removeNoteFromCache c X).2.2
      = (c.edges.filter (fun e => e.sourceNote == some X)).length ∧
    (removeNoteFromCache c X).1.getAllNodes = survivorsAfter X c.getAllNodes ∧
    (removeNoteFromCache c X).2.1 = orphanCount X c.getAllNodes ∧
    (removeNoteFromCache c X).1.edges
      = (c.edges.filter (fun e => !(e.sourceNote == some X))).filter
          (fun e => !((orphanIds X c.getAllNodes).contains e.source ||
                      (orphanIds X c.getAllNodes).contains e.target)) := by
  have hinv0 := hinv
  obtain ⟨i1, i2, i3, i4, i5, i6, i7, i8⟩ := hinv0
  have hfNodup : (c.edges.filter (fun e => e.sourceNote == some X)).Nodup :=
    List.Nodup.filter _ (List.Nodup.of_map _ i8)
  obtain ⟨gE, gN, gH, gI, gcomp, gsound, gids⟩ :=
    removeEdgesFold_spec (c.edges.filter (fun e => e.sourceNote == some X)) c i6 i7 i8
      hfNodup (fun e he => (List.mem_filter.mp he).1)
  set c1 := (c.edges.filter (fun e => e.sourceNote == some X)).foldl
      (fun acc e => (GraphCache.removeEdge acc e.id).1) c with hc1
  have hC1E : c1.edges = c.edges.filter (fun e => !(e.sourceNote == some X)) := by
    rw [gE]
    refine List.filter_congr ?_
    intro e he
    rw [contains_filter_of_mem _ _ _ he]
  have hHg : ∀ r, heapGet c1 r = heapGet c r := by
    intro r
    unfold heapGet
    rw [gH]
  have hAll : c1.getAllNodes = c.getAllNodes := by
    unfold GraphCache.getAllNodes
    rw [gN]
    exact List.filterMap_congr (fun r _ => hHg r)
  have hinv1 : CacheInv c1 := by
    refine ⟨by rw [gN]; exact i1, ?_, by rw [hAll]; exact i3, ?_, ?_,
      gcomp, gsound, gids⟩
    · intro r hr
      rw [hHg r]
      exact i2 r (by rwa [gN] at hr)
    · intro r hr v hv
      rw [gI]
      exact i4 r (by rwa [gN] at hr) v (by rwa [hHg r] at hv)
    · intro p hp
      rw [gI] at hp
      obtain ⟨h1, h2⟩ := i5 p hp
      exact ⟨by rw [gN]; exact h1, by rw [hHg p.2]; exact h2⟩
  obtain ⟨mA, mC, mE⟩ := removeNoteFold_spec X
    ((c1.getAllNodes.filter (fun n => n.sourceNotes.contains X)).map (fun n => n.id))
    c1 0 hinv1 rfl
  have hrw : removeNoteFromCache c X =
      ((((c1.getAllNodes.filter (fun n => n.sourceNotes.contains X)).map
          (fun n => n.id)).foldl (removeNoteNodeStep X) (c1, 0)).1,
       (((c1.getAllNodes.filter (fun n => n.sourceNotes.contains X)).map
          (fun n => n.id)).foldl (removeNoteNodeStep X) (c1, 0)).2,
       (c.edges.filter (fun e => e.sourceNote == some X)).length) := by
    unfold removeNoteFromCache GraphCache.getAllEdges
    dsimp only []
    rw [List.foldl_map (fun e : OntologyEdge => e.id)
      (fun acc id => (GraphCache.removeEdge acc id).1)
      (c.edges.filter (fun e => e.sourceNote == some X)) c]
    rw [List.length_map]
  rw [hrw]
  refine ⟨rfl, ?_, ?_, ?_⟩
  · show ((((c1.getAllNodes.filter (fun n => n.sourceNotes.contains X)).map
        (fun n => n.id)).foldl (removeNoteNodeStep X) (c1, 0)).1).getAllNodes = _
    rw [mA, hAll]
  · show (((c1.getAllNodes.filter (fun n => n.sourceNotes.contains X)).map
        (fun n => n.id)).foldl (removeNoteNodeStep X) (c1, 0)).2 = _
    rw [mC, hAll]
    exact Nat.zero_add _
  · show ((((c1.getAllNodes.filter (fun n => n.sourceNotes.contains X)).map
        (fun n => n.id)).foldl (removeNoteNodeStep X) (c1, 0)).1).edges = _
    rw [mE, hC1E, hAll]

/-- Witness for C5 at a concrete input: a store with an orphan-to-be, a
surviving co-sourced node and a bystander. -/
theorem C5_orphan_gc_witness :
    (removeNoteFromCache c5wCache "X.md").2.2
      = (c5wCache.edges.filter (fun e => e.sourceNote == some "X.md")).length ∧
    (removeNoteFromCache c5wCache "X.md").1.getAllNodes
      = survivorsAfter "X.md" c5wCache.getAllNodes ∧
    (removeNoteFromCache c5wCache "X.md").2.1
      = orphanCount "X.md" c5wCache.getAllNodes ∧
    (removeNoteFromCache c5wCache "X.md").1.edges
      = (c5wCache.edges.filter (fun e => !(e.sourceNote == some "X.md"))).filter
          (fun e => !((orphanIds "X.md" c5wCache.getAllNodes).contains e.source ||
                      (orphanIds "X.md" c5wCache.getAllNodes).contains e.target)) :=
  C5_orphan_gc c5wCache "X.md" (by unfold CacheInv; decide)

/-- Counterexample to the literal C5: withdrawing `X.md` from a store whose
only edge was recorded by `Y.md` but hangs off an orphaned node reports
`edgesRemoved = 0` although one edge was actually removed with the orphan. -/
theorem C5_orphan_gc_counterexample :
    (removeNoteFromCache c5cCache "X.md").2.2 = 0 ∧
    c5cCache.edges.length = 1 ∧
    (removeNoteFromCache c5cCache "X.md").1.edges.length = 0 := by
  decide

/-- C1: the index-consistency mandate fails after a withdrawal that shrinks
a surviving node's source notes.  After withdrawing `X.md`, the surviving
node's `sourceNotes` is exactly `[Y.md]`, yet the by-source-note index
still returns that node under `X.md`: the withdrawal step re-assigns the
node object's `sourceNotes` before `updateNode` un-indexes it, so the
un-indexing pass iterates over the already-shrunk list and never cleans
the `X.md` bucket. -/
theorem C1_index_consistency_bug :
    ((removeNoteFromCache c1cCache "X.md").1.getAllNodes.map
      (fun n => n.sourceNotes)) = [["Y.md"]] ∧
    ((removeNoteFromCache c1cCache "X.md").1.getNodesBySourceNote "X.md").map
      (fun n => n.sourceNotes.contains "X.md") = [false] := by
  decide

/-- C7: loading a legacy blob discards the graph (empty collections, dirty
flag set), but the hash history is cleared only on a local object that is
never saved: the next flush re-reads the persisted blob and overwrites only
its `graph` member, so the old hash history survives and an unchanged
document is *not* treated as needing re-extraction. -/
theorem C7_legacy_load_keeps_hashes :
    (ensureLoaded c7disk).1.nodes = [] ∧
    (ensureLoaded c7disk).1.edges = [] ∧
    (ensureLoaded c7disk).1.dirty = true ∧
    loadHashes (flush (ensureLoaded c7disk).1 c7disk).2 = ⟨[⟨"n.md", "h1", 5⟩]⟩ ∧
    hasNoteChanged (loadHashes (flush (ensureLoaded c7disk).1 c7disk).2) "n.md" "h1"
      = false := by
  decide

/-- Counterexample to the literal C3: re-merging the identical batch for
the same document a second time reports `relationshipsAdded = 1` and grows
the edge collection — the generated id of the first raw node collides,
through the `:` separator, with the id of a differently-named node, so the
id fallback re-targets between the runs and the second run derives a new
(self-loop) edge. -/
theorem C3_idempotent_remerge_counterexample :
    (mergeExtractionIntoCache c3cAfter1 "n2.md" c3cBatch2 2).relationshipsAdded = 1 ∧
    (mergeExtractionIntoCache c3cAfter1 "n2.md" c3cBatch2 2).cache.edges.length
      = c3cAfter1.edges.length + 1 := by
  decide

/-- A key found on the left of an append is found in the append. -/
theorem lookup_append_left {β : Type} (l1 l2 : List (String × β)) (k : String) :
    (l1.lookup k).isSome = true → (l1 ++ l2).lookup k = l1.lookup k := by
  induction l1 with
  | nil => intro h; simp [List.lookup] at h
  | cons q t ih =>
    intro h
    simp only [List.lookup, List.cons_append] at h ⊢
    cases hq : (k == q.1)
    · rw [hq] at h
      simp only [hq]
      exact ih (by simpa using h)
    · simp [hq]

/-- The appended binding is found when scanning past the original list. -/
theorem lookup_append_single_isSome {β : Type} (l : List (String × β)) (k : String) (v : β) :
    ((l ++ [(k, v)]).lookup k).isSome = true := by
  induction l with
  | nil => simp [List.lookup]
  | cons q t ih =>
    by_cases hq : (k == q.1) = true
    · simp [List.lookup, hq]
    · simp only [List.cons_append, List.lookup, hq]
      exact ih

/-- The property merge never loses a present key. -/
theorem mergeProps_lookup_mono (raw : List (String × String)) :
    ∀ (ps : List (String × String)) (k : String),
    (ps.lookup k).isSome = true → ((mergeProps ps raw).lookup k).isSome = true := by
  induction raw with
  | nil => intro ps k h; exact h
  | cons kv t ih =>
    intro ps k h
    unfold mergeProps
    rw [List.foldl_cons]
    show ((mergeProps (if kv.1 == "name" then ps
      else if (ps.lookup kv.1).isSome then ps else ps ++ [kv]) t).lookup k).isSome = true
    by_cases h1 : (kv.1 == "name") = true
    · rw [if_pos h1]; exact ih ps k h
    · rw [if_neg h1]
      by_cases h2 : (ps.lookup kv.1).isSome = true
      · rw [if_pos h2]; exact ih ps k h
      · rw [if_neg h2]
        refine ih (ps ++ [kv]) k ?_
        rw [lookup_append_left _ _ _ h]
        exact h

/-- After the property merge every non-`name` raw key is present. -/
theorem mergeProps_raw_keys (raw : List (String × String)) :
    ∀ (ps : List (String × String)) (kv : String × String), kv ∈ raw → kv.1 ≠ "name" →
    ((mergeProps ps raw).lookup kv.1).isSome = true := by
  induction raw with
  | nil => intro ps kv h; exact absurd h (List.not_mem_nil kv)
  | cons kv0 t ih =>
    intro ps kv hmem hname
    unfold mergeProps
    rw [List.foldl_cons]
    show ((mergeProps (if kv0.1 == "name" then ps
      else if (ps.lookup kv0.1).isSome then ps else ps ++ [kv0]) t).lookup kv.1).isSome = true
    rcases List.mem_cons.mp hmem with h | h
    · subst h
      rw [if_neg (by simpa using hname)]
      by_cases h2 : (ps.lookup kv.1).isSome = true
      · rw [if_pos h2]
        exact mergeProps_lookup_mono t ps kv.1 h2
      · rw [if_neg h2]
        refine mergeProps_lookup_mono t (ps ++ [kv]) kv.1 ?_
        exact lookup_append_single_isSome ps kv.1 kv.2
    · by_cases h1 : (kv0.1 == "name") = true
      · rw [if_pos h1]; exact ih ps kv h hname
      · rw [if_neg h1]
        by_cases h2 : (ps.lookup kv0.1).isSome = true
        · rw [if_pos h2]; exact ih ps kv h hname
        · rw [if_neg h2]; exact ih (ps ++ [kv0]) kv h hname

/-- The property merge is the identity when every raw key is `name` or
already present. -/
theorem mergeProps_noop (raw : List (String × String)) :
    ∀ (ps : List (String × String)),
    (∀ kv ∈ raw, kv.1 = "name" ∨ (ps.lookup kv.1).isSome = true) →
    mergeProps ps raw = ps := by
  induction raw with
  | nil => intro ps _; rfl
  | cons kv t ih =>
    intro ps h
    unfold mergeProps
    rw [List.foldl_cons]
    show mergeProps (if kv.1 == "name" then ps
      else if (ps.lookup kv.1).isSome then ps else ps ++ [kv]) t = ps
    rcases h kv (List.mem_cons_self _ _) with h1 | h1
    · rw [if_pos (by simpa using h1)]
      exact ih ps (fun kv' h' => h kv' (List.mem_cons_of_mem _ h'))
    · by_cases h0 : (kv.1 == "name") = true
      · rw [if_pos h0]
        exact ih ps (fun kv' h' => h kv' (List.mem_cons_of_mem _ h'))
      · rw [if_neg h0, if_pos h1]
        exact ih ps (fun kv' h' => h kv' (List.mem_cons_of_mem _ h'))

/-- Membership in a source-note list survives appending. -/
theorem contains_append_mono (l : List String) (x q : String)
    (h : l.contains q = true) : (l ++ [x]).contains q = true :=
  List.elem_iff.mpr (List.mem_append_left _ (List.elem_iff.mp h))

/-- The appended note is recorded. -/
theorem contains_append_self (l : List String) (x : String) :
    (l ++ [x]).contains x = true :=
  List.elem_iff.mpr (List.mem_append_right _ (List.mem_singleton.mpr rfl))

/-- The update value of the merge node loop keeps the node's id. -/
theorem updNode_id (v : OntologyNode) (p : String) (t : Nat) (rn : RawExtractionNode) :
    (updNode v p t rn).id = v.id := by
  unfold updNode
  dsimp only []
  by_cases h : v.sourceNotes.contains p = true
  · rw [if_pos h]
  · rw [if_neg h]

/-- The update value of the merge node loop keeps the node's name. -/
theorem updNode_name (v : OntologyNode) (p : String) (t : Nat) (rn : RawExtractionNode) :
    propName (updNode v p t rn).properties = propName v.properties := by
  unfold updNode
  dsimp only []
  by_cases h : v.sourceNotes.contains p = true
  · rw [if_pos h, propName_mergeProps]
  · rw [if_neg h, propName_mergeProps]

/-- After the update step the processed note is recorded. -/
theorem updNode_contains (v : OntologyNode) (p : String) (t : Nat) (rn : RawExtractionNode) :
    (updNode v p t rn).sourceNotes.contains p = true := by
  unfold updNode
  dsimp only []
  by_cases h : v.sourceNotes.contains p = true
  · rw [if_pos h]
    exact h
  · rw [if_neg h]
    exact contains_append_self _ _

/-- The update step never drops a recorded note. -/
theorem updNode_contains_mono (v : OntologyNode) (p : String) (t : Nat)
    (rn : RawExtractionNode) (q : String) (h : v.sourceNotes.contains q = true) :
    (updNode v p t rn).sourceNotes.contains q = true := by
  unfold updNode
  dsimp only []
  by_cases hc : v.sourceNotes.contains p = true
  · rw [if_pos hc]
    exact h
  · rw [if_neg hc]
    exact contains_append_mono _ _ _ h

/-- The update step never drops a present property key. -/
theorem updNode_props_mono (v : OntologyNode) (p : String) (t : Nat)
    (rn : RawExtractionNode) (k : String)
    (h : (v.properties.lookup k).isSome = true) :
    ((updNode v p t rn).properties.lookup k).isSome = true := by
  unfold updNode
  dsimp only []
  by_cases hc : v.sourceNotes.contains p = true
  · rw [if_pos hc]
    exact mergeProps_lookup_mono _ _ _ h
  · rw [if_neg hc]
    exact mergeProps_lookup_mono _ _ _ h

/-- After the update step every non-`name` raw key is present. -/
theorem updNode_raw_keys (v : OntologyNode) (p : String) (t : Nat)
    (rn : RawExtractionNode) (kv : String × String) (hm : kv ∈ rn.properties)
    (hname : kv.1 ≠ "name") :
    ((updNode v p t rn).properties.lookup kv.1).isSome = true := by
  unfold updNode
  dsimp only []
  by_cases hc : v.sourceNotes.contains p = true
  · rw [if_pos hc]
    exact mergeProps_raw_keys _ _ kv hm hname
  · rw [if_neg hc]
    exact mergeProps_raw_keys _ _ kv hm hname

/-- A node object evolves by an update step of the same merge run. -/
theorem nodeEvol_updNode (p : String) (v : OntologyNode) (t : Nat)
    (rn : RawExtractionNode) : nodeEvol p v (updNode v p t rn) :=
  ⟨updNode_id v p t rn, updNode_name v p t rn,
   fun h => updNode_contains_mono v p t rn p h,
   fun k h => updNode_props_mono v p t rn k h⟩

/-- Node evolution is reflexive. -/
theorem nodeEvol_refl (p : String) (v : OntologyNode) : nodeEvol p v v :=
  ⟨rfl, rfl, fun h => h, fun _ h => h⟩

/-- Node evolution is transitive. -/
theorem nodeEvol_trans (p : String) (u v w : OntologyNode)
    (h1 : nodeEvol p u v) (h2 : nodeEvol p v w) : nodeEvol p u w :=
  ⟨h2.1.trans h1.1, h2.2.1.trans h1.2.1,
   fun h => h2.2.2.1 (h1.2.2.1 h),
   fun k h => h2.2.2.2 k (h1.2.2.2 k h)⟩

/-- The second update of a node already carrying the note and every raw key
only re-stamps `updatedAt`. -/
theorem updNode_noop (v : OntologyNode) (p : String) (t : Nat) (rn : RawExtractionNode)
    (hc : v.sourceNotes.contains p = true)
    (hk : ∀ kv ∈ rn.properties, kv.1 = "name" ∨ (v.properties.lookup kv.1).isSome = true) :
    updNode v p t rn = { v with updatedAt := t } := by
  unfold updNode
  dsimp only []
  rw [if_pos hc, mergeProps_noop rn.properties v.properties hk]

/-- Observable effect of the name-hit (update) branch of the merge node
loop: the found object is rewritten in place, every lookup is unchanged,
the raw id is mapped to the found node's id and the counter stands. -/
theorem processUpdate_spec (c : GraphCache) (m : List (String × String)) (k : Nat)
    (rn : RawExtractionNode) (p : String) (t : Nat) (r : Nat) (v : OntologyNode)
    (hname : alGet c.nodeByName (lowerStr (normalizeName (propName rn.properties))) = some r)
    (hheap : heapGet c r = some v)
    (hid : alGet c.nodeById v.id = some r)
    (hnameC : alGet c.nodeByName (lowName v) = some r) :
    (processRawNode p t (c, m, k) rn).2.1 = alSet m rn.id v.id ∧
    (processRawNode p t (c, m, k) rn).2.2 = k ∧
    (processRawNode p t (c, m, k) rn).1.nodes = c.nodes ∧
    (processRawNode p t (c, m, k) rn).1.edges = c.edges ∧
    (processRawNode p t (c, m, k) rn).1.edgeById = c.edgeById ∧
    (processRawNode p t (c, m, k) rn).1.nextRef = c.nextRef ∧
    (∀ r', heapGet (processRawNode p t (c, m, k) rn).1 r' =
      if r' = r then some (updNode v p t rn) else heapGet c r') ∧
    (∀ q, alGet (processRawNode p t (c, m, k) rn).1.nodeById q = alGet c.nodeById q) ∧
    (∀ q, alGet (processRawNode p t (c, m, k) rn).1.nodeByName q = alGet c.nodeByName q) := by
  rw [processRawNode_name_hit c m k rn p t r v hname hheap]
  set w := updNode v p t rn with hw
  have hheap1 : heapGet (heapSet c r w) r = some w := by
    unfold heapGet heapSet
    exact alGet_alSet_self _ _ _
  have hid1 : alGet (heapSet c r w).nodeById w.id = some r := by
    show alGet c.nodeById w.id = some r
    rw [hw, updNode_id]
    exact hid
  obtain ⟨uN, uE, uH, uX, uB, uI, uY⟩ := updateNode_hit (heapSet c r w) r w hheap1 hid1
  refine ⟨rfl, rfl, uN, uE, uB, uX, ?_, ?_, ?_⟩
  · intro r'
    show alGet ((heapSet c r w).updateNode r).heap r' = _
    rw [uH]
    show alGet (alSet (alSet c.heap r w) r w) r' = _
    rw [alGet_alSet, alGet_alSet]
    by_cases h : r' = r
    · rw [if_pos (by simpa using h), if_pos h]
    · have hb : (r' == r) = false := by simpa using h
      rw [hb, if_neg h]
      simp only [Bool.false_eq_true, if_false]
      rfl
  · intro q
    rw [uI]
    show alGet (alSet (alDel c.nodeById w.id) w.id r) q = _
    exact alGet_alSet_alDel_restore _ _ _ _ hid1
  · intro q
    rw [uY]
    show alGet (alSet (alDel c.nodeByName (lowerStr (propName w.properties)))
      (lowerStr (propName w.properties)) r) q = _
    have hkey : lowerStr (propName w.properties) = lowName v := by
      rw [hw, updNode_name]
      rfl
    rw [hkey]
    exact alGet_alSet_alDel_restore _ _ _ _ hnameC

/-- Observable effect of `addNode` on a fresh id: a new reference is
allocated and appended, and each lookup gains exactly the new binding. -/
theorem addNode_fresh_spec (c : GraphCache) (w : OntologyNode)
    (hmiss : alGet c.nodeById w.id = none) :
    (c.addNode w).nodes = c.nodes ++ [c.nextRef] ∧
    (c.addNode w).nextRef = c.nextRef + 1 ∧
    (c.addNode w).edges = c.edges ∧
    (c.addNode w).edgeById = c.edgeById ∧
    (c.addNode w).nodeById = alSet c.nodeById w.id c.nextRef ∧
    (c.addNode w).nodeByName = alSet c.nodeByName (lowName w) c.nextRef ∧
    (∀ r', heapGet (c.addNode w) r' =
      if r' = c.nextRef then some w else heapGet c r') ∧
    (∀ q, alGet (c.addNode w).nodeById q =
      if q = w.id then some c.nextRef else alGet c.nodeById q) ∧
    (∀ q, alGet (c.addNode w).nodeByName q =
      if q = lowName w then some c.nextRef else alGet c.nodeByName q) := by
  unfold GraphCache.addNode
  rw [hmiss]
  dsimp only []
  unfold GraphCache.addNodeRef GraphCache.indexNode GraphCache.markDirty heapGet
  dsimp only []
  rw [show alGet (alSet c.heap c.nextRef w) c.nextRef = some w from alGet_alSet_self _ _ _]
  dsimp only []
  refine ⟨rfl, rfl, rfl, rfl, rfl, rfl, ?_, ?_, ?_⟩
  · intro r'
    show alGet (alSet c.heap c.nextRef w) r' = _
    rw [alGet_alSet]
    by_cases h : r' = c.nextRef
    · rw [if_pos (by simpa using h), if_pos h]
    · rw [if_neg (by simpa using h : ¬((r' == c.nextRef) = true)), if_neg h]
  · intro q
    show alGet (alSet c.nodeById w.id c.nextRef) q = _
    rw [alGet_alSet]
    by_cases h : q = w.id
    · rw [if_pos (by simpa using h), if_pos h]
    · rw [if_neg (by simpa using h : ¬((q == w.id) = true)), if_neg h]
  · intro q
    show alGet (alSet c.nodeByName (lowerStr (propName w.properties)) c.nextRef) q = _
    rw [alGet_alSet]
    by_cases h : q = lowName w
    · rw [if_pos (by simpa using h : (q == lowerStr (propName w.properties)) = true), if_pos h]
    · rw [if_neg (by simpa using h : ¬((q == lowerStr (propName w.properties)) = true)),
        if_neg h]

/-- The double-miss (create) branch of the merge node loop reduces to
`addNode` of the freshly built node. -/
theorem processCreate_spec (c : GraphCache) (m : List (String × String)) (k : Nat)
    (rn : RawExtractionNode) (p : String) (t : Nat)
    (hname : alGet c.nodeByName (lowerStr (normalizeName (propName rn.properties))) = none)
    (hid : alGet c.nodeById (generateNodeId rn.label (normalizeName (propName rn.properties)))
      = none) :
    processRawNode p t (c, m, k) rn =
      (c.addNode ⟨generateNodeId rn.label (normalizeName (propName rn.properties)), rn.label,
        newNodeProps (normalizeName (propName rn.properties)) rn.properties, [p], t, t⟩,
       alSet m rn.id (generateNodeId rn.label (normalizeName (propName rn.properties))),
       k + 1) := by
  unfold processRawNode GraphCache.getNodeByNameRef GraphCache.getNodeByIdRef
  dsimp only []
  rw [hname]
  dsimp only []
  rw [hid]
  try dsimp only []
  try rfl

/-- The freshly built node's case-insensitive name is the lookup key. -/
theorem newNode_lowName (rn : RawExtractionNode) (p : String) (t : Nat) :
    lowName (⟨generateNodeId rn.label (normalizeName (propName rn.properties)), rn.label,
      newNodeProps (normalizeName (propName rn.properties)) rn.properties, [p], t, t⟩ :
        OntologyNode) = rawLowName rn := by
  unfold lowName rawLowName propName newNodeProps
  simp [List.lookup]

/-- A dereferenced listed node object is in the node collection. -/
theorem mem_getAllNodes (c : GraphCache) (r : Nat) (v : OntologyNode)
    (hr : r ∈ c.nodes) (hg : heapGet c r = some v) : v ∈ c.getAllNodes :=
  List.mem_filterMap.mpr ⟨r, hr, hg⟩

/-- Under collision freedom, a name miss forces an id miss: the id fallback
of the merge node loop can never retarget a raw node. -/
theorem noFallback (c0 : GraphCache) (b : OntologyExtractionResult) (c : GraphCache)
    (rn : RawExtractionNode)
    (hwf : MergeWf c) (hprov : ProvFrom c0 b c) (hcol : MergeCollisionFree c0 b)
    (hrn : rn ∈ b.nodes)
    (hmiss : alGet c.nodeByName (lowerStr (normalizeName (propName rn.properties))) = none) :
    alGet c.nodeById (generateNodeId rn.label (normalizeName (propName rn.properties)))
      = none := by
  obtain ⟨w1, w2, w3, w4, w5, w6, w7⟩ := hwf
  cases hres : alGet c.nodeById (generateNodeId rn.label (normalizeName (propName rn.properties))) with
  | none => rfl
  | some r =>
    exfalso
    have hqm := alGet_mem_pair _ _ _ hres
    obtain ⟨hr, hmapid⟩ := w4 _ hqm
    cases hg : heapGet c r with
    | none => rw [hg] at hmapid; exact absurd hmapid (by simp)
    | some v =>
      rw [hg] at hmapid
      simp only [Option.map_some', Option.some_inj] at hmapid
      have hvmem : v ∈ c.getAllNodes := mem_getAllNodes c r v hr hg
      have hlow : lowName v = rawLowName rn := by
        rcases hprov v hvmem with ⟨n0, hn0, hid0, hlow0⟩ | ⟨rm, hrm, hidm, hlowm⟩
        · rw [hlow0]
          refine (hcol rn hrn).1 n0 hn0 ?_
          rw [← hid0]
          exact hmapid
        · rw [hlowm]
          refine (hcol rn hrn).2 rm hrm ?_
          rw [← hidm]
          exact hmapid
      have hcomp := w5 r hr v hg
      rw [hlow, show rawLowName rn = lowerStr (normalizeName (propName rn.properties)) from rfl,
        hmiss] at hcomp
      exact absurd hcomp (by simp)

/-- The update branch of the merge node loop preserves well-formedness and
provenance. -/
theorem processUpdate_wfprov (c0 : GraphCache) (b : OntologyExtractionResult)
    (c : GraphCache) (m : List (String × String)) (k : Nat)
    (rn : RawExtractionNode) (p : String) (t : Nat) (r : Nat) (v : OntologyNode)
    (hwf : MergeWf c) (hprov : ProvFrom c0 b c)
    (hr1 : r ∈ c.nodes)
    (hname : alGet c.nodeByName (lowerStr (normalizeName (propName rn.properties))) = some r)
    (hheap : heapGet c r = some v)
    (hid : alGet c.nodeById v.id = some r)
    (hnameC : alGet c.nodeByName (lowName v) = some r) :
    MergeWf (processRawNode p t (c, m, k) rn).1 ∧
    ProvFrom c0 b (processRawNode p t (c, m, k) rn).1 := by
  obtain ⟨w1, w2, w3, w4, w5, w6, w7⟩ := hwf
  obtain ⟨sM, sK, sN, sE, sB, sX, sH, sI, sY⟩ :=
    processUpdate_spec c m k rn p t r v hname hheap hid hnameC
  have hfldI : (processRawNode p t (c, m, k) rn).1.nodeById =
      alSet (alDel c.nodeById v.id) v.id r := by
    rw [processRawNode_name_hit c m k rn p t r v hname hheap]
    have hheap1 : heapGet (heapSet c r (updNode v p t rn)) r = some (updNode v p t rn) := by
      unfold heapGet heapSet
      exact alGet_alSet_self _ _ _
    have hid1 : alGet (heapSet c r (updNode v p t rn)).nodeById (updNode v p t rn).id
        = some r := by
      show alGet c.nodeById (updNode v p t rn).id = some r
      rw [updNode_id]
      exact hid
    rw [(updateNode_hit _ r _ hheap1 hid1).2.2.2.2.2.1]
    show alSet (alDel c.nodeById (updNode v p t rn).id) (updNode v p t rn).id r = _
    rw [updNode_id]
  have hfldY : (processRawNode p t (c, m, k) rn).1.nodeByName =
      alSet (alDel c.nodeByName (lowName v)) (lowName v) r := by
    rw [processRawNode_name_hit c m k rn p t r v hname hheap]
    have hheap1 : heapGet (heapSet c r (updNode v p t rn)) r = some (updNode v p t rn) := by
      unfold heapGet heapSet
      exact alGet_alSet_self _ _ _
    have hid1 : alGet (heapSet c r (updNode v p t rn)).nodeById (updNode v p t rn).id
        = some r := by
      show alGet c.nodeById (updNode v p t rn).id = some r
      rw [updNode_id]
      exact hid
    rw [(updateNode_hit _ r _ hheap1 hid1).2.2.2.2.2.2]
    show alSet (alDel c.nodeByName (lowerStr (propName (updNode v p t rn).properties)))
      (lowerStr (propName (updNode v p t rn).properties)) r = _
    rw [updNode_name]
    rfl
  constructor
  · refine ⟨by rw [sN]; exact w1, ?_, ?_, ?_, ?_, ?_, ?_⟩
    · intro r' hr'
      rw [sN] at hr'
      rw [sH r']
      by_cases h : r' = r
      · rw [if_pos h]; rfl
      · rw [if_neg h]; exact w2 r' hr'
    · intro r' hr' v' hv'
      rw [sN] at hr'
      rw [sH r'] at hv'
      rw [sI]
      by_cases h : r' = r
      · rw [if_pos h] at hv'
        have : v' = updNode v p t rn := (Option.some_inj.mp hv').symm
        rw [this, updNode_id, hid, h]
      · rw [if_neg h] at hv'
        exact w3 r' hr' v' hv'
    · intro q hq
      rw [hfldI] at hq
      rcases mem_alSet_or _ _ _ q hq with h | h
      · subst h
        refine ⟨by rw [sN]; exact hr1, ?_⟩
        rw [sH r, if_pos rfl]
        simp only [Option.map_some', updNode_id]
      · have hqm := alDel_subset _ _ q h
        have hqk := alDel_key_ne _ _ q h
        obtain ⟨h1, h2⟩ := w4 q hqm
        refine ⟨by rw [sN]; exact h1, ?_⟩
        rw [sH q.2]
        by_cases hc : q.2 = r
        · rw [hc, hheap] at h2
          simp only [Option.map_some'] at h2
          exact absurd (by rw [← Option.some_inj.mp h2]) hqk
        · rw [if_neg hc]
          exact h2
    · intro r' hr' v' hv'
      rw [sN] at hr'
      rw [sH r'] at hv'
      rw [sY]
      by_cases h : r' = r
      · rw [if_pos h] at hv'
        have : v' = updNode v p t rn := (Option.some_inj.mp hv').symm
        rw [this, show lowName (updNode v p t rn) = lowName v from by
          unfold lowName; rw [updNode_name], hnameC, h]
      · rw [if_neg h] at hv'
        exact w5 r' hr' v' hv'
    · intro q hq
      rw [hfldY] at hq
      rcases mem_alSet_or _ _ _ q hq with h | h
      · subst h
        refine ⟨by rw [sN]; exact hr1, ?_⟩
        rw [sH r, if_pos rfl]
        simp only [Option.map_some']
        show some (lowName (updNode v p t rn)) = some (lowName v)
        rw [show lowName (updNode v p t rn) = lowName v from by
          unfold lowName; rw [updNode_name]]
      · have hqm := alDel_subset _ _ q h
        have hqk := alDel_key_ne _ _ q h
        obtain ⟨h1, h2⟩ := w6 q hqm
        refine ⟨by rw [sN]; exact h1, ?_⟩
        rw [sH q.2]
        by_cases hc : q.2 = r
        · rw [hc, hheap] at h2
          simp only [Option.map_some'] at h2
          exact absurd (by rw [← Option.some_inj.mp h2]) hqk
        · rw [if_neg hc]
          exact h2
    · intro r' hr'
      rw [sN] at hr'
      rw [sX]
      exact w7 r' hr'
  · intro n hn
    have hn' := hn
    unfold GraphCache.getAllNodes at hn'
    rw [sN] at hn'
    obtain ⟨r', hr', hg'⟩ := List.mem_filterMap.mp hn'
    rw [sH r'] at hg'
    by_cases h : r' = r
    · rw [if_pos h] at hg'
      have hveq : n = updNode v p t rn := (Option.some_inj.mp hg').symm
      have hvmem : v ∈ c.getAllNodes := mem_getAllNodes c r v hr1 hheap
      rcases hprov v hvmem with ⟨n0, hn0, hid0, hlow0⟩ | ⟨rm, hrm, hidm, hlowm⟩
      · exact Or.inl ⟨n0, hn0, by rw [hveq, updNode_id]; exact hid0,
          by rw [hveq, show lowName (updNode v p t rn) = lowName v from by
            unfold lowName; rw [updNode_name]]; exact hlow0⟩
      · exact Or.inr ⟨rm, hrm, by rw [hveq, updNode_id]; exact hidm,
          by rw [hveq, show lowName (updNode v p t rn) = lowName v from by
            unfold lowName; rw [updNode_name]]; exact hlowm⟩
    · rw [if_neg h] at hg'
      exact hprov n (mem_getAllNodes c r' n hr' hg')

/-- The create branch of the merge node loop preserves well-formedness and
provenance. -/
theorem processCreate_wfprov (c0 : GraphCache) (b : OntologyExtractionResult)
    (c : GraphCache) (m : List (String × String)) (k : Nat)
    (rn : RawExtractionNode) (p : String) (t : Nat)
    (hwf : MergeWf c) (hprov : ProvFrom c0 b c) (hrn : rn ∈ b.nodes)
    (hname : alGet c.nodeByName (lowerStr (normalizeName (propName rn.properties))) = none)
    (hid : alGet c.nodeById (generateNodeId rn.label (normalizeName (propName rn.properties)))
      = none) :
    MergeWf (processRawNode p t (c, m, k) rn).1 ∧
    ProvFrom c0 b (processRawNode p t (c, m, k) rn).1 := by
  obtain ⟨w1, w2, w3, w4, w5, w6, w7⟩ := hwf
  rw [processCreate_spec c m k rn p t hname hid]
  set w : OntologyNode :=
    ⟨generateNodeId rn.label (normalizeName (propName rn.properties)), rn.label,
      newNodeProps (normalizeName (propName rn.properties)) rn.properties, [p], t, t⟩ with hwdef
  obtain ⟨aN, aX, aE, aB, aIf, aYf, aH, aI, aY⟩ := addNode_fresh_spec c w hid
  have hRfresh : c.nextRef ∉ c.nodes := fun h => absurd (w7 _ h) (lt_irrefl _)
  have hwid : w.id = generateNodeId rn.label (normalizeName (propName rn.properties)) := rfl
  have hwlow : lowName w = rawLowName rn := newNode_lowName rn p t
  constructor
  · refine ⟨?_, ?_, ?_, ?_, ?_, ?_, ?_⟩
    · rw [aN]
      rw [List.nodup_append]
      exact ⟨w1, List.nodup_singleton _,
        fun a ha hb => absurd ((List.mem_singleton.mp hb) ▸ ha) hRfresh⟩
    · intro r' hr'
      rw [aN] at hr'
      rw [aH r']
      rcases List.mem_append.mp hr' with h | h
      · rw [if_neg (fun hc => hRfresh (by rw [← hc]; exact h))]
        exact w2 r' h
      · rw [if_pos (List.mem_singleton.mp h)]
        rfl
    · intro r' hr' v' hv'
      rw [aN] at hr'
      rw [aH r'] at hv'
      rw [aI]
      rcases List.mem_append.mp hr' with h | h
      · rw [if_neg (fun hc => hRfresh (by rw [← hc]; exact h))] at hv'
        have hvne : v'.id ≠ w.id := by
          intro hsame
          have := w3 r' h v' hv'
          rw [hsame, hwid, hid] at this
          exact absurd this (by simp)
        rw [if_neg hvne]
        exact w3 r' h v' hv'
      · have hR := List.mem_singleton.mp h
        rw [if_pos hR] at hv'
        have : v' = w := (Option.some_inj.mp hv').symm
        rw [this, if_pos rfl, hR]
    · intro q hq
      rw [aIf] at hq
      rcases mem_alSet_or _ _ _ q hq with h | h
      · subst h
        refine ⟨by rw [aN]; exact List.mem_append_right _ (List.mem_singleton.mpr rfl), ?_⟩
        rw [aH c.nextRef, if_pos rfl]
        rfl
      · obtain ⟨h1, h2⟩ := w4 q h
        refine ⟨by rw [aN]; exact List.mem_append_left _ h1, ?_⟩
        rw [aH q.2, if_neg (fun hc => hRfresh (by rw [← hc]; exact h1))]
        exact h2
    · intro r' hr' v' hv'
      rw [aN] at hr'
      rw [aH r'] at hv'
      rw [aY]
      rcases List.mem_append.mp hr' with h | h
      · rw [if_neg (fun hc => hRfresh (by rw [← hc]; exact h))] at hv'
        have hvne : lowName v' ≠ lowName w := by
          intro hsame
          have := w5 r' h v' hv'
          rw [hsame, hwlow,
            show rawLowName rn = lowerStr (normalizeName (propName rn.properties)) from rfl,
            hname] at this
          exact absurd this (by simp)
        rw [if_neg hvne]
        exact w5 r' h v' hv'
      · have hR := List.mem_singleton.mp h
        rw [if_pos hR] at hv'
        have : v' = w := (Option.some_inj.mp hv').symm
        rw [this, if_pos rfl, hR]
    · intro q hq
      rw [aYf] at hq
      rcases mem_alSet_or _ _ _ q hq with h | h
      · subst h
        refine ⟨by rw [aN]; exact List.mem_append_right _ (List.mem_singleton.mpr rfl), ?_⟩
        rw [aH c.nextRef, if_pos rfl]
        rfl
      · obtain ⟨h1, h2⟩ := w6 q h
        refine ⟨by rw [aN]; exact List.mem_append_left _ h1, ?_⟩
        rw [aH q.2, if_neg (fun hc => hRfresh (by rw [← hc]; exact h1))]
        exact h2
    · intro r' hr'
      rw [aN] at hr'
      rw [aX]
      rcases List.mem_append.mp hr' with h | h
      · exact Nat.lt_succ_of_lt (w7 r' h)
      · rw [List.mem_singleton.mp h]
        exact Nat.lt_succ_self _
  · intro n hn
    unfold GraphCache.getAllNodes at hn
    rw [aN] at hn
    obtain ⟨r', hr', hg'⟩ := List.mem_filterMap.mp hn
    rw [aH r'] at hg'
    rcases List.mem_append.mp hr' with h | h
    · rw [if_neg (fun hc => hRfresh (by rw [← hc]; exact h))] at hg'
      exact hprov n (mem_getAllNodes c r' n h hg')
    · rw [if_pos (List.mem_singleton.mp h)] at hg'
      have : n = w := (Option.some_inj.mp hg').symm
      exact Or.inr ⟨rn, hrn, by rw [this]; exact hwid, by rw [this]; exact hwlow⟩

/-- The merge node loop preserves well-formedness and provenance, never
touches the edge side, and every existing name binding survives with its
node evolving (same id and name, notes and property keys only growing). -/
theorem mergeNodeFold_stable (c0 : GraphCache) (b : OntologyExtractionResult) (p : String)
    (t : Nat) (hcol : MergeCollisionFree c0 b) :
    ∀ (ns : List RawExtractionNode), (∀ rn ∈ ns, rn ∈ b.nodes) →
    ∀ (c : GraphCache) (m : List (String × String)) (k : Nat),
    MergeWf c → ProvFrom c0 b c →
    MergeWf (ns.foldl (processRawNode p t) (c, m, k)).1 ∧
    ProvFrom c0 b (ns.foldl (processRawNode p t) (c, m, k)).1 ∧
    (ns.foldl (processRawNode p t) (c, m, k)).1.edges = c.edges ∧
    (ns.foldl (processRawNode p t) (c, m, k)).1.edgeById = c.edgeById ∧
    (∀ key r v, alGet c.nodeByName key = some r → heapGet c r = some v →
      ∃ r' v', alGet (ns.foldl (processRawNode p t) (c, m, k)).1.nodeByName key = some r' ∧
        heapGet (ns.foldl (processRawNode p t) (c, m, k)).1 r' = some v' ∧
        nodeEvol p v v') := by
  intro ns
  induction ns with
  | nil =>
    intro _ c m k hwf hprov
    exact ⟨hwf, hprov, rfl, rfl,
      fun key r v h1 h2 => ⟨r, v, h1, h2, nodeEvol_refl p v⟩⟩
  | cons rn rest ih =>
    intro hsub c m k hwf hprov
    have hrnb : rn ∈ b.nodes := hsub rn (List.mem_cons_self _ _)
    have hsub' : ∀ x ∈ rest, x ∈ b.nodes := fun x hx => hsub x (List.mem_cons_of_mem _ hx)
    rw [List.foldl_cons]
    cases hn : alGet c.nodeByName (lowerStr (normalizeName (propName rn.properties))) with
    | some r =>
      obtain ⟨hrmem, hmap⟩ := hwf.2.2.2.2.2.1 _ (alGet_mem_pair _ _ _ hn)
      cases hg : heapGet c r with
      | none => rw [hg] at hmap; exact absurd hmap (by simp)
      | some v =>
        have hid : alGet c.nodeById v.id = some r := hwf.2.2.1 r hrmem v hg
        have hnameC : alGet c.nodeByName (lowName v) = some r := hwf.2.2.2.2.1 r hrmem v hg
        obtain ⟨wf', prov'⟩ := processUpdate_wfprov c0 b c m k rn p t r v hwf hprov
          hrmem hn hg hid hnameC
        obtain ⟨sM, sK, sN, sE, sB, sX, sH, sI, sY⟩ :=
          processUpdate_spec c m k rn p t r v hn hg hid hnameC
        obtain ⟨ihW, ihP, ihE, ihB, ihS⟩ := ih hsub'
          (processRawNode p t (c, m, k) rn).1
          (processRawNode p t (c, m, k) rn).2.1
          (processRawNode p t (c, m, k) rn).2.2 wf' prov'
        refine ⟨ihW, ihP, ihE.trans sE, ihB.trans sB, ?_⟩
        intro key0 r0 v0 h1 h2
        by_cases hr0 : r0 = r
        · have hv0 : v0 = v := by
            rw [hr0] at h2
            exact Option.some_inj.mp (h2.symm.trans hg)
          obtain ⟨r', v', e1, e2, e3⟩ := ihS key0 r0 (updNode v p t rn)
            (by rw [sY key0]; exact h1)
            (by rw [sH r0, if_pos hr0])
          exact ⟨r', v', e1, e2,
            nodeEvol_trans p v0 (updNode v p t rn) v'
              (hv0 ▸ nodeEvol_updNode p v t rn) e3⟩
        · obtain ⟨r', v', e1, e2, e3⟩ := ihS key0 r0 v0
            (by rw [sY key0]; exact h1)
            (by rw [sH r0, if_neg hr0]; exact h2)
          exact ⟨r', v', e1, e2, e3⟩
    | none =>
      have hidm := noFallback c0 b c rn hwf hprov hcol hrnb hn
      obtain ⟨wf', prov'⟩ := processCreate_wfprov c0 b c m k rn p t hwf hprov hrnb hn hidm
      have hstep := processCreate_spec c m k rn p t hn hidm
      obtain ⟨aN, aX, aE, aB, aIf, aYf, aH, aI, aY⟩ := addNode_fresh_spec c
        ⟨generateNodeId rn.label (normalizeName (propName rn.properties)), rn.label,
          newNodeProps (normalizeName (propName rn.properties)) rn.properties, [p], t, t⟩ hidm
      obtain ⟨ihW, ihP, ihE, ihB, ihS⟩ := ih hsub'
        (processRawNode p t (c, m, k) rn).1
        (processRawNode p t (c, m, k) rn).2.1
        (processRawNode p t (c, m, k) rn).2.2 wf' prov'
      have hE1 : (processRawNode p t (c, m, k) rn).1.edges = c.edges := by
        rw [hstep]; exact aE
      have hB1 : (processRawNode p t (c, m, k) rn).1.edgeById = c.edgeById := by
        rw [hstep]; exact aB
      refine ⟨ihW, ihP, ihE.trans hE1, ihB.trans hB1, ?_⟩
      intro key0 r0 v0 h1 h2
      have hr0mem : r0 ∈ c.nodes := (hwf.2.2.2.2.2.1 _ (alGet_mem_pair _ _ _ h1)).1
      have hr0ne : r0 ≠ c.nextRef := fun hc =>
        absurd (hwf.2.2.2.2.2.2 r0 hr0mem) (by rw [hc]; exact lt_irrefl _)
      have hkey0 : key0 ≠ lowName
          (⟨generateNodeId rn.label (normalizeName (propName rn.properties)), rn.label,
            newNodeProps (normalizeName (propName rn.properties)) rn.properties,
            [p], t, t⟩ : OntologyNode) := by
        intro hc
        rw [newNode_lowName] at hc
        rw [hc] at h1
        rw [show rawLowName rn = lowerStr (normalizeName (propName rn.properties)) from rfl,
          hn] at h1
        exact absurd h1 (by simp)
      obtain ⟨r', v', e1, e2, e3⟩ := ihS key0 r0 v0
        (by rw [hstep]; rw [aY key0, if_neg hkey0]; exact h1)
        (by rw [hstep]; rw [aH r0, if_neg hr0ne]; exact h2)
      exact ⟨r', v', e1, e2, e3⟩

/-- A list containing an entry for a key resolves that key. -/
theorem lookup_isSome_of_mem {β : Type} (l : List (String × β)) (kv : String × β)
    (h : kv ∈ l) : (l.lookup kv.1).isSome = true := by
  induction l with
  | nil => exact absurd h (List.not_mem_nil kv)
  | cons q t ih =>
    rcases List.mem_cons.mp h with h1 | h1
    · subst h1
      simp [List.lookup]
    · by_cases hq : (kv.1 == q.1) = true
      · simp [List.lookup, hq]
      · simp only [List.lookup, hq]
        exact ih h1

/-- The properties of a freshly created node resolve every non-`name` raw
key. -/
theorem newNodeProps_raw_keys (nn : String) (raw : List (String × String))
    (kv : String × String) (hm : kv ∈ raw) (hname : kv.1 ≠ "name") :
    ((newNodeProps nn raw).lookup kv.1).isSome = true := by
  unfold newNodeProps
  simp only [List.lookup, show (kv.1 == "name") = false by simpa using hname]
  exact lookup_isSome_of_mem _ kv
    (List.mem_filter.mpr ⟨hm, by simpa using hname⟩)

/-- Two nodes equal up to `updatedAt` agree on every other field. -/
theorem stripUpd_parts (a b : OntologyNode) (h : stripUpd a = stripUpd b) :
    a.id = b.id ∧ a.label = b.label ∧ a.properties = b.properties ∧
    a.sourceNotes = b.sourceNotes ∧ a.createdAt = b.createdAt := by
  unfold stripUpd at h
  injection h with h1 h2 h3 h4 h5 h6
  exact ⟨h1, h2, h3, h4, h5⟩

/-- Clearing `updatedAt` twice or after re-stamping is the same. -/
theorem stripUpd_set (v : OntologyNode) (t : Nat) :
    stripUpd { v with updatedAt := t } = stripUpd v := rfl

/-- Analyze a heap read equal, up to `updatedAt`, to a known object. -/
theorem heapGet_strip_some (c : GraphCache) (r : Nat) (v : OntologyNode)
    (h : (heapGet c r).map stripUpd = some (stripUpd v)) :
    ∃ v', heapGet c r = some v' ∧ stripUpd v' = stripUpd v := by
  cases hg : heapGet c r with
  | none => rw [hg] at h; exact absurd h (by simp)
  | some x =>
    rw [hg] at h
    simp only [Option.map_some', Option.some_inj] at h
    exact ⟨x, rfl, h⟩

/-- A re-merge step on a cache aligned (up to `updatedAt`) with the end of
the first run: the name lookup hits the node the first run settled, the
step only re-stamps `updatedAt`, records the same id mapping, and adds
nothing. -/
theorem remergeStep (F c2p : GraphCache) (rn : RawExtractionNode) (p : String) (t2 : Nat)
    (m : List (String × String))
    (hFwf : MergeWf F)
    (hH : ∀ r, (heapGet c2p r).map stripUpd = (heapGet F r).map stripUpd)
    (hI : ∀ q, alGet c2p.nodeById q = alGet F.nodeById q)
    (hY : ∀ q, alGet c2p.nodeByName q = alGet F.nodeByName q)
    (r2 : Nat) (v2 : OntologyNode)
    (hbind : alGet F.nodeByName (lowerStr (normalizeName (propName rn.properties))) = some r2)
    (hg2 : heapGet F r2 = some v2)
    (hcont : v2.sourceNotes.contains p = true)
    (hkeys : ∀ kv ∈ rn.properties, kv.1 = "name" ∨ (v2.properties.lookup kv.1).isSome = true) :
    (processRawNode p t2 (c2p, m, 0) rn).2.1 = alSet m rn.id v2.id ∧
    (processRawNode p t2 (c2p, m, 0) rn).2.2 = 0 ∧
    (processRawNode p t2 (c2p, m, 0) rn).1.nodes = c2p.nodes ∧
    (processRawNode p t2 (c2p, m, 0) rn).1.edges = c2p.edges ∧
    (processRawNode p t2 (c2p, m, 0) rn).1.edgeById = c2p.edgeById ∧
    (∀ r, (heapGet (processRawNode p t2 (c2p, m, 0) rn).1 r).map stripUpd
       = (heapGet c2p r).map stripUpd) ∧
    (∀ q, alGet (processRawNode p t2 (c2p, m, 0) rn).1.nodeById q = alGet c2p.nodeById q) ∧
    (∀ q, alGet (processRawNode p t2 (c2p, m, 0) rn).1.nodeByName q = alGet c2p.nodeByName q) := by
  obtain ⟨hr2mem, hmaplow⟩ := hFwf.2.2.2.2.2.1 _ (alGet_mem_pair _ _ _ hbind)
  rw [hg2] at hmaplow
  simp only [Option.map_some', Option.some_inj] at hmaplow
  obtain ⟨v2', hg2', hstrip⟩ := heapGet_strip_some c2p r2 v2 (by rw [hH r2, hg2]; rfl)
  obtain ⟨pid, plab, pprops, pnotes, pcreat⟩ := stripUpd_parts v2' v2 hstrip
  have hlow' : lowName v2' = lowName v2 := by
    unfold lowName
    rw [pprops]
  have hn2 : alGet c2p.nodeByName (lowerStr (normalizeName (propName rn.properties)))
      = some r2 := (hY _).trans hbind
  have hid2 : alGet c2p.nodeById v2'.id = some r2 := by
    rw [hI, pid]
    exact hFwf.2.2.1 r2 hr2mem v2 hg2
  have hnameC2 : alGet c2p.nodeByName (lowName v2') = some r2 := by
    rw [hlow', hmaplow]
    exact hn2
  obtain ⟨sM, sK, sN, sE, sB, sX, sH, sI, sY⟩ :=
    processUpdate_spec c2p m 0 rn p t2 r2 v2' hn2 hg2' hid2 hnameC2
  have hnoop : updNode v2' p t2 rn = { v2' with updatedAt := t2 } := by
    refine updNode_noop v2' p t2 rn ?_ ?_
    · rw [pnotes]
      exact hcont
    · intro kv hkv
      rcases hkeys kv hkv with h | h
      · exact Or.inl h
      · refine Or.inr ?_
        rw [pprops]
        exact h
  refine ⟨by rw [sM, pid], sK, sN, sE, sB, ?_, sI, sY⟩
  intro r
  rw [sH r]
  by_cases h : r = r2
  · rw [if_pos h, hnoop]
    subst h
    rw [hg2']
    simp only [Option.map_some', Option.some_inj]
    exact stripUpd_set v2' t2
  · rw [if_neg h]

/-- Re-running the merge node loop from a cache aligned (up to `updatedAt`)
with the end of the first run is observationally a no-op: it rebuilds the
same id map, counts zero new nodes, and only re-stamps `updatedAt`. -/
theorem remergeNodeFold (c0 : GraphCache) (b : OntologyExtractionResult) (p : String)
    (t1 t2 : Nat) (hcol : MergeCollisionFree c0 b) :
    ∀ (ns : List RawExtractionNode), (∀ rn ∈ ns, rn ∈ b.nodes) →
    ∀ (c1p : GraphCache) (m : List (String × String)) (k1 : Nat) (c2p : GraphCache),
    MergeWf c1p → ProvFrom c0 b c1p →
    (∀ r, (heapGet c2p r).map stripUpd
       = (heapGet (ns.foldl (processRawNode p t1) (c1p, m, k1)).1 r).map stripUpd) →
    (∀ q, alGet c2p.nodeById q
       = alGet (ns.foldl (processRawNode p t1) (c1p, m, k1)).1.nodeById q) →
    (∀ q, alGet c2p.nodeByName q
       = alGet (ns.foldl (processRawNode p t1) (c1p, m, k1)).1.nodeByName q) →
    (ns.foldl (processRawNode p t2) (c2p, m, 0)).2.1
      = (ns.foldl (processRawNode p t1) (c1p, m, k1)).2.1 ∧
    (ns.foldl (processRawNode p t2) (c2p, m, 0)).2.2 = 0 ∧
    (ns.foldl (processRawNode p t2) (c2p, m, 0)).1.nodes = c2p.nodes ∧
    (ns.foldl (processRawNode p t2) (c2p, m, 0)).1.edges = c2p.edges ∧
    (ns.foldl (processRawNode p t2) (c2p, m, 0)).1.edgeById = c2p.edgeById ∧
    (∀ r, (heapGet (ns.foldl (processRawNode p t2) (c2p, m, 0)).1 r).map stripUpd
       = (heapGet c2p r).map stripUpd) ∧
    (∀ q, alGet (ns.foldl (processRawNode p t2) (c2p, m, 0)).1.nodeById q
       = alGet c2p.nodeById q) ∧
    (∀ q, alGet (ns.foldl (processRawNode p t2) (c2p, m, 0)).1.nodeByName q
       = alGet c2p.nodeByName q) := by
  intro ns
  induction ns with
  | nil =>
    intro _ c1p m k1 c2p _ _ _ _ _
    exact ⟨rfl, rfl, rfl, rfl, rfl, fun _ => rfl, fun _ => rfl, fun _ => rfl⟩
  | cons rn rest ih =>
    intro hsub c1p m k1 c2p hwf hprov hH hI hY
    have hrnb : rn ∈ b.nodes := hsub rn (List.mem_cons_self _ _)
    have hsub' : ∀ x ∈ rest, x ∈ b.nodes := fun x hx => hsub x (List.mem_cons_of_mem _ hx)
    simp only [List.foldl_cons] at hH hI hY ⊢
    have hstep1 : MergeWf (processRawNode p t1 (c1p, m, k1) rn).1 ∧
        ProvFrom c0 b (processRawNode p t1 (c1p, m, k1) rn).1 ∧
        ∃ rP vP,
          alGet (processRawNode p t1 (c1p, m, k1) rn).1.nodeByName
            (lowerStr (normalizeName (propName rn.properties))) = some rP ∧
          heapGet (processRawNode p t1 (c1p, m, k1) rn).1 rP = some vP ∧
          vP.sourceNotes.contains p = true ∧
          (∀ kv ∈ rn.properties, kv.1 = "name" ∨ (vP.properties.lookup kv.1).isSome = true) ∧
          (processRawNode p t1 (c1p, m, k1) rn).2.1 = alSet m rn.id vP.id := by
      cases hn : alGet c1p.nodeByName (lowerStr (normalizeName (propName rn.properties))) with
      | some r =>
        obtain ⟨hrmem, hmap⟩ := hwf.2.2.2.2.2.1 _ (alGet_mem_pair _ _ _ hn)
        cases hg : heapGet c1p r with
        | none => rw [hg] at hmap; exact absurd hmap (by simp)
        | some v =>
          have hid : alGet c1p.nodeById v.id = some r := hwf.2.2.1 r hrmem v hg
          have hnameC : alGet c1p.nodeByName (lowName v) = some r :=
            hwf.2.2.2.2.1 r hrmem v hg
          obtain ⟨wf', prov'⟩ := processUpdate_wfprov c0 b c1p m k1 rn p t1 r v hwf hprov
            hrmem hn hg hid hnameC
          obtain ⟨sM, sK, sN, sE, sB, sX, sH, sI, sY⟩ :=
            processUpdate_spec c1p m k1 rn p t1 r v hn hg hid hnameC
          refine ⟨wf', prov', r, updNode v p t1 rn, ?_, ?_, ?_, ?_, ?_⟩
          · rw [sY]; exact hn
          · rw [sH r, if_pos rfl]
          · exact updNode_contains v p t1 rn
          · intro kv hkv
            by_cases hne : kv.1 = "name"
            · exact Or.inl hne
            · exact Or.inr (updNode_raw_keys v p t1 rn kv hkv hne)
          · rw [sM, updNode_id]
      | none =>
        have hidm := noFallback c0 b c1p rn hwf hprov hcol hrnb hn
        obtain ⟨wf', prov'⟩ :=
          processCreate_wfprov c0 b c1p m k1 rn p t1 hwf hprov hrnb hn hidm
        have hstep := processCreate_spec c1p m k1 rn p t1 hn hidm
        obtain ⟨aN, aX, aE, aB, aIf, aYf, aH, aI, aY⟩ := addNode_fresh_spec c1p
          ⟨generateNodeId rn.label (normalizeName (propName rn.properties)), rn.label,
            newNodeProps (normalizeName (propName rn.properties)) rn.properties,
            [p], t1, t1⟩ hidm
        refine ⟨wf', prov', c1p.nextRef,
          ⟨generateNodeId rn.label (normalizeName (propName rn.properties)), rn.label,
            newNodeProps (normalizeName (propName rn.properties)) rn.properties,
            [p], t1, t1⟩, ?_, ?_, ?_, ?_, ?_⟩
        · rw [hstep]
          dsimp only []
          have hk : lowerStr (normalizeName (propName rn.properties))
              = lowName ⟨generateNodeId rn.label (normalizeName (propName rn.properties)),
                  rn.label, newNodeProps (normalizeName (propName rn.properties)) rn.properties,
                  [p], t1, t1⟩ := (newNode_lowName rn p t1).symm
          rw [aY, if_pos hk]
        · rw [hstep]
          dsimp only []
          rw [aH, if_pos rfl]
        · simp
        · intro kv hkv
          by_cases hne : kv.1 = "name"
          · exact Or.inl hne
          · exact Or.inr (newNodeProps_raw_keys _ _ kv hkv hne)
        · rw [hstep]
    obtain ⟨wf', prov', rP, vP, hb1, hg1, hcontP, hkeysP, hrec1⟩ := hstep1
    obtain ⟨Fwf, Fprov, FE, FB, Fstab⟩ := mergeNodeFold_stable c0 b p t1 hcol rest hsub'
      (processRawNode p t1 (c1p, m, k1) rn).1
      (processRawNode p t1 (c1p, m, k1) rn).2.1
      (processRawNode p t1 (c1p, m, k1) rn).2.2 wf' prov'
    obtain ⟨r2, v2, e1, e2, e3⟩ := Fstab _ rP vP hb1 hg1
    obtain ⟨qM, qK, qN, qE, qB, qH, qI, qY⟩ := remergeStep _ c2p rn p t2 m Fwf
      hH hI hY r2 v2 e1 e2 (e3.2.2.1 hcontP)
      (fun kv hkv => (hkeysP kv hkv).elim Or.inl (fun h => Or.inr (e3.2.2.2 kv.1 h)))
    have hmap2 : (processRawNode p t2 (c2p, m, 0) rn).2.1
        = (processRawNode p t1 (c1p, m, k1) rn).2.1 := by
      rw [qM, e3.1, hrec1]
    have hst2 : processRawNode p t2 (c2p, m, 0) rn
        = ((processRawNode p t2 (c2p, m, 0) rn).1,
           (processRawNode p t1 (c1p, m, k1) rn).2.1, 0) :=
      Prod.ext rfl (Prod.ext hmap2 qK)
    obtain ⟨ihM, ihK, ihN, ihE, ihB, ihH, ihI, ihY⟩ := ih hsub'
      (processRawNode p t1 (c1p, m, k1) rn).1
      (processRawNode p t1 (c1p, m, k1) rn).2.1
      (processRawNode p t1 (c1p, m, k1) rn).2.2
      (processRawNode p t2 (c2p, m, 0) rn).1 wf' prov'
      (fun r => (qH r).trans (hH r))
      (fun q => (qI q).trans (hI q))
      (fun q => (qY q).trans (hY q))
    rw [hst2]
    exact ⟨ihM, ihK, ihN.trans qN, ihE.trans qE, ihB.trans qB,
      fun r => (ihH r).trans (qH r),
      fun q => (ihI q).trans (qI q),
      fun q => (ihY q).trans (qY q)⟩

/-- A non-`none` option is `some`. -/
theorem isSome_of_not_isNone {α : Type} (o : Option α) (h : ¬ o.isNone = true) :
    o.isSome = true := by
  cases o with
  | none => exact absurd rfl h
  | some _ => rfl

/-- A resolved option is not `none`. -/
theorem isNone_eq_false_of_isSome {α : Type} (o : Option α) (h : o.isSome = true) :
    o.isNone = false := by
  cases o with
  | none => exact absurd h (by simp)
  | some _ => rfl

/-- A relationship step never removes an edge-id registration. -/
theorem processRawRel_edge_mono (p : String) (t : Nat) (m : List (String × String))
    (st : GraphCache × Nat) (rel : RawExtractionRelationship) (eid : String)
    (h : (alGet st.1.edgeById eid).isSome = true) :
    (alGet (processRawRel p t m st rel).1.edgeById eid).isSome = true := by
  obtain ⟨c, k⟩ := st
  unfold processRawRel
  cases alGet m rel.source with
  | none => exact h
  | some sid =>
    cases alGet m rel.target with
    | none => exact h
    | some tid =>
      simp only []
      split
      · exact h
      · split
        · simp only [GraphCache.addEdge]
          split
          · exact h
          · show (alGet (alSet c.edgeById _ _) eid).isSome = true
            rw [alGet_alSet]
            split
            · rfl
            · exact h
        · exact h

/-- The relationship loop never removes an edge-id registration. -/
theorem relFold_edge_mono (p : String) (t : Nat) (m : List (String × String)) :
    ∀ (rels : List RawExtractionRelationship) (st : GraphCache × Nat) (eid : String),
    (alGet st.1.edgeById eid).isSome = true →
    (alGet (rels.foldl (processRawRel p t m) st).1.edgeById eid).isSome = true := by
  intro rels
  induction rels with
  | nil => intro st eid h; exact h
  | cons rel rest ih =>
    intro st eid h
    rw [List.foldl_cons]
    exact ih _ eid (processRawRel_edge_mono p t m st rel eid h)

/-- After a step on a relationship whose endpoints are mapped and alive,
its generated edge id is registered. -/
theorem processRawRel_ensures (p : String) (t : Nat) (m : List (String × String))
    (st : GraphCache × Nat) (rel : RawExtractionRelationship) (sid tid : String)
    (hs : alGet m rel.source = some sid) (ht : alGet m rel.target = some tid)
    (hsa : (alGet st.1.nodeById sid).isSome = true)
    (hta : (alGet st.1.nodeById tid).isSome = true) :
    (alGet (processRawRel p t m st rel).1.edgeById
      (generateEdgeId sid tid rel.type)).isSome = true := by
  obtain ⟨c, k⟩ := st
  unfold processRawRel
  rw [hs, ht]
  simp only []
  have h1 : (c.getNodeByIdRef sid).isNone = false := isNone_eq_false_of_isSome _ hsa
  have h2 : (c.getNodeByIdRef tid).isNone = false := isNone_eq_false_of_isSome _ hta
  rw [h1, h2]
  simp only [Bool.or_self, Bool.false_eq_true, if_false]
  split
  · simp only [GraphCache.addEdge]
    split
    · rename_i hx
      exact hx
    · show (alGet (alSet c.edgeById (generateEdgeId sid tid rel.type) _)
        (generateEdgeId sid tid rel.type)).isSome = true
      rw [alGet_alSet_self]
      rfl
  · rename_i hx
    exact isSome_of_not_isNone _ hx

/-- After the relationship loop, every relationship of the list whose
endpoints are mapped and alive has its generated edge id registered. -/
theorem relFold_ensures (p : String) (t : Nat) (m : List (String × String)) :
    ∀ (rels : List RawExtractionRelationship) (st : GraphCache × Nat)
      (rel : RawExtractionRelationship), rel ∈ rels →
    ∀ (sid tid : String),
    alGet m rel.source = some sid → alGet m rel.target = some tid →
    (alGet st.1.nodeById sid).isSome = true →
    (alGet st.1.nodeById tid).isSome = true →
    (alGet (rels.foldl (processRawRel p t m) st).1.edgeById
      (generateEdgeId sid tid rel.type)).isSome = true := by
  intro rels
  induction rels with
  | nil => intro st rel hmem; exact absurd hmem (List.not_mem_nil rel)
  | cons r0 rest ih =>
    intro st rel hmem sid tid hs ht hsa hta
    rw [List.foldl_cons]
    rcases List.mem_cons.mp hmem with h | h
    · subst h
      exact relFold_edge_mono p t m rest _ _
        (processRawRel_ensures p t m st rel sid tid hs ht hsa hta)
    · have hpn := processRawRel_preserves_nodes p t m st r0
      refine ih _ rel h sid tid hs ht ?_ ?_
      · rw [hpn.2.2.2.1]; exact hsa
      · rw [hpn.2.2.2.1]; exact hta

/-- A relationship step whose generated edge id is already registered (when
its endpoints are mapped and alive) changes nothing. -/
theorem processRawRel_noop (p : String) (t : Nat) (m : List (String × String))
    (st : GraphCache × Nat) (rel : RawExtractionRelationship)
    (h : ∀ sid tid, alGet m rel.source = some sid → alGet m rel.target = some tid →
      (alGet st.1.nodeById sid).isSome = true → (alGet st.1.nodeById tid).isSome = true →
      (alGet st.1.edgeById (generateEdgeId sid tid rel.type)).isSome = true) :
    processRawRel p t m st rel = st := by
  obtain ⟨c, k⟩ := st
  unfold processRawRel
  cases hs : alGet m rel.source with
  | none => rfl
  | some sid =>
    cases ht : alGet m rel.target with
    | none => rfl
    | some tid =>
      simp only []
      split
      · rfl
      · rename_i hchk
        have hsa : (alGet c.nodeById sid).isSome = true := by
          refine isSome_of_not_isNone _ (fun hc => hchk ?_)
          show (Option.isNone _ || Option.isNone _) = true
          rw [show (GraphCache.getNodeByIdRef c sid).isNone = true from hc]
          rfl
        have hta : (alGet c.nodeById tid).isSome = true := by
          refine isSome_of_not_isNone _ (fun hc => hchk ?_)
          show (Option.isNone _ || Option.isNone _) = true
          rw [show (GraphCache.getNodeByIdRef c tid).isNone = true from hc]
          simp
        have hreg := h sid tid hs ht hsa hta
        rw [if_neg (by rw [isNone_eq_false_of_isSome _ hreg]; simp)]

/-- Re-running the relationship loop when every listed relationship with
mapped, alive endpoints already has its edge registered is a no-op. -/
theorem remergeRelFold (p : String) (t : Nat) (m : List (String × String)) :
    ∀ (rels : List RawExtractionRelationship) (st : GraphCache × Nat),
    (∀ rel ∈ rels, ∀ sid tid,
      alGet m rel.source = some sid → alGet m rel.target = some tid →
      (alGet st.1.nodeById sid).isSome = true → (alGet st.1.nodeById tid).isSome = true →
      (alGet st.1.edgeById (generateEdgeId sid tid rel.type)).isSome = true) →
    rels.foldl (processRawRel p t m) st = st := by
  intro rels
  induction rels with
  | nil => intro st _; rfl
  | cons rel rest ih =>
    intro st h
    rw [List.foldl_cons,
      processRawRel_noop p t m st rel (h rel (List.mem_cons_self _ _))]
    exact ih st (fun r hr => h r (List.mem_cons_of_mem _ hr))

/-- Two caches whose heaps agree up to `updatedAt` dereference any
reference list to the same stripped node objects. -/
theorem filterMap_heapGet_strip (c d : GraphCache)
    (h : ∀ r, (heapGet c r).map stripUpd = (heapGet d r).map stripUpd) :
    ∀ L : List Nat,
    (L.filterMap (heapGet c)).map stripUpd = (L.filterMap (heapGet d)).map stripUpd := by
  intro L
  induction L with
  | nil => rfl
  | cons r rest ih =>
    simp only [List.filterMap_cons]
    cases hc : heapGet c r with
    | none =>
      have hd : heapGet d r = none := by
        have hr := h r
        rw [hc] at hr
        cases hx : heapGet d r with
        | none => rfl
        | some v => rw [hx] at hr; exact absurd hr (by simp)
      rw [hd]
      exact ih
    | some v =>
      have hr := h r
      rw [hc] at hr
      cases hx : heapGet d r with
      | none => rw [hx] at hr; exact absurd hr (by simp)
      | some w =>
        rw [hx] at hr
        simp only [Option.map_some', Option.some_inj] at hr
        simp only [List.map_cons, ih, hr]

/-- Re-running a whole merge over the cache the first run produced, on a
well-formed collision-free starting store: both loops are observationally
no-ops. -/
theorem remergeRun (c0 : GraphCache) (p : String) (b : OntologyExtractionResult)
    (t1 t2 : Nat) (hwf : MergeWf c0) (hcol : MergeCollisionFree c0 b) :
    ∀ (st1 : GraphCache × List (String × String) × Nat) (E1 : GraphCache × Nat)
      (st2 : GraphCache × List (String × String) × Nat),
    st1 = b.nodes.foldl (processRawNode p t1) (c0, [], 0) →
    E1 = b.relationships.foldl (processRawRel p t1 st1.2.1) (st1.1, 0) →
    st2 = b.nodes.foldl (processRawNode p t2) (E1.1, [], 0) →
    st2.2.1 = st1.2.1 ∧
    st2.2.2 = 0 ∧
    b.relationships.foldl (processRawRel p t2 st2.2.1) (st2.1, 0) = (st2.1, 0) ∧
    st2.1.nodes = E1.1.nodes ∧
    st2.1.edges = E1.1.edges ∧
    st2.1.getAllNodes.map stripUpd = E1.1.getAllNodes.map stripUpd := by
  intro st1 E1 st2 h1 h2 h3
  have hprov0 : ProvFrom c0 b c0 := fun n hn => Or.inl ⟨n, hn, rfl, rfl⟩
  obtain ⟨e1N, e1H, e1X, e1I, e1Y, _, _⟩ :
      E1.1.nodes = st1.1.nodes ∧ E1.1.heap = st1.1.heap ∧ E1.1.nextRef = st1.1.nextRef ∧
      E1.1.nodeById = st1.1.nodeById ∧ E1.1.nodeByName = st1.1.nodeByName ∧
      E1.1.nodesByLabel = st1.1.nodesByLabel ∧
      E1.1.nodesBySourceNote = st1.1.nodesBySourceNote := by
    rw [h2]
    exact relLoop_preserves_nodes p t1 st1.2.1 b.relationships (st1.1, 0)
  have hH : ∀ r, (heapGet E1.1 r).map stripUpd
      = (heapGet (b.nodes.foldl (processRawNode p t1) (c0, [], 0)).1 r).map stripUpd := by
    intro r
    rw [← h1]
    unfold heapGet
    rw [e1H]
  have hI : ∀ q, alGet E1.1.nodeById q
      = alGet (b.nodes.foldl (processRawNode p t1) (c0, [], 0)).1.nodeById q := by
    intro q
    rw [← h1, e1I]
  have hY : ∀ q, alGet E1.1.nodeByName q
      = alGet (b.nodes.foldl (processRawNode p t1) (c0, [], 0)).1.nodeByName q := by
    intro q
    rw [← h1, e1Y]
  obtain ⟨nM, nK, nN, nE, nB, nH, nI, nY⟩ := remergeNodeFold c0 b p t1 t2 hcol b.nodes
    (fun _ h => h) c0 [] 0 E1.1 hwf hprov0 hH hI hY
  rw [← h1] at nM
  rw [← h3] at nM nK nN nE nB nH nI nY
  have hpres : ∀ rel ∈ b.relationships, ∀ sid tid,
      alGet st2.2.1 rel.source = some sid → alGet st2.2.1 rel.target = some tid →
      (alGet (st2.1, 0).1.nodeById sid).isSome = true →
      (alGet (st2.1, 0).1.nodeById tid).isSome = true →
      (alGet (st2.1, 0).1.edgeById (generateEdgeId sid tid rel.type)).isSome = true := by
    intro rel hrel sid tid hs ht hsa hta
    rw [nM] at hs ht
    have hsa1 : (alGet st1.1.nodeById sid).isSome = true := by
      rw [← e1I, ← nI sid]
      exact hsa
    have hta1 : (alGet st1.1.nodeById tid).isSome = true := by
      rw [← e1I, ← nI tid]
      exact hta
    have hens := relFold_ensures p t1 st1.2.1 b.relationships (st1.1, 0) rel hrel
      sid tid hs ht hsa1 hta1
    rw [← h2] at hens
    show (alGet st2.1.edgeById (generateEdgeId sid tid rel.type)).isSome = true
    rw [nB]
    exact hens
  have hrel2 := remergeRelFold p t2 st2.2.1 b.relationships (st2.1, 0) hpres
  refine ⟨nM, nK, hrel2, nN, nE, ?_⟩
  unfold GraphCache.getAllNodes
  rw [nN]
  exact filterMap_heapGet_strip st2.1 E1.1 nH E1.1.nodes

/-- C3 (amended): idempotent re-merge holds on every well-formed store
whose generated node ids are collision-free against the batch (ids may
coincide only between same-named nodes; the literal claim fails without
this because the `:` id separator lets differently-named nodes collide,
see the counterexample).  Under `MergeWf` and `MergeCollisionFree`,
merging the same batch for the same document twice makes the second call
report `nodesAdded = 0` and `relationshipsAdded = 0` and leaves the node
and edge collections identical to those after the first call, the node
objects up to their `updatedAt` timestamps. -/
theorem C3_idempotent_remerge (c0 : GraphCache) (p : String)
    (b : OntologyExtractionResult) (t1 t2 : Nat)
    (hwf : MergeWf c0) (hcol : MergeCollisionFree c0 b) :
    (mergeExtractionIntoCache (mergeExtractionIntoCache c0 p b t1).cache p b t2).nodesAdded
      = 0 ∧
    (mergeExtractionIntoCache
      (mergeExtractionIntoCache c0 p b t1).cache p b t2).relationshipsAdded = 0 ∧
    (mergeExtractionIntoCache (mergeExtractionIntoCache c0 p b t1).cache p b t2).cache.nodes
      = (mergeExtractionIntoCache c0 p b t1).cache.nodes ∧
    (mergeExtractionIntoCache (mergeExtractionIntoCache c0 p b t1).cache p b t2).cache.edges
      = (mergeExtractionIntoCache c0 p b t1).cache.edges ∧
    (mergeExtractionIntoCache
        (mergeExtractionIntoCache c0 p b t1).cache p b t2).cache.getAllNodes.map stripUpd
      = (mergeExtractionIntoCache c0 p b t1).cache.getAllNodes.map stripUpd := by
  obtain ⟨q1, q2, q3, q4, q5, q6⟩ := remergeRun c0 p b t1 t2 hwf hcol
    (b.nodes.foldl (processRawNode p t1) (c0, [], 0))
    (b.relationships.foldl
      (processRawRel p t1 (b.nodes.foldl (processRawNode p t1) (c0, [], 0)).2.1)
      ((b.nodes.foldl (processRawNode p t1) (c0, [], 0)).1, 0))
    (b.nodes.foldl (processRawNode p t2)
      ((b.relationships.foldl
          (processRawRel p t1 (b.nodes.foldl (processRawNode p t1) (c0, [], 0)).2.1)
          ((b.nodes.foldl (processRawNode p t1) (c0, [], 0)).1, 0)).1, [], 0))
    rfl rfl rfl
  exact ⟨q2, congrArg Prod.snd q3,
    (congrArg (fun s => s.1.nodes) q3).trans q4,
    (congrArg (fun s => s.1.edges) q3).trans q5,
    (congrArg (fun s => (s.1.getAllNodes.map stripUpd)) q3).trans q6⟩

/-- The amended C3 at a concrete well-formed input: an empty store, a
two-node one-relationship batch, merged twice from the same document. -/
theorem C3_idempotent_remerge_witness :
    (mergeExtractionIntoCache (mergeExtractionIntoCache emptyCache "n.md" c3wBatch 1).cache
      "n.md" c3wBatch 2).nodesAdded = 0 ∧
    (mergeExtractionIntoCache (mergeExtractionIntoCache emptyCache "n.md" c3wBatch 1).cache
      "n.md" c3wBatch 2).relationshipsAdded = 0 ∧
    (mergeExtractionIntoCache (mergeExtractionIntoCache emptyCache "n.md" c3wBatch 1).cache
      "n.md" c3wBatch 2).cache.nodes
      = (mergeExtractionIntoCache emptyCache "n.md" c3wBatch 1).cache.nodes ∧
    (mergeExtractionIntoCache (mergeExtractionIntoCache emptyCache "n.md" c3wBatch 1).cache
      "n.md" c3wBatch 2).cache.edges
      = (mergeExtractionIntoCache emptyCache "n.md" c3wBatch 1).cache.edges ∧
    (mergeExtractionIntoCache (mergeExtractionIntoCache emptyCache "n.md" c3wBatch 1).cache
        "n.md" c3wBatch 2).cache.getAllNodes.map stripUpd
      = (mergeExtractionIntoCache emptyCache "n.md" c3wBatch 1).cache.getAllNodes.map
          stripUpd :=
  C3_idempotent_remerge emptyCache "n.md" c3wBatch 1 2
    (by unfold MergeWf; decide) (by unfold MergeCollisionFree; decide)
